import Mathlib

/-!
A shallow embedding of the lexical scanner, literal codec (string/block-string
unquoting and quoting), value grammar and minifier of the graphql-parser
repository, together with proofs about the embedded definitions.

Strings are modelled as `List Char`.  Rust measures string lengths and slices
strings in UTF-8 bytes; where the source does so (the block-string dedent
algorithm) the embedding computes byte lengths explicitly via `utf8Len`.
Source positions (line/column bookkeeping) and the one-token memoization slot
of the token stream do not influence which tokens or errors are produced and
are not modelled.
-/

set_option maxRecDepth 100000

namespace GraphQLParser

abbrev Str := List Char

/-- Number of bytes of the UTF-8 encoding of a character. -/
def utf8Len (c : Char) : Nat :=
  if c.toNat < 0x80 then 1
  else if c.toNat < 0x800 then 2
  else if c.toNat < 0x10000 then 3
  else 4

/-- Byte length of a string, as Rust's `str::len`. -/
def byteLen (s : Str) : Nat := (s.map utf8Len).sum

/-- Rust `char::is_whitespace`: the Unicode `White_Space` property. -/
def isRustWhitespace (c : Char) : Bool :=
  let n := c.toNat
  (0x09 ≤ n ∧ n ≤ 0x0D) ∨ n = 0x20 ∨ n = 0x85 ∨ n = 0xA0 ∨ n = 0x1680 ∨
  (0x2000 ≤ n ∧ n ≤ 0x200A) ∨ n = 0x2028 ∨ n = 0x2029 ∨ n = 0x202F ∨
  n = 0x205F ∨ n = 0x3000

/-- Rust `str::trim_start`: drop the leading whitespace characters. -/
def trimStart (s : Str) : Str := s.dropWhile isRustWhitespace

/-- Rust `str::trim_end`: drop the trailing whitespace characters. -/
def trimEnd (s : Str) : Str := (trimStart s.reverse).reverse

/-- Rust `str::trim`: drop whitespace on both ends. -/
def rustTrim (s : Str) : Str := trimEnd (trimStart s)

/-- Split a string at every occurrence of character `sep`; `n` separators
produce `n + 1` pieces (Rust `str::split`). -/
def splitOnChar (sep : Char) : Str → List Str
  | [] => [[]]
  | c :: rest =>
    if c = sep then [] :: splitOnChar sep rest
    else
      match splitOnChar sep rest with
      | [] => [[c]]
      | hd :: tl => (c :: hd) :: tl

/-- Drop one trailing `'\r'` (Rust `lines` strips the `\r` of a `\r\n`). -/
def dropTrailingCR (l : Str) : Str :=
  if l.getLast? = some '\r' then l.dropLast else l

/-- Rust `str::lines`: split on `'\n'`, drop the final piece when it is empty
(the final line ending is optional), strip one trailing `'\r'` per line. -/
def rustLines (s : Str) : List Str :=
  let parts := splitOnChar '\n' s
  let parts := if parts.getLast? = some [] then parts.dropLast else parts
  parts.map dropTrailingCR

/-- Indentation of a line in bytes: `line.len() - line.trim_start().len()`
in the source, which counts the UTF-8 bytes of the leading whitespace. -/
def indentBytes (l : Str) : Nat := byteLen l - byteLen (trimStart l)

/-- A line consisting entirely of whitespace: the source detects this as
`indent == line.len()`. -/
def wsOnly (l : Str) : Bool := indentBytes l = byteLen l

/-- Drop the first `n` bytes of a string.  Returns `none` when `n` falls in
the middle of a character's UTF-8 encoding, where the Rust slice `&line[n..]`
would panic. -/
def byteDrop (n : Nat) (l : Str) : Option Str :=
  match l with
  | [] => if n = 0 then some [] else none
  | c :: rest =>
    if n = 0 then some (c :: rest)
    else if utf8Len c ≤ n then byteDrop (n - utf8Len c) rest
    else none

/-- Errors of the literal codec.  `slashAtEnd` stands for the source's
`expect("slash cant be at the end")` panic and `assertionFailed` for a failed
`debug_assert` precondition; `slicePanic` stands for the panic of a byte
slice that does not fall on a character boundary. -/
inductive UnquoteErr where
  | fewerThanFourHexDigits (got : Str)
  | invalidCodePoint (digits : Str)
  | badEscapedChar (c : Char)
  | slashAtEnd
  | assertionFailed
  | slicePanic
deriving DecidableEq, Repr

/-- Value of one hexadecimal digit. -/
def hexVal? (c : Char) : Option Nat :=
  if '0' ≤ c ∧ c ≤ '9' then some (c.toNat - '0'.toNat)
  else if 'a' ≤ c ∧ c ≤ 'f' then some (c.toNat - 'a'.toNat + 10)
  else if 'A' ≤ c ∧ c ≤ 'F' then some (c.toNat - 'A'.toNat + 10)
  else none

/-- Rust `u32::from_str_radix(s, 16)`: an optional leading `'+'` (no `'-'`
for an unsigned type), then one or more hex digits.  Overflow cannot occur
for the at most four digits the caller passes. -/
def fromStrRadix16 (s : Str) : Option Nat :=
  let digits := match s with
    | '+' :: rest => rest
    | _ => s
  if digits.isEmpty then none
  else digits.foldl (fun acc c =>
    match acc, hexVal? c with
    | some a, some v => some (a * 16 + v)
    | _, _ => none) (some 0)

/-- Rust `char::from_u32`: `none` exactly on surrogates and values above
`0x10FFFF`. -/
def charFromU32 (n : Nat) : Option Char :=
  if (0xD800 ≤ n ∧ n ≤ 0xDFFF) ∨ 0x10FFFF < n then none else some (Char.ofNat n)

/-- The escape-decoding loop of `unquote_string` (src/common.rs), over the
characters between the enclosing quotes. -/
def unquoteGo : Str → Except UnquoteErr Str
  | [] => .ok []
  | c :: rest =>
    if c = '\\' then
      match rest with
      | [] => .error .slashAtEnd
      | e :: rest2 =>
        if e = '"' ∨ e = '\\' ∨ e = '/' then (unquoteGo rest2).map (e :: ·)
        else if e = 'b' then (unquoteGo rest2).map ('\x10' :: ·)
        else if e = 'f' then (unquoteGo rest2).map ('\x0C' :: ·)
        else if e = 'n' then (unquoteGo rest2).map ('\n' :: ·)
        else if e = 'r' then (unquoteGo rest2).map ('\r' :: ·)
        else if e = 't' then (unquoteGo rest2).map ('\t' :: ·)
        else if e = 'u' then
          match rest2 with
          | d1 :: d2 :: d3 :: d4 :: rest3 =>
            match fromStrRadix16 [d1, d2, d3, d4] with
            | some n =>
              match charFromU32 n with
              | some ch => (unquoteGo rest3).map (ch :: ·)
              | none => .error (.invalidCodePoint [d1, d2, d3, d4])
            | none => .error (.invalidCodePoint [d1, d2, d3, d4])
          | short => .error (.fewerThanFourHexDigits short)
        else .error (.badEscapedChar e)
    else (unquoteGo rest).map (c :: ·)

/-- `unquote_string` (src/common.rs): strip the enclosing quotes and decode
backslash escapes. -/
def unquote_string (s : Str) : Except UnquoteErr Str :=
  match s with
  | '"' :: rest =>
    if rest.getLast? = some '"' then unquoteGo rest.dropLast
    else .error .assertionFailed
  | _ => .error .assertionFailed

/-- Accumulator of the indent-scanning loop of `unquote_block_string`;
`commonIndent = none` models the initial `usize::MAX`. -/
structure BlockScan where
  commonIndent : Option Nat
  firstNonEmpty : Option Nat
  lastNonEmpty : Nat
deriving DecidableEq, Repr

/-- One step of the indent-scanning loop of `unquote_block_string`. -/
def blockScanStep (st : BlockScan) (idx : Nat) (line : Str) : BlockScan :=
  if wsOnly line then st
  else
    { commonIndent :=
        if idx = 0 then st.commonIndent
        else
          match st.commonIndent with
          | none => some (indentBytes line)
          | some ci => some (min ci (indentBytes line)),
      firstNonEmpty :=
        match st.firstNonEmpty with
        | none => some idx
        | some i => some i,
      lastNonEmpty := idx }

/-- The whole indent-scanning loop. -/
def blockScan (lines : List Str) : BlockScan :=
  lines.enum.foldl (fun st p => blockScanStep st p.1 p.2)
    ⟨none, none, 0⟩

/-- Running minimum over a list, starting from an optional seed (the shape
the `common_indent` accumulator takes). -/
def foldMinOpt (o : Option Nat) (xs : List Nat) : Option Nat :=
  xs.foldl (fun acc x =>
    match acc with
    | none => some x
    | some y => some (min y x)) o

/-- Rust `str::replace(r"\""" , r"""" )` specialised: rewrite every
(leftmost, non-overlapping) `\"""` to `"""`. -/
def replaceEscToTri : Str → Str
  | '\\' :: '"' :: '"' :: '"' :: rest => '"' :: '"' :: '"' :: replaceEscToTri rest
  | c :: rest => c :: replaceEscToTri rest
  | [] => []

/-- Rust `str::replace` specialised: rewrite every (leftmost,
non-overlapping) `"""` to `\"""`. -/
def replaceTriToEsc : Str → Str
  | '"' :: '"' :: '"' :: rest => '\\' :: '"' :: '"' :: '"' :: replaceTriToEsc rest
  | c :: rest => c :: replaceTriToEsc rest
  | [] => []

/-- The per-line indent removal of `unquote_block_string`:
`if idx != 0 && line.len() >= common_indent { &line[common_indent..] } else { line }`.
`none` for the common indent models `usize::MAX`, which no line length
reaches. -/
def stripLine (ci : Option Nat) (idx : Nat) (line : Str) : Option Str :=
  match ci with
  | some n => if idx ≠ 0 ∧ byteLen line ≥ n then byteDrop n line else some line
  | none => some line

/-- `unquote_block_string` (src/common.rs): strip the triple quotes, drop
leading/trailing blank lines, remove the common indent from every line but
the first, undo the `\"""` escape, and rejoin with newlines. -/
def unquote_block_string (src : Str) : Except UnquoteErr Str :=
  if src.take 3 = ['"', '"', '"'] ∧ src.length ≥ 6 ∧
      src.reverse.take 3 = ['"', '"', '"'] then
    let inner := (src.drop 3).take (src.length - 6)
    let lines := rustLines inner
    let st := blockScan lines
    match st.firstNonEmpty with
    | none => .ok []
    | some first =>
      let window := (lines.enum.drop first).take (st.lastNonEmpty - first + 1)
      match window.mapM (fun p => stripLine st.commonIndent p.1 p.2) with
      | none => .error .slicePanic
      | some stripped =>
        .ok (List.intercalate ['\n'] (stripped.map replaceEscToTri))
  else .error .assertionFailed

/-- Does the string contain a newline (first classification pass of
`write_quoted`)? -/
def hasNewline (s : Str) : Bool := s.any (· = '\n')

/-- A character `write_quoted`'s classification pass counts as
non-printable: neither `'\n'`, `'\r'`, `'\t'` nor in `U+0020..=U+FFFF`. -/
def isNonPrintable (c : Char) : Bool :=
  ¬(c = '\n' ∨ c = '\r' ∨ c = '\t' ∨ (0x20 ≤ c.toNat ∧ c.toNat ≤ 0xFFFF))

/-- Does the string contain a non-printable character? -/
def hasNonPrintable (s : Str) : Bool := s.any isNonPrintable

/-- `format!("\\u{:04}", n)` of the source: the *decimal* digits of `n`,
left-padded with zeros to at least four characters. -/
def padDecimal4 (n : Nat) : Str :=
  let d := Nat.toDigits 10 n
  List.replicate (4 - d.length) '0' ++ d

/-- Escape of one character on the single-line path of `write_quoted`
(src/format.rs). -/
def escapeCharSingle (c : Char) : Str :=
  if c = '\r' then ['\\', 'r']
  else if c = '\n' then ['\\', 'n']
  else if c = '\t' then ['\\', 't']
  else if c = '"' then ['\\', '"']
  else if c = '\\' then ['\\', '\\']
  else if 0x20 ≤ c.toNat ∧ c.toNat ≤ 0xFFFF then [c]
  else '\\' :: 'u' :: padDecimal4 c.toNat

/-- The single-line (quoted) form emitted by `write_quoted`. -/
def writeQuotedSingleLine (s : Str) : Str :=
  '"' :: (s.map escapeCharSingle).flatten ++ ['"']

/-- `n` spaces, as `Formatter::indent` pushes. -/
def spacesN (n : Nat) : Str := List.replicate n ' '

/-- The block-string (triple-quote) form emitted by `write_quoted`, at
formatter indent `curIndent` with configured indent width `styleIndent`. -/
def writeQuotedBlock (styleIndent curIndent : Nat) (s : Str) : Str :=
  ['"', '"', '"'] ++ ['\n'] ++
    ((rustLines s).map (fun line =>
      (if rustTrim line = [] then []
       else spacesN (curIndent + styleIndent) ++ replaceTriToEsc line) ++ ['\n'])).flatten
  ++ spacesN curIndent ++ ['"', '"', '"']

/-- `Formatter::write_quoted` (src/format.rs): single-line form unless the
string has a newline and no non-printable character, in which case the
block form. -/
def writeQuoted (styleIndent curIndent : Nat) (s : Str) : Str :=
  if ¬ hasNewline s ∨ hasNonPrintable s then writeQuotedSingleLine s
  else writeQuotedBlock styleIndent curIndent s

/-- Token kinds (src/tokenizer.rs). -/
inductive Kind where
  | punctuator | name | intValue | floatValue | stringValue | blockString
deriving DecidableEq, Repr

/-- A token: its kind and the exact sub-slice of source that constitutes
it. -/
structure Token where
  kind : Kind
  value : Str
deriving DecidableEq, Repr

/-- Scan errors of the tokenizer, keyed by the messages in
src/tokenizer.rs. -/
inductive ScanErr where
  | endOfInput
  | bareDot
  | unsupportedFloat (v : Str)
  | unsupportedInteger (v : Str)
  | unterminatedBlockString
  | unterminatedString
  | unexpectedCharacter (c : Char)
deriving DecidableEq, Repr

/-- ASCII decimal digit. -/
def isDigitCh (c : Char) : Bool := '0' ≤ c ∧ c ≤ '9'

/-- `check_int` (src/tokenizer.rs): `0`, `-0`, or no leading zero, not a
bare minus, and everything after the first character a digit (the first
character is a digit or minus, as produced by the tokenizer). -/
def check_int (v : Str) : Bool :=
  v = ['0'] ∨ v = ['-', '0'] ∨
    (¬ v.take 1 = ['0'] ∧ v ≠ ['-'] ∧ ¬ v.take 2 = ['-', '0'] ∧
      (v.drop 1).all isDigitCh)

/-- `check_dec` (src/tokenizer.rs): one or more digits. -/
def check_dec (v : Str) : Bool := ¬ v.isEmpty ∧ v.all isDigitCh

/-- `check_exp` (src/tokenizer.rs): a mandatory sign then one or more
digits. -/
def check_exp (v : Str) : Bool :=
  (v.take 1 = ['-'] ∨ v.take 1 = ['+']) ∧ v.length ≥ 2 ∧
    (v.drop 1).all isDigitCh

/-- `check_float` (src/tokenizer.rs), where `e`/`r` are the recorded
positions of the exponent marker and the decimal point.  The source's
`(None, None)` arm is `unreachable!()`; it is modelled as `false`. -/
def check_float (v : Str) (e r : Option Nat) : Bool :=
  match e, r with
  | some e, some r =>
    if e < r then false
    else check_int (v.take r) ∧ check_dec ((v.drop (r + 1)).take (e - r - 1)) ∧
      check_exp (v.drop (e + 1))
  | some e, none => check_int (v.take e) ∧ check_exp (v.drop (e + 1))
  | none, some r => check_int (v.take r) ∧ check_dec (v.drop (r + 1))
  | none, none => false

/-- Single-character punctuators. -/
def isPunctChar (c : Char) : Bool :=
  c = '!' ∨ c = '$' ∨ c = ':' ∨ c = '=' ∨ c = '@' ∨ c = '|' ∨
  c = '(' ∨ c = ')' ∨ c = '[' ∨ c = ']' ∨ c = '\x7b' ∨ c = '\x7d'

/-- First character of a Name token. -/
def isNameStart (c : Char) : Bool :=
  c = '_' ∨ ('a' ≤ c ∧ c ≤ 'z') ∨ ('A' ≤ c ∧ c ≤ 'Z')

/-- Continuation character of a Name token. -/
def isNameCont (c : Char) : Bool := isNameStart c ∨ isDigitCh c

/-- Characters that end a number token (whitespace, comma, comment or
punctuator). -/
def numDelim (c : Char) : Bool :=
  c = ' ' ∨ c = '\n' ∨ c = '\r' ∨ c = '\t' ∨ c = ',' ∨ c = '#' ∨
  c = '!' ∨ c = '$' ∨ c = ':' ∨ c = '=' ∨ c = '@' ∨ c = '|' ∨
  c = '(' ∨ c = ')' ∨ c = '[' ∨ c = ']' ∨ c = '\x7b' ∨ c = '\x7d'

/-- The scanning loop of the number branch of `peek_token`: length of the
token and the recorded (last) positions of the exponent marker and decimal
point.  `rest` is the input after the leading digit or minus; `idx` starts
at 1. -/
def scanNumber : Str → Nat → Option Nat → Option Nat → Nat × Option Nat × Option Nat
  | [], idx, e, r => (idx, e, r)
  | c :: rest, idx, e, r =>
    if numDelim c then (idx, e, r)
    else if c = '.' then scanNumber rest (idx + 1) e (some idx)
    else if c = 'e' ∨ c = 'E' then scanNumber rest (idx + 1) (some idx) r
    else scanNumber rest (idx + 1) e r

/-- The scanning loop of the single-line string branch of `peek_token`:
`prev` is the previously seen character, `n` the number of characters
consumed so far (including the opening quote).  A quote preceded by a
backslash does not terminate the string. -/
def scanStringBody : Str → Char → Nat → Except ScanErr Nat
  | [], _, _ => .error .unterminatedString
  | c :: rest, prev, n =>
    if c = '"' ∧ prev = '\\' then scanStringBody rest c (n + 1)
    else if c = '"' then .ok (n + 1)
    else if c = '\n' then .error .unterminatedString
    else scanStringBody rest c (n + 1)

/-- Search for the terminating `"""` of a block string: the (leftmost,
non-overlapping) occurrence of `"""` not immediately preceded by a
backslash, as `match_indices` iterates in the source.  `tail` is the input
after the opening `"""`, so the initial `prev` is `'"'`. -/
def findBlockEnd : Str → Char → Nat → Option Nat
  | '"' :: '"' :: '"' :: rest, prev, i =>
    if prev = '\\' then findBlockEnd rest '"' (i + 3) else some i
  | c :: rest, _, i => findBlockEnd rest c (i + 1)
  | [], _, _ => none

/-- `TokenStream::peek_token` (src/tokenizer.rs): classify the token that
starts the input and return its kind and length in characters. -/
def peekToken (s : Str) : Except ScanErr (Kind × Nat) :=
  match s with
  | [] => .error .endOfInput
  | c :: rest =>
    if isPunctChar c then .ok (.punctuator, 1)
    else if c = '.' then
      if rest.take 2 = ['.', '.'] then .ok (.punctuator, 3)
      else .error .bareDot
    else if isNameStart c then .ok (.name, 1 + (rest.takeWhile isNameCont).length)
    else if c = '-' ∨ isDigitCh c then
      let (len, e, r) := scanNumber rest 1 none none
      let v := s.take len
      if e.isSome ∨ r.isSome then
        if check_float v e r then .ok (.floatValue, len)
        else .error (.unsupportedFloat v)
      else
        if check_int v then .ok (.intValue, len)
        else .error (.unsupportedInteger v)
    else if c = '"' then
      if rest.take 2 = ['"', '"'] then
        match findBlockEnd (rest.drop 2) '"' 0 with
        | some i => .ok (.blockString, i + 6)
        | none => .error .unterminatedBlockString
      else (scanStringBody rest '"' 1).map (fun n => (.stringValue, n))
    else .error (.unexpectedCharacter c)

mutual

/-- `skip_whitespace` (src/tokenizer.rs): drop whitespace, commas, the
byte-order mark, carriage returns and `#`-to-end-of-line comments. -/
def dropWs : Str → Str
  | [] => []
  | c :: rest =>
    if c = '\uFEFF' ∨ c = '\r' ∨ c = '\t' ∨ c = '\n' ∨ c = ' ' ∨ c = ',' then
      dropWs rest
    else if c = '#' then dropComment rest
    else c :: rest

/-- The comment-skipping inner loop of `skip_whitespace`: consume through
the next line break. -/
def dropComment : Str → Str
  | [] => []
  | c :: rest =>
    if c = '\r' ∨ c = '\n' then dropWs rest else dropComment rest

end

/-- The token-pulling loop (`TokenStream::uncons` until `end_of_input`),
fuelled; one token consumes at least one character, so fuel
`length + 1` always suffices. -/
def tokenizeF : Nat → Str → Except ScanErr (List Token)
  | 0, _ => .ok []
  | fuel + 1, s =>
    if s.isEmpty then .ok []
    else
      match peekToken s with
      | .error e => .error e
      | .ok (k, len) =>
        match tokenizeF fuel (dropWs (s.drop len)) with
        | .error e => .error e
        | .ok toks => .ok (⟨k, s.take len⟩ :: toks)

/-- Tokenize a whole source: skip leading whitespace (as
`TokenStream::new` does) and pull tokens until end of input. -/
def tokenize (s : Str) : Except ScanErr (List Token) :=
  tokenizeF (s.length + 1) (dropWs s)

/-- `MinifyError` wraps an underlying scan error (src/query/minify.rs
stores its rendered message). -/
inductive MinifyError where
  | mk (e : ScanErr)
deriving DecidableEq, Repr

/-- The loop of `minify_query` (src/query/minify.rs): re-tokenize,
emitting each token's text, preceded by a single space when the previous
pushed token and the current one are both non-punctuators.  `prevNonPunct`
models the accumulator variable (named `prev_was_punctuator` in the
source, but assigned the *non*-punctuator flag). -/
def minifyF : Nat → Str → Bool → Except MinifyError Str
  | 0, _, _ => .ok []
  | fuel + 1, s, prevNonPunct =>
    if s.isEmpty then .ok []
    else
      match peekToken s with
      | .error e => .error (.mk e)
      | .ok (k, len) =>
        let isNonPunct := k ≠ Kind.punctuator
        match minifyF fuel (dropWs (s.drop len)) isNonPunct with
        | .error e => .error e
        | .ok out =>
          .ok ((if prevNonPunct ∧ isNonPunct then [' '] else []) ++ s.take len ++ out)

/-- `minify_query` (src/query/minify.rs). -/
def minify_query (source : Str) : Except MinifyError Str :=
  minifyF (source.length + 1) (dropWs source) false

/-- The separating rule as the specification states it: concatenate the
token texts, inserting a single space exactly between two adjacent tokens
that are both non-punctuators.  `prev` records whether the previous token
was a non-punctuator. -/
def joinMinified (prev : Bool) : List Token → Str
  | [] => []
  | t :: rest =>
    (if prev ∧ t.kind ≠ Kind.punctuator then [' '] else []) ++ t.value ++
      joinMinified (t.kind ≠ Kind.punctuator) rest

/-- AST values (`Value` in src/common.rs).  The `float` payload keeps the
raw token text: IEEE-754 `f64` semantics are not needed by any claim.
Object fields live in a key-sorted association list modelling `BTreeMap`
(Rust compares strings byte-wise, which UTF-8 makes the same order as
character-wise). -/
inductive Val where
  | variable (n : Str)
  | int (i : Int)
  | float (raw : Str)
  | str (s : Str)
  | boolean (b : Bool)
  | null
  | enum (n : Str)
  | list (items : List Val)
  | obj (fields : List (Str × Val))
deriving Repr

instance : Inhabited Val := ⟨.null⟩

/-- Lexicographic order on strings (Rust `Ord` for `str`). -/
def strLt (a b : Str) : Bool :=
  match a, b with
  | [], [] => false
  | [], _ :: _ => true
  | _ :: _, [] => false
  | c :: as_, d :: bs => if c < d then true else if d < c then false else strLt as_ bs

/-- `BTreeMap::insert` on the sorted-association-list model: keep keys in
strictly increasing order; an equal key replaces the stored value. -/
def btreeInsert (k : Str) (v : Val) : List (Str × Val) → List (Str × Val)
  | [] => [(k, v)]
  | (k', v') :: rest =>
    if strLt k k' then (k, v) :: (k', v') :: rest
    else if strLt k' k then (k', v') :: btreeInsert k v rest
    else (k, v) :: rest

/-- `BTreeMap::from_iter` over the pair list a parsed object literal
collects: insert each pair in source order, so a later duplicate key wins. -/
def btreeFromList (l : List (Str × Val)) : List (Str × Val) :=
  l.foldl (fun m p => btreeInsert p.1 p.2 m) []

/-- Rust `i64::from_str`: optional sign, one or more digits, error on
overflow. -/
def parseI64 (s : Str) : Option Int :=
  let (neg, digits) :=
    match s with
    | '-' :: rest => (true, rest)
    | '+' :: rest => (false, rest)
    | _ => (false, s)
  if digits.isEmpty ∨ ¬ digits.all isDigitCh then none
  else
    let n : Nat := digits.foldl (fun a c => a * 10 + (c.toNat - '0'.toNat)) 0
    if neg then if n ≤ 2 ^ 63 then some (-(n : Int)) else none
    else if n < 2 ^ 63 then some ((n : Int)) else none

/-- Result of a combinator parser over the token stream, following
`combine`'s four-way result: success always consumes here (every grammar
alternative below consumes at least one token), and an error records
whether input was consumed (`err true` = `CommitErr`, which `.or` chains
and `many` propagate; `err false` = `PeekErr`, on which alternation tries
the next branch and `many` stops). -/
inductive PRes (α : Type) where
  | ok (a : α) (rest : List Token)
  | err (consumed : Bool)
deriving Repr

/-- Does the punctuator token equal `v`? -/
def isPunctTok (t : Token) (v : Str) : Bool :=
  t.kind = Kind.punctuator ∧ t.value = v

/-- `plain_value` (src/common.rs): `true`/`false`/`null` idents, then any
name as an enum symbol, then int, float, string and block-string values.
A kind match followed by a failing conversion (`and_then`) is a consumed
error. -/
def plainValue (ts : List Token) : PRes Val :=
  match ts with
  | [] => .err false
  | t :: rest =>
    if t.kind = Kind.name then
      if t.value = "true".toList then .ok (.boolean true) rest
      else if t.value = "false".toList then .ok (.boolean false) rest
      else if t.value = "null".toList then .ok .null rest
      else .ok (.enum t.value) rest
    else if t.kind = Kind.intValue then
      match parseI64 t.value with
      | some i => .ok (.int i) rest
      | none => .err true
    else if t.kind = Kind.floatValue then .ok (.float t.value) rest
    else if t.kind = Kind.stringValue then
      match unquote_string t.value with
      | .ok s => .ok (.str s) rest
      | .error _ => .err true
    else if t.kind = Kind.blockString then
      match unquote_block_string t.value with
      | .ok s => .ok (.str s) rest
      | .error _ => .err true
    else .err false

mutual

/-- `value` (src/common.rs): a plain value, a `$`-variable, a bracketed
list of values, or a braced object of `name: value` pairs.  Fuelled; each
recursive descent consumes at least one token for every two units of fuel,
so the top-level wrapper's fuel always suffices. -/
def valueF : Nat → List Token → PRes Val
  | 0, _ => .err true
  | fuel + 1, ts =>
    match plainValue ts with
    | .ok v rest => .ok v rest
    | .err true => .err true
    | .err false =>
      match ts with
      | [] => .err false
      | t :: rest =>
        if isPunctTok t ['$'] then
          match rest with
          | [] => .err true
          | u :: rest2 =>
            if u.kind = Kind.name then .ok (.variable u.value) rest2 else .err true
        else if isPunctTok t ['['] then
          match manyValueF fuel rest with
          | .ok items rest2 =>
            match rest2 with
            | [] => .err true
            | u :: rest3 =>
              if isPunctTok u [']'] then .ok (.list items) rest3 else .err true
          | .err _ => .err true
        else if isPunctTok t ['\x7b'] then
          match manyPairVF fuel rest with
          | .ok pairs rest2 =>
            match rest2 with
            | [] => .err true
            | u :: rest3 =>
              if isPunctTok u ['\x7d'] then .ok (.obj (btreeFromList pairs)) rest3
              else .err true
          | .err _ => .err true
        else .err false

/-- `many(parser(value))` inside the list branch of `value`. -/
def manyValueF : Nat → List Token → PRes (List Val)
  | 0, _ => .err true
  | fuel + 1, ts =>
    match valueF fuel ts with
    | .ok v rest =>
      match manyValueF fuel rest with
      | .ok items rest2 => .ok (v :: items) rest2
      | .err b => .err b
    | .err false => .ok [] ts
    | .err true => .err true

/-- `many(name().skip(punct(":")).and(parser(value)))` inside the object
branch of `value`. -/
def manyPairVF : Nat → List Token → PRes (List (Str × Val))
  | 0, _ => .err true
  | fuel + 1, ts =>
    match ts with
    | [] => .ok [] ts
    | t :: rest =>
      if t.kind = Kind.name then
        match rest with
        | [] => .err true
        | u :: rest2 =>
          if isPunctTok u [':'] then
            match valueF fuel rest2 with
            | .ok v rest3 =>
              match manyPairVF fuel rest3 with
              | .ok ps rest4 => .ok ((t.value, v) :: ps) rest4
              | .err b => .err b
            | .err _ => .err true
          else .err true
      else .ok [] ts

end

mutual

/-- `default_value` (src/common.rs): exactly the branches of `value`
except the `$`-variable alternative. -/
def defaultF : Nat → List Token → PRes Val
  | 0, _ => .err true
  | fuel + 1, ts =>
    match plainValue ts with
    | .ok v rest => .ok v rest
    | .err true => .err true
    | .err false =>
      match ts with
      | [] => .err false
      | t :: rest =>
        if isPunctTok t ['['] then
          match manyDefaultF fuel rest with
          | .ok items rest2 =>
            match rest2 with
            | [] => .err true
            | u :: rest3 =>
              if isPunctTok u [']'] then .ok (.list items) rest3 else .err true
          | .err _ => .err true
        else if isPunctTok t ['\x7b'] then
          match manyPairDF fuel rest with
          | .ok pairs rest2 =>
            match rest2 with
            | [] => .err true
            | u :: rest3 =>
              if isPunctTok u ['\x7d'] then .ok (.obj (btreeFromList pairs)) rest3
              else .err true
          | .err _ => .err true
        else .err false

/-- `many(parser(default_value))` inside the list branch of
`default_value`. -/
def manyDefaultF : Nat → List Token → PRes (List Val)
  | 0, _ => .err true
  | fuel + 1, ts =>
    match defaultF fuel ts with
    | .ok v rest =>
      match manyDefaultF fuel rest with
      | .ok items rest2 => .ok (v :: items) rest2
      | .err b => .err b
    | .err false => .ok [] ts
    | .err true => .err true

/-- The pair loop inside the object branch of `default_value`. -/
def manyPairDF : Nat → List Token → PRes (List (Str × Val))
  | 0, _ => .err true
  | fuel + 1, ts =>
    match ts with
    | [] => .ok [] ts
    | t :: rest =>
      if t.kind = Kind.name then
        match rest with
        | [] => .err true
        | u :: rest2 =>
          if isPunctTok u [':'] then
            match defaultF fuel rest2 with
            | .ok v rest3 =>
              match manyPairDF fuel rest3 with
              | .ok ps rest4 => .ok ((t.value, v) :: ps) rest4
              | .err b => .err b
            | .err _ => .err true
          else .err true
      else .ok [] ts

end

/-- The `value` grammar entry point, with fuel that always suffices. -/
def value (ts : List Token) : PRes Val := valueF (2 * ts.length + 2) ts

/-- The `default_value` grammar entry point. -/
def default_value (ts : List Token) : PRes Val := defaultF (2 * ts.length + 2) ts

mutual

/-- A value tree containing no `Variable` node. -/
def noVar : Val → Bool
  | .variable _ => false
  | .list items => noVarList items
  | .obj fields => noVarPairs fields
  | _ => true

/-- `noVar` on every element of a list. -/
def noVarList : List Val → Bool
  | [] => true
  | v :: rest => noVar v && noVarList rest

/-- `noVar` on every value of an association list. -/
def noVarPairs : List (Str × Val) → Bool
  | [] => true
  | p :: rest => noVar p.2 && noVarPairs rest

end

/-- No `$` punctuator token occurs in the list: the token-level rendering
of "the input contains no variable reference". -/
def noDollar (ts : List Token) : Bool :=
  ts.all (fun t => !(isPunctTok t ['$']))

/-- Modelled from the spec: the recursion-depth guard of the grammar
parser.  The guard itself is not in the sources provided under src/ (the
token-stream plumbing there predates it; only the repository's
`recursion_too_deep` test pins the behaviour), so the guarded parser below
is modelled from the specification's words: a fixed ceiling on nested
grammar productions, checked on every recursive grammar entry point
(selection sets, list and object values, and nested list types), aborting
with a dedicated "recursion limit exceeded" error carrying a deterministic
position, here reported as the number of tokens remaining at the point the
ceiling was hit. -/
def recursionLimit : Nat := 50

/-- Errors of the guarded parser: the dedicated recursion-limit error
(with its deterministic position) or an ordinary parse failure. -/
inductive GErr where
  | recursionLimitExceeded (remaining : Nat)
  | parseFailure
deriving DecidableEq, Repr

/-- Result of the guarded parser. -/
inductive GRes where
  | ok (rest : List Token)
  | err (e : GErr)
deriving DecidableEq, Repr

/-- Can the head token start a value? (Used where `many` must stop without
consuming.) -/
def startsValue : List Token → Bool
  | [] => false
  | t :: _ =>
    t.kind ≠ Kind.punctuator ∨ t.value = ['['] ∨ t.value = ['\x7b'] ∨
      t.value = ['$']

mutual

/-- Modelled from the spec: the `value` production with the depth guard
checked on entry to the recursive list/object alternatives. -/
def gValue : Nat → Nat → List Token → GRes
  | 0, _, _ => .err .parseFailure
  | fuel + 1, depth, ts =>
    match plainValue ts with
    | .ok _ rest => .ok rest
    | .err true => .err .parseFailure
    | .err false =>
      match ts with
      | [] => .err .parseFailure
      | t :: rest =>
        if isPunctTok t ['$'] then
          match rest with
          | u :: rest2 =>
            if u.kind = Kind.name then .ok rest2 else .err .parseFailure
          | [] => .err .parseFailure
        else if isPunctTok t ['['] then
          if recursionLimit ≤ depth then .err (.recursionLimitExceeded ts.length)
          else
            match gManyValue fuel (depth + 1) rest with
            | .ok rest2 =>
              match rest2 with
              | u :: rest3 =>
                if isPunctTok u [']'] then .ok rest3 else .err .parseFailure
              | [] => .err .parseFailure
            | .err e => .err e
        else if isPunctTok t ['\x7b'] then
          if recursionLimit ≤ depth then .err (.recursionLimitExceeded ts.length)
          else
            match gManyPair fuel (depth + 1) rest with
            | .ok rest2 =>
              match rest2 with
              | u :: rest3 =>
                if isPunctTok u ['\x7d'] then .ok rest3 else .err .parseFailure
              | [] => .err .parseFailure
            | .err e => .err e
        else .err .parseFailure

/-- Modelled from the spec: zero or more values (list elements), at the
same depth. -/
def gManyValue : Nat → Nat → List Token → GRes
  | 0, _, _ => .err .parseFailure
  | fuel + 1, depth, ts =>
    if startsValue ts then
      match gValue fuel depth ts with
      | .ok rest => gManyValue fuel depth rest
      | .err e => .err e
    else .ok ts

/-- Modelled from the spec: zero or more `name: value` object fields, at
the same depth. -/
def gManyPair : Nat → Nat → List Token → GRes
  | 0, _, _ => .err .parseFailure
  | fuel + 1, depth, ts =>
    match ts with
    | t :: u :: rest =>
      if t.kind = Kind.name ∧ isPunctTok u [':'] then
        match gValue fuel depth rest with
        | .ok rest2 => gManyPair fuel depth rest2
        | .err e => .err e
      else .ok ts
    | _ => .ok ts

/-- Modelled from the spec: a selection set, with the depth guard checked
on entry. -/
def gSelectionSet : Nat → Nat → List Token → GRes
  | 0, _, _ => .err .parseFailure
  | fuel + 1, depth, ts =>
    if recursionLimit ≤ depth then .err (.recursionLimitExceeded ts.length)
    else
      match ts with
      | t :: rest =>
        if isPunctTok t ['\x7b'] then
          match gSelections fuel depth rest with
          | .ok rest2 =>
            match rest2 with
            | u :: rest3 =>
              if isPunctTok u ['\x7d'] then .ok rest3 else .err .parseFailure
            | [] => .err .parseFailure
          | .err e => .err e
        else .err .parseFailure
      | [] => .err .parseFailure

/-- Modelled from the spec: one or more selections (fields). -/
def gSelections : Nat → Nat → List Token → GRes
  | 0, _, _ => .err .parseFailure
  | fuel + 1, depth, ts =>
    match gField fuel depth ts with
    | .ok rest =>
      match rest with
      | t :: _ =>
        if t.kind = Kind.name then gSelections fuel depth rest else .ok rest
      | [] => .ok rest
    | .err e => .err e

/-- Modelled from the spec: a field: a name, optional arguments, then an
optional nested selection set (alias and directives are not exercised by
the pinned input); argument values and the nested selection set are
recursive entries and descend with `depth + 1`. -/
def gField : Nat → Nat → List Token → GRes
  | 0, _, _ => .err .parseFailure
  | fuel + 1, depth, ts =>
    match ts with
    | t :: rest =>
      if t.kind = Kind.name then
        match
          (match rest with
           | u :: rest2 =>
             if isPunctTok u ['('] then gArgs fuel depth rest2 else .ok rest
           | [] => .ok rest) with
        | .ok rest2 =>
          match rest2 with
          | u :: _ =>
            if isPunctTok u ['\x7b'] then gSelectionSet fuel (depth + 1) rest2
            else .ok rest2
          | [] => .ok rest2
        | .err e => .err e
      else .err .parseFailure
    | [] => .err .parseFailure

/-- Modelled from the spec: one or more `name: value` arguments then a
closing parenthesis. -/
def gArgs : Nat → Nat → List Token → GRes
  | 0, _, _ => .err .parseFailure
  | fuel + 1, depth, ts =>
    match ts with
    | t :: u :: rest =>
      if t.kind = Kind.name ∧ isPunctTok u [':'] then
        match gValue fuel (depth + 1) rest with
        | .ok rest2 =>
          match rest2 with
          | v :: rest3 =>
            if isPunctTok v [')'] then .ok rest3
            else if v.kind = Kind.name then gArgs fuel depth rest2
            else .err .parseFailure
          | [] => .err .parseFailure
        | .err e => .err e
      else .err .parseFailure
    | _ => .err .parseFailure

end

/-- Modelled from the spec: the `parse_type` production with the depth
guard checked on entry: a named type, or a bracketed list type recursing
with `depth + 1` (the non-recursive non-null `!` suffix is omitted). -/
def gType : Nat → Nat → List Token → GRes
  | 0, _, _ => .err .parseFailure
  | fuel + 1, depth, ts =>
    if recursionLimit ≤ depth then .err (.recursionLimitExceeded ts.length)
    else
      match ts with
      | t :: rest =>
        if isPunctTok t ['['] then
          match gType fuel (depth + 1) rest with
          | .ok rest2 =>
            match rest2 with
            | u :: rest3 =>
              if isPunctTok u [']'] then .ok rest3 else .err .parseFailure
            | [] => .err .parseFailure
          | .err e => .err e
        else if t.kind = Kind.name then .ok rest
        else .err .parseFailure
      | [] => .err .parseFailure

/-- Modelled from the spec: one or more `$name: type` variable definitions
then a closing parenthesis; each type is a recursive entry and descends
with `depth + 1`. -/
def gVarDefs : Nat → Nat → List Token → GRes
  | 0, _, _ => .err .parseFailure
  | fuel + 1, depth, ts =>
    match ts with
    | d :: n :: c :: rest =>
      if isPunctTok d ['$'] ∧ n.kind = Kind.name ∧ isPunctTok c [':'] then
        match gType fuel (depth + 1) rest with
        | .ok rest2 =>
          match rest2 with
          | u :: rest3 =>
            if isPunctTok u [')'] then .ok rest3
            else if isPunctTok u ['$'] then gVarDefs fuel depth rest2
            else .err .parseFailure
          | [] => .err .parseFailure
        | .err e => .err e
      else .err .parseFailure
    | _ => .err .parseFailure

/-- Modelled from the spec: a query document: either a bare selection set,
or `query ( variable definitions ) selection set`, the latter exercising
the guarded type production. -/
def gDocument (fuel depth : Nat) (ts : List Token) : GRes :=
  match ts with
  | t :: u :: rest =>
    if t.kind = Kind.name ∧ t.value = ['q', 'u', 'e', 'r', 'y'] ∧
        isPunctTok u ['('] then
      match gVarDefs fuel depth rest with
      | .ok rest2 => gSelectionSet fuel depth rest2
      | .err e => .err e
    else gSelectionSet fuel depth ts
  | _ => gSelectionSet fuel depth ts

/-- Modelled from the spec: parse a whole query document with the
recursion guard, requiring the token stream to be fully consumed. -/
def parseQueryGuarded (s : Str) : GRes :=
  match tokenize s with
  | .error _ => .err .parseFailure
  | .ok ts =>
    match gDocument (2 * ts.length + 2) 0 ts with
    | .ok [] => .ok []
    | .ok (_ :: _) => .err .parseFailure
    | .err e => .err e

/-- The adversarial input family of the claim: a selection set nested `n`
levels deep whose innermost field carries an `m`-deep bracketed list
argument. -/
def nestedInput (n m : Nat) : Str :=
  (List.replicate n ['\x7b', ' ', 'a']).flatten ++ "(b: ".toList ++
    List.replicate m '[' ++ List.replicate m ']' ++ [')'] ++
    List.replicate n '\x7d'

/-- A punctuator token. -/
def tPunct (c : Char) : Token := ⟨Kind.punctuator, [c]⟩

/-- A name token. -/
def tName (s : Str) : Token := ⟨Kind.name, s⟩

/-- The token stream of `nestedInput`. -/
def nestedToks (n m : Nat) : List Token :=
  (List.replicate n [tPunct '\x7b', tName ['a']]).flatten ++
    (tPunct '(' :: tName ['b'] :: tPunct ':' ::
      (List.replicate m (tPunct '[') ++
        (List.replicate m (tPunct ']') ++
          (tPunct ')' :: List.replicate n (tPunct '\x7d')))))

/-- The adversarial input family for the type production: a variable whose
declared type is an `n`-deep nested list type. -/
def deepType (n : Nat) : Str :=
  ['q', 'u', 'e', 'r', 'y', '(', '$', 'x', ':'] ++ List.replicate n '[' ++
    ['I', 'n', 't'] ++ List.replicate n ']' ++ [')', '\x7b', 'a', '\x7d']

/-- The token stream of `deepType`. -/
def deepTypeToks (n : Nat) : List Token :=
  tName ['q', 'u', 'e', 'r', 'y'] :: tPunct '(' :: tPunct '$' :: tName ['x'] ::
    tPunct ':' ::
    (List.replicate n (tPunct '[') ++
      (tName ['I', 'n', 't'] ::
        (List.replicate n (tPunct ']') ++
          [tPunct ')', tPunct '\x7b', tName ['a'], tPunct '\x7d'])))

/-- The adversarial input family for object values: an argument whose value
is an `m`-deep nested object literal. -/
def deepObj (m : Nat) : Str :=
  ['\x7b', 'a', '(', 'b', ':'] ++ (List.replicate m ['\x7b', 'c', ':']).flatten ++
    ['1'] ++ List.replicate m '\x7d' ++ [')', '\x7d']

/-- The token stream of `deepObj`. -/
def deepObjToks (m : Nat) : List Token :=
  tPunct '\x7b' :: tName ['a'] :: tPunct '(' :: tName ['b'] :: tPunct ':' ::
    ((List.replicate m [tPunct '\x7b', tName ['c'], tPunct ':']).flatten ++
      (Token.mk Kind.intValue ['1'] ::
        (List.replicate m (tPunct '\x7d') ++ [tPunct ')', tPunct '\x7d'])))

/-- Every character is ASCII (so UTF-8 byte counts and character counts
coincide). -/
def allAscii (s : Str) : Bool := s.all (fun c => c.toNat < 128)

/-- Indentation of a line counted in characters. -/
def indentChars (l : Str) : Nat := (l.takeWhile isRustWhitespace).length

/-- A whitespace-only line, characterised character-wise. -/
def wsOnlyChars (l : Str) : Bool := l.all isRustWhitespace

/-- The block-string dedent algorithm as the (amended) specification words
it, phrased declaratively over the lines of the body: the common indent is
the minimum indentation of the non-whitespace-only lines other than the
first; lines before the first and after the last non-whitespace-only line
are dropped; every retained line except the first whose length is at least
the common indent is stripped of exactly that many leading characters, and
a shorter retained line (necessarily whitespace-only) is kept unchanged;
`\"""` is unescaped; the lines are rejoined with newlines. -/
def dedentSpec (body : Str) : Str :=
  let lines := rustLines body
  let nonBlank := lines.enum.filter (fun p => ¬ wsOnlyChars p.2)
  match nonBlank.head?, nonBlank.getLast? with
  | some pf, some pl =>
    let ci := ((nonBlank.filter (fun p => p.1 ≠ 0)).map
      (fun p => indentChars p.2)).min?
    let window := (lines.enum.drop pf.1).take (pl.1 - pf.1 + 1)
    let stripped := window.map (fun p =>
      match ci with
      | some n => if p.1 ≠ 0 ∧ p.2.length ≥ n then p.2.drop n else p.2
      | none => p.2)
    List.intercalate ['\n'] (stripped.map replaceEscToTri)
  | _, _ => []

/-- The integer shape the specification claims: `0`, `-0`, or
`-?[1-9][0-9]*`. -/
def specIntShape (v : Str) : Bool :=
  if v = ['0'] ∨ v = ['-', '0'] then true
  else
    match v with
    | '-' :: d :: ds => ('1' ≤ d ∧ d ≤ '9') ∧ ds.all isDigitCh
    | d :: ds => ('1' ≤ d ∧ d ≤ '9') ∧ ds.all isDigitCh
    | [] => false

/-- The exponent shape the specification claims: a mandatory sign followed
by one or more digits. -/
def specExpShape (v : Str) : Bool :=
  match v with
  | s :: ds => (s = '+' ∨ s = '-') ∧ ¬ ds.isEmpty ∧ ds.all isDigitCh
  | [] => false

/-- Lookup in an association list (first match). -/
def assocGet (k : Str) : List (Str × Val) → Option Val
  | [] => none
  | p :: rest => if p.1 = k then some p.2 else assocGet k rest

/-- The last value bound to `k` in source order, if any. -/
def lastBound (k : Str) (l : List (Str × Val)) : Option Val :=
  ((l.filter (fun p => p.1 = k)).getLast?).map (fun p => p.2)

/-! ## Theorems -/

/-- Claim C4: `unquote_block_string` applied to the token whose body
between the triple quotes is
`"   \n\n  Hello,\n    World!\n\n  Yours,\n    GraphQL.\n\n\n"` returns
exactly `"Hello,\n  World!\n\nYours,\n  GraphQL."`. -/
theorem c4_block_dedent_example :
    unquote_block_string
        ("\"\"\"   \n\n  Hello,\n    World!\n\n  Yours,\n    GraphQL.\n\n\n\"\"\"".toList) =
      .ok ("Hello,\n  World!\n\nYours,\n  GraphQL.".toList) := by
  rfl

/-- Claim C5, divergence witness: the source decodes the escape `\b` to
U+0010, not to the backspace character U+0008 the claim (and the spec)
names; every other named escape and the `\uXXXX` paths are as claimed,
but this one character is off. -/
theorem c5_escape_b_decodes_to_u0010 :
    unquote_string ['"', '\\', 'b', '"'] = .ok ['\x10'] ∧
      ('\x10' : Char) ≠ '\x08' := by
  exact ⟨rfl, by decide⟩

/-- Claim C10: scanning the four-character input quote, backslash,
backslash, quote reports an unterminated string: a quote immediately
preceded by a backslash never terminates the token, even when that
backslash is itself escaped. -/
theorem c10_escaped_backslash_unterminated :
    tokenize ['"', '\\', '\\', '"'] = .error .unterminatedString := by
  rfl

theorem tokF_nil (f : Nat) : tokenizeF f [] = .ok [] := by cases f <;> rfl

theorem tok_step (fuel : Nat) (s : Str) (k : Kind) (len : Nat)
    (hne : s.isEmpty = false) (hp : peekToken s = .ok (k, len)) :
    tokenizeF (fuel + 1) s =
      (tokenizeF fuel (dropWs (s.drop len))).map
        (fun toks => Token.mk k (s.take len) :: toks) := by
  simp only [tokenizeF]
  rw [if_neg (by simp [hne]), hp]
  dsimp only
  cases tokenizeF fuel (dropWs (s.drop len)) <;> rfl

theorem dropWs_cons_punct {c : Char} (hc : isPunctChar c = true) (X : Str) :
    dropWs (c :: X) = c :: X := by
  rw [dropWs.eq_def]
  dsimp only
  rw [if_neg (by
    intro h
    rcases h with h | h | h | h | h | h <;> (subst h; exact absurd hc (by decide)))]
  rw [if_neg (by
    intro h
    subst h
    exact absurd hc (by decide))]

theorem peekToken_punct {c : Char} (hc : isPunctChar c = true) (X : Str) :
    peekToken (c :: X) = .ok (Kind.punctuator, 1) := by
  simp only [peekToken]
  rw [if_pos hc]

theorem tokF_punct_run {c : Char} (hc : isPunctChar c = true) :
    ∀ (m fuel : Nat) (tail : Str),
      tokenizeF (m + fuel) (dropWs (List.replicate m c ++ tail)) =
        (tokenizeF fuel (dropWs tail)).map
          (fun toks => List.replicate m (tPunct c) ++ toks) := by
  intro m
  induction m with
  | zero =>
    intro fuel tail
    simp only [List.replicate, List.nil_append, Nat.zero_add]
    cases tokenizeF fuel (dropWs tail) <;> rfl
  | succ j ih =>
    intro fuel tail
    rw [show List.replicate (j + 1) c ++ tail = c :: (List.replicate j c ++ tail) from by
      rw [List.replicate_succ, List.cons_append]]
    rw [dropWs_cons_punct hc]
    rw [show j + 1 + fuel = (j + fuel) + 1 from by omega]
    rw [tok_step (j + fuel) _ Kind.punctuator 1 (by simp) (peekToken_punct hc _)]
    rw [show (c :: (List.replicate j c ++ tail)).drop 1 =
      List.replicate j c ++ tail from rfl]
    rw [ih fuel tail]
    rw [show (c :: (List.replicate j c ++ tail)).take 1 = [c] from rfl]
    cases tokenizeF fuel (dropWs tail) with
    | error e => rfl
    | ok toks =>
      show Except.ok (Token.mk Kind.punctuator [c] ::
          (List.replicate j (tPunct c) ++ toks)) =
        Except.ok (List.replicate (j + 1) (tPunct c) ++ toks)
      rw [List.replicate_succ, List.cons_append]
      rfl

theorem dropWs_cons_ws {c : Char}
    (hc : c = '﻿' ∨ c = '\r' ∨ c = '\t' ∨ c = '\n' ∨ c = ' ' ∨ c = ',')
    (X : Str) : dropWs (c :: X) = dropWs X := by
  rw [dropWs.eq_def]
  dsimp only
  rw [if_pos hc]

theorem dropWs_cons_other {c : Char}
    (h1 : ¬(c = '﻿' ∨ c = '\r' ∨ c = '\t' ∨ c = '\n' ∨ c = ' ' ∨ c = ','))
    (h2 : ¬ c = '#') (X : Str) : dropWs (c :: X) = c :: X := by
  rw [dropWs.eq_def]
  dsimp only
  rw [if_neg h1, if_neg h2]

theorem peekToken_name {c : Char} (X : Str) (h1 : isPunctChar c = false)
    (h2 : ¬ c = '.') (h3 : isNameStart c = true) :
    peekToken (c :: X) = .ok (Kind.name, 1 + (X.takeWhile isNameCont).length) := by
  simp only [peekToken]
  rw [if_neg (by simp [h1]), if_neg h2, if_pos h3]

theorem tok_punct_step (fuel : Nat) {c : Char} (X : Str)
    (hc : isPunctChar c = true) :
    tokenizeF (fuel + 1) (c :: X) =
      (tokenizeF fuel (dropWs X)).map (fun toks => tPunct c :: toks) := by
  rw [tok_step fuel (c :: X) Kind.punctuator 1 (by simp) (peekToken_punct hc X)]
  rfl

theorem tok_name_step (fuel : Nat) {c : Char} (X : Str)
    (h1 : isPunctChar c = false) (h2 : ¬ c = '.') (h3 : isNameStart c = true)
    (hX : X.takeWhile isNameCont = []) :
    tokenizeF (fuel + 1) (c :: X) =
      (tokenizeF fuel (dropWs X)).map (fun toks => tName [c] :: toks) := by
  rw [tok_step fuel (c :: X) Kind.name 1 (by simp)
    (by rw [peekToken_name X h1 h2 h3, hX]; rfl)]
  rfl

theorem tok_query_step (fuel : Nat) (X : Str) :
    tokenizeF (fuel + 1) ('q' :: 'u' :: 'e' :: 'r' :: 'y' :: '(' :: X) =
      (tokenizeF fuel (dropWs ('(' :: X))).map
        (fun toks => tName ['q', 'u', 'e', 'r', 'y'] :: toks) := by
  rw [tok_step fuel _ Kind.name 5 (by simp) (by
    rw [peekToken_name _ (by decide) (by decide) (by decide)]
    rw [List.takeWhile_cons, if_pos (by decide), List.takeWhile_cons,
      if_pos (by decide), List.takeWhile_cons, if_pos (by decide),
      List.takeWhile_cons, if_pos (by decide), List.takeWhile_cons,
      if_neg (by decide)]
    rfl)]
  rfl

theorem tok_Int_step (fuel : Nat) (X : Str)
    (hX : X.takeWhile isNameCont = []) :
    tokenizeF (fuel + 1) ('I' :: 'n' :: 't' :: X) =
      (tokenizeF fuel (dropWs X)).map
        (fun toks => tName ['I', 'n', 't'] :: toks) := by
  rw [tok_step fuel _ Kind.name 3 (by simp) (by
    rw [peekToken_name _ (by decide) (by decide) (by decide)]
    rw [List.takeWhile_cons, if_pos (by decide), List.takeWhile_cons,
      if_pos (by decide), hX]
    rfl)]
  rfl

theorem peekToken_one {c : Char} (X : Str) (hc : numDelim c = true) :
    peekToken ('1' :: c :: X) = .ok (Kind.intValue, 1) := by
  have hsc : scanNumber (c :: X) 1 none none = (1, none, none) := by
    rw [scanNumber.eq_def]
    dsimp only
    rw [if_pos hc]
  simp only [peekToken]
  rw [if_neg (by decide), if_neg (by decide), if_neg (by decide),
    if_pos (by decide), hsc]
  dsimp only
  rw [show List.take 1 ('1' :: c :: X) = ['1'] from rfl]
  rw [if_neg (by decide), if_pos (by decide)]

theorem tok_one_step (fuel : Nat) {c : Char} (X : Str)
    (hc : numDelim c = true) :
    tokenizeF (fuel + 1) ('1' :: c :: X) =
      (tokenizeF fuel (dropWs (c :: X))).map
        (fun toks => Token.mk Kind.intValue ['1'] :: toks) := by
  rw [tok_step fuel _ Kind.intValue 1 (by simp) (peekToken_one X hc)]
  rfl

theorem tokF_braceName_run (tail : Str)
    (htail : tail.takeWhile isNameCont = []) :
    ∀ (n fuel : Nat),
      tokenizeF (2 * n + fuel)
          (dropWs ((List.replicate n ['\x7b', ' ', 'a']).flatten ++ tail)) =
        (tokenizeF fuel (dropWs tail)).map
          (fun toks =>
            (List.replicate n [tPunct '\x7b', tName ['a']]).flatten ++ toks) := by
  intro n
  induction n with
  | zero =>
    intro fuel
    simp only [List.replicate, List.flatten_nil, List.nil_append, Nat.mul_zero,
      Nat.zero_add]
    cases tokenizeF fuel (dropWs tail) <;> rfl
  | succ j ih =>
    intro fuel
    rw [show (List.replicate (j + 1) ['\x7b', ' ', 'a']).flatten ++ tail =
        '\x7b' :: ' ' :: 'a' ::
          ((List.replicate j ['\x7b', ' ', 'a']).flatten ++ tail) from by
      rw [List.replicate_succ, List.flatten_cons]
      rfl]
    rw [dropWs_cons_punct (by decide)]
    rw [show 2 * (j + 1) + fuel = ((2 * j + fuel) + 1) + 1 from by omega]
    rw [tok_punct_step _ _ (by decide)]
    rw [dropWs_cons_ws (by decide)]
    rw [dropWs_cons_other (by decide) (by decide)]
    rw [tok_name_step (2 * j + fuel) _ (by decide) (by decide) (by decide) (by
      cases j with
      | zero => simpa using htail
      | succ i =>
        rw [List.replicate_succ, List.flatten_cons]
        simp only [List.cons_append]
        rw [List.takeWhile_cons, if_neg (by decide)])]
    rw [ih fuel]
    cases tokenizeF fuel (dropWs tail) with
    | error e => rfl
    | ok toks =>
      show Except.ok (tPunct '\x7b' :: tName ['a'] ::
          ((List.replicate j [tPunct '\x7b', tName ['a']]).flatten ++ toks)) =
        Except.ok
          ((List.replicate (j + 1) [tPunct '\x7b', tName ['a']]).flatten ++ toks)
      rw [List.replicate_succ, List.flatten_cons]
      rfl

theorem tokF_objOpen_run :
    ∀ (m fuel : Nat) (tail : Str),
      tokenizeF (3 * m + fuel)
          (dropWs ((List.replicate m ['\x7b', 'c', ':']).flatten ++ tail)) =
        (tokenizeF fuel (dropWs tail)).map
          (fun toks =>
            (List.replicate m [tPunct '\x7b', tName ['c'], tPunct ':']).flatten ++
              toks) := by
  intro m
  induction m with
  | zero =>
    intro fuel tail
    simp only [List.replicate, List.flatten_nil, List.nil_append, Nat.mul_zero,
      Nat.zero_add]
    cases tokenizeF fuel (dropWs tail) <;> rfl
  | succ j ih =>
    intro fuel tail
    rw [show (List.replicate (j + 1) ['\x7b', 'c', ':']).flatten ++ tail =
        '\x7b' :: 'c' :: ':' ::
          ((List.replicate j ['\x7b', 'c', ':']).flatten ++ tail) from by
      rw [List.replicate_succ, List.flatten_cons]
      rfl]
    rw [dropWs_cons_punct (by decide)]
    rw [show 3 * (j + 1) + fuel = (((3 * j + fuel) + 1) + 1) + 1 from by omega]
    rw [tok_punct_step _ _ (by decide)]
    rw [dropWs_cons_other (by decide) (by decide)]
    rw [tok_name_step ((3 * j + fuel) + 1) _ (by decide) (by decide) (by decide)
      (by rw [List.takeWhile_cons, if_neg (by decide)])]
    rw [dropWs_cons_punct (by decide)]
    rw [tok_punct_step _ _ (by decide)]
    rw [ih fuel tail]
    cases tokenizeF fuel (dropWs tail) with
    | error e => rfl
    | ok toks =>
      show Except.ok (tPunct '\x7b' :: tName ['c'] :: tPunct ':' ::
          ((List.replicate j [tPunct '\x7b', tName ['c'], tPunct ':']).flatten ++
            toks)) =
        Except.ok
          ((List.replicate (j + 1)
            [tPunct '\x7b', tName ['c'], tPunct ':']).flatten ++ toks)
      rw [List.replicate_succ, List.flatten_cons]
      rfl

theorem length_flatten_replicate {α : Type} (n : Nat) (l : List α) :
    (List.replicate n l).flatten.length = n * l.length := by
  induction n with
  | zero => simp
  | succ k ih =>
    rw [List.replicate_succ, List.flatten_cons, List.length_append, ih]
    ring

theorem tokenize_nestedInput (n m : Nat) :
    tokenize (nestedInput n m) = .ok (nestedToks n m) := by
  have hstr : nestedInput n m =
      (List.replicate n ['\x7b', ' ', 'a']).flatten ++
        ('(' :: 'b' :: ':' :: ' ' ::
          (List.replicate m '[' ++ (List.replicate m ']' ++
            (')' :: List.replicate n '\x7d')))) := by
    rw [nestedInput, show "(b: ".toList = ['(', 'b', ':', ' '] from rfl]
    simp [List.append_assoc]
  have hlen : (nestedInput n m).length + 1 = 4 * n + 2 * m + 6 := by
    rw [hstr]
    simp [List.length_append, length_flatten_replicate, List.length_replicate]
    omega
  rw [tokenize, hlen, hstr]
  rw [show 4 * n + 2 * m + 6 = 2 * n + (2 * n + 2 * m + 6) from by omega]
  rw [tokF_braceName_run _ (by rw [List.takeWhile_cons, if_neg (by decide)]) n
    (2 * n + 2 * m + 6)]
  rw [dropWs_cons_punct (by decide)]
  rw [show 2 * n + 2 * m + 6 = (2 * n + 2 * m + 5) + 1 from by omega]
  rw [tok_punct_step _ _ (by decide)]
  rw [dropWs_cons_other (by decide) (by decide)]
  rw [show 2 * n + 2 * m + 5 = (2 * n + 2 * m + 4) + 1 from by omega]
  rw [tok_name_step (2 * n + 2 * m + 4) _ (by decide) (by decide) (by decide)
    (by rw [List.takeWhile_cons, if_neg (by decide)])]
  rw [dropWs_cons_punct (by decide)]
  rw [show 2 * n + 2 * m + 4 = (2 * n + 2 * m + 3) + 1 from by omega]
  rw [tok_punct_step _ _ (by decide)]
  rw [dropWs_cons_ws (by decide)]
  rw [show 2 * n + 2 * m + 3 = m + (2 * n + m + 3) from by omega]
  rw [tokF_punct_run (c := '[') (by decide) m (2 * n + m + 3) _]
  rw [show 2 * n + m + 3 = m + (2 * n + 3) from by omega]
  rw [tokF_punct_run (c := ']') (by decide) m (2 * n + 3) _]
  rw [dropWs_cons_punct (by decide)]
  rw [show 2 * n + 3 = (2 * n + 2) + 1 from by omega]
  rw [tok_punct_step _ _ (by decide)]
  rw [show List.replicate n '\x7d' = List.replicate n '\x7d' ++ ([] : Str) from
    (List.append_nil _).symm]
  rw [show 2 * n + 2 = n + (n + 2) from by omega]
  rw [tokF_punct_run (c := '\x7d') (by decide) n (n + 2) []]
  rw [show dropWs ([] : Str) = [] from rfl, tokF_nil]
  simp only [Except.map, nestedToks, List.append_nil]

theorem tokenize_deepType (n : Nat) :
    tokenize (deepType n) = .ok (deepTypeToks n) := by
  have hstr : deepType n =
      'q' :: 'u' :: 'e' :: 'r' :: 'y' :: '(' :: '$' :: 'x' :: ':' ::
        (List.replicate n '[' ++
          ('I' :: 'n' :: 't' ::
            (List.replicate n ']' ++ (')' :: '\x7b' :: 'a' :: '\x7d' :: [])))) := by
    rw [deepType]
    simp [List.append_assoc]
  have hlen : (deepType n).length + 1 = 2 * n + 17 := by
    rw [hstr]
    simp [List.length_append, List.length_replicate]
    omega
  rw [tokenize, hlen, hstr]
  rw [dropWs_cons_other (by decide) (by decide)]
  rw [show 2 * n + 17 = (2 * n + 16) + 1 from by omega]
  rw [tok_query_step (2 * n + 16)]
  rw [dropWs_cons_punct (by decide)]
  rw [show 2 * n + 16 = (2 * n + 15) + 1 from by omega]
  rw [tok_punct_step _ _ (by decide)]
  rw [dropWs_cons_punct (by decide)]
  rw [show 2 * n + 15 = (2 * n + 14) + 1 from by omega]
  rw [tok_punct_step _ _ (by decide)]
  rw [dropWs_cons_other (by decide) (by decide)]
  rw [show 2 * n + 14 = (2 * n + 13) + 1 from by omega]
  rw [tok_name_step (2 * n + 13) _ (by decide) (by decide) (by decide)
    (by rw [List.takeWhile_cons, if_neg (by decide)])]
  rw [dropWs_cons_punct (by decide)]
  rw [show 2 * n + 13 = (2 * n + 12) + 1 from by omega]
  rw [tok_punct_step _ _ (by decide)]
  rw [show 2 * n + 12 = n + (n + 12) from by omega]
  rw [tokF_punct_run (c := '[') (by decide) n (n + 12) _]
  rw [dropWs_cons_other (by decide) (by decide)]
  rw [show n + 12 = (n + 11) + 1 from by omega]
  rw [tok_Int_step (n + 11) _ (by
    cases n with
    | zero =>
      simp only [List.replicate, List.nil_append]
      rw [List.takeWhile_cons, if_neg (by decide)]
    | succ k =>
      rw [List.replicate_succ, List.cons_append, List.takeWhile_cons,
        if_neg (by decide)])]
  rw [show n + 11 = n + (11 : Nat) from rfl]
  rw [tokF_punct_run (c := ']') (by decide) n 11 _]
  rw [dropWs_cons_punct (by decide)]
  rw [show (11 : Nat) = 10 + 1 from rfl]
  rw [tok_punct_step _ _ (by decide)]
  rw [dropWs_cons_punct (by decide)]
  rw [show (10 : Nat) = 9 + 1 from rfl]
  rw [tok_punct_step _ _ (by decide)]
  rw [dropWs_cons_other (by decide) (by decide)]
  rw [show (9 : Nat) = 8 + 1 from rfl]
  rw [tok_name_step 8 _ (by decide) (by decide) (by decide)
    (by rw [List.takeWhile_cons, if_neg (by decide)])]
  rw [dropWs_cons_punct (by decide)]
  rw [show (8 : Nat) = 7 + 1 from rfl]
  rw [tok_punct_step _ _ (by decide)]
  rw [show dropWs ([] : Str) = [] from rfl, tokF_nil]
  simp only [Except.map, deepTypeToks]

theorem peekToken_one_of (X : Str)
    (h : ∃ c X', X = c :: X' ∧ numDelim c = true) :
    peekToken ('1' :: X) = .ok (Kind.intValue, 1) := by
  obtain ⟨c, X', rfl, hc⟩ := h
  exact peekToken_one X' hc

theorem tok_one_of_step (fuel : Nat) (X : Str)
    (h : ∃ c X', X = c :: X' ∧ numDelim c = true) :
    tokenizeF (fuel + 1) ('1' :: X) =
      (tokenizeF fuel (dropWs X)).map
        (fun toks => Token.mk Kind.intValue ['1'] :: toks) := by
  rw [tok_step fuel _ Kind.intValue 1 (by simp) (peekToken_one_of X h)]
  rfl

theorem tokenize_deepObj (m : Nat) :
    tokenize (deepObj m) = .ok (deepObjToks m) := by
  have hstr : deepObj m =
      '\x7b' :: 'a' :: '(' :: 'b' :: ':' ::
        ((List.replicate m ['\x7b', 'c', ':']).flatten ++
          ('1' :: (List.replicate m '\x7d' ++ (')' :: '\x7d' :: [])))) := by
    rw [deepObj]
    simp [List.append_assoc]
  have hlen : (deepObj m).length + 1 = 4 * m + 9 := by
    rw [hstr]
    simp [List.length_append, List.length_replicate, length_flatten_replicate]
    omega
  rw [tokenize, hlen, hstr]
  rw [dropWs_cons_punct (by decide)]
  rw [show 4 * m + 9 = (4 * m + 8) + 1 from by omega]
  rw [tok_punct_step _ _ (by decide)]
  rw [dropWs_cons_other (by decide) (by decide)]
  rw [show 4 * m + 8 = (4 * m + 7) + 1 from by omega]
  rw [tok_name_step (4 * m + 7) _ (by decide) (by decide) (by decide)
    (by rw [List.takeWhile_cons, if_neg (by decide)])]
  rw [dropWs_cons_punct (by decide)]
  rw [show 4 * m + 7 = (4 * m + 6) + 1 from by omega]
  rw [tok_punct_step _ _ (by decide)]
  rw [dropWs_cons_other (by decide) (by decide)]
  rw [show 4 * m + 6 = (4 * m + 5) + 1 from by omega]
  rw [tok_name_step (4 * m + 5) _ (by decide) (by decide) (by decide)
    (by rw [List.takeWhile_cons, if_neg (by decide)])]
  rw [dropWs_cons_punct (by decide)]
  rw [show 4 * m + 5 = (4 * m + 4) + 1 from by omega]
  rw [tok_punct_step _ _ (by decide)]
  rw [show 4 * m + 4 = 3 * m + (m + 4) from by omega]
  rw [tokF_objOpen_run m (m + 4) _]
  rw [dropWs_cons_other (by decide) (by decide)]
  rw [show m + 4 = (m + 3) + 1 from by omega]
  rw [tok_one_of_step (m + 3) _ (by
    cases m with
    | zero =>
      exact ⟨')', ['\x7d'], by simp [List.replicate], by decide⟩
    | succ k =>
      exact ⟨'\x7d', List.replicate k '\x7d' ++ [')', '\x7d'],
        by rw [List.replicate_succ, List.cons_append], by decide⟩)]
  rw [show m + 3 = m + (3 : Nat) from rfl]
  rw [tokF_punct_run (c := '\x7d') (by decide) m 3 _]
  rw [dropWs_cons_punct (by decide)]
  rw [show (3 : Nat) = 2 + 1 from rfl]
  rw [tok_punct_step _ _ (by decide)]
  rw [dropWs_cons_punct (by decide)]
  rw [show (2 : Nat) = 1 + 1 from rfl]
  rw [tok_punct_step _ _ (by decide)]
  rw [show dropWs ([] : Str) = [] from rfl, tokF_nil]
  simp only [Except.map, deepObjToks]

theorem gSS_guard (fuel depth : Nat) (ts : List Token)
    (h : recursionLimit ≤ depth) :
    gSelectionSet (fuel + 1) depth ts = .err (.recursionLimitExceeded ts.length) := by
  simp only [gSelectionSet]
  rw [if_pos h]

theorem gType_guard (fuel depth : Nat) (ts : List Token)
    (h : recursionLimit ≤ depth) :
    gType (fuel + 1) depth ts = .err (.recursionLimitExceeded ts.length) := by
  simp only [gType]
  rw [if_pos h]

theorem plainValue_punct (c : Char) (rest : List Token) :
    plainValue (tPunct c :: rest) = .err false := rfl

theorem gValue_bracket_guard (fuel depth : Nat) (rest : List Token)
    (h : recursionLimit ≤ depth) :
    gValue (fuel + 1) depth (tPunct '[' :: rest) =
      .err (.recursionLimitExceeded (rest.length + 1)) := by
  simp only [gValue]
  rw [plainValue_punct]
  dsimp only
  rw [if_neg (by decide), if_pos (by decide), if_pos h, List.length_cons]

theorem gValue_obj_guard (fuel depth : Nat) (rest : List Token)
    (h : recursionLimit ≤ depth) :
    gValue (fuel + 1) depth (tPunct '\x7b' :: rest) =
      .err (.recursionLimitExceeded (rest.length + 1)) := by
  simp only [gValue]
  rw [plainValue_punct]
  dsimp only
  rw [if_neg (by decide), if_neg (by decide), if_pos (by decide), if_pos h,
    List.length_cons]

theorem gType_desc_err :
    ∀ (k d fuel n : Nat) (rest : List Token), d + k = recursionLimit →
      k ≤ n → k + 1 ≤ fuel →
      gType fuel d (List.replicate n (tPunct '[') ++ rest) =
        .err (.recursionLimitExceeded ((n - k) + rest.length)) := by
  intro k
  induction k with
  | zero =>
    intro d fuel n rest hd hk hf
    obtain ⟨f, rfl⟩ : ∃ f, fuel = f + 1 := ⟨fuel - 1, by omega⟩
    rw [gType_guard f d _ (by omega)]
    congr 2
    simp only [List.length_append, List.length_replicate]
    omega
  | succ j ih =>
    intro d fuel n rest hd hk hf
    obtain ⟨f, rfl⟩ : ∃ f, fuel = f + 1 := ⟨fuel - 1, by omega⟩
    obtain ⟨n', rfl⟩ : ∃ n', n = n' + 1 := ⟨n - 1, by omega⟩
    rw [List.replicate_succ, List.cons_append]
    simp only [gType]
    rw [if_neg (by omega)]
    rw [if_pos (by decide)]
    rw [ih (d + 1) f n' rest (by omega) (by omega) (by omega)]
    dsimp only
    rw [show n' + 1 - (j + 1) = n' - j from by omega]

theorem gValue_brackets_err :
    ∀ (k d fuel m : Nat) (rest : List Token), d + k = recursionLimit →
      k < m → 2 * k + 1 ≤ fuel →
      gValue fuel d (List.replicate m (tPunct '[') ++ rest) =
        .err (.recursionLimitExceeded ((m - k) + rest.length)) := by
  intro k
  induction k with
  | zero =>
    intro d fuel m rest hd hk hf
    obtain ⟨f, rfl⟩ : ∃ f, fuel = f + 1 := ⟨fuel - 1, by omega⟩
    obtain ⟨m', rfl⟩ : ∃ m', m = m' + 1 := ⟨m - 1, by omega⟩
    rw [List.replicate_succ, List.cons_append]
    rw [gValue_bracket_guard f d _ (by omega)]
    congr 2
    simp only [List.length_append, List.length_replicate]
    omega
  | succ j ih =>
    intro d fuel m rest hd hk hf
    obtain ⟨f1, rfl⟩ : ∃ f1, fuel = (f1 + 1) + 1 := ⟨fuel - 2, by omega⟩
    obtain ⟨m'', rfl⟩ : ∃ m'', m = (m'' + 1) + 1 := ⟨m - 2, by omega⟩
    rw [List.replicate_succ, List.cons_append]
    simp only [gValue]
    rw [plainValue_punct]
    dsimp only
    rw [if_neg (by decide), if_pos (by decide), if_neg (by omega)]
    simp only [gManyValue]
    rw [List.replicate_succ, List.cons_append]
    rw [if_pos (show startsValue (tPunct '[' ::
      (List.replicate m'' (tPunct '[') ++ rest)) = true from rfl)]
    rw [show tPunct '[' :: (List.replicate m'' (tPunct '[') ++ rest) =
      List.replicate (m'' + 1) (tPunct '[') ++ rest from by
        rw [List.replicate_succ, List.cons_append]]
    rw [ih (d + 1) f1 (m'' + 1) rest (by omega) (by omega) (by omega)]
    dsimp only
    rw [show m'' + 1 + 1 - (j + 1) = m'' + 1 - j from by omega]

theorem gValue_obj_err :
    ∀ (k d fuel m : Nat) (rest : List Token), d + k = recursionLimit →
      k < m → 2 * k + 1 ≤ fuel →
      gValue fuel d
          ((List.replicate m [tPunct '\x7b', tName ['c'], tPunct ':']).flatten ++
            rest) =
        .err (.recursionLimitExceeded (3 * (m - k) + rest.length)) := by
  intro k
  induction k with
  | zero =>
    intro d fuel m rest hd hk hf
    obtain ⟨f, rfl⟩ : ∃ f, fuel = f + 1 := ⟨fuel - 1, by omega⟩
    obtain ⟨m', rfl⟩ : ∃ m', m = m' + 1 := ⟨m - 1, by omega⟩
    rw [List.replicate_succ, List.flatten_cons]
    simp only [List.cons_append, List.nil_append, List.append_assoc]
    rw [gValue_obj_guard f d _ (by omega)]
    congr 2
    simp only [List.length_cons, List.length_append, length_flatten_replicate]
    simp only [List.length_cons, List.length_nil]
    omega
  | succ j ih =>
    intro d fuel m rest hd hk hf
    obtain ⟨f1, rfl⟩ : ∃ f1, fuel = (f1 + 1) + 1 := ⟨fuel - 2, by omega⟩
    obtain ⟨m', rfl⟩ : ∃ m', m = m' + 1 := ⟨m - 1, by omega⟩
    rw [List.replicate_succ, List.flatten_cons]
    simp only [List.cons_append, List.nil_append, List.append_assoc]
    simp only [gValue]
    rw [plainValue_punct]
    dsimp only
    rw [if_neg (by decide), if_neg (by decide), if_pos (by decide),
      if_neg (by omega)]
    simp only [gManyPair]
    rw [if_pos (by decide)]
    rw [ih (d + 1) f1 m' rest (by omega) (by omega) (by omega)]
    dsimp only
    rw [show m' + 1 - (j + 1) = m' - j from by omega]

theorem gSS_args_base (d fuel : Nat) (ts : List Token) (e : GErr)
    (hd : d + 1 ≤ recursionLimit) (hv : gValue fuel (d + 1) ts = .err e) :
    gSelectionSet (fuel + 4) d
      (tPunct '\x7b' :: tName ['a'] :: tPunct '(' :: tName ['b'] ::
        tPunct ':' :: ts) = .err e := by
  rw [show fuel + 4 = (fuel + 3) + 1 from rfl]
  simp only [gSelectionSet]
  rw [if_neg (by omega)]
  rw [if_pos (by decide)]
  rw [show fuel + 3 = (fuel + 2) + 1 from rfl]
  simp only [gSelections]
  rw [show fuel + 2 = (fuel + 1) + 1 from rfl]
  simp only [gField]
  rw [if_pos (by decide)]
  rw [if_pos (by decide)]
  simp only [gArgs]
  rw [if_pos (by decide)]
  rw [hv]

theorem gSS_nest_step (d fuel : Nat) (R : List Token) (e : GErr)
    (hd : d + 1 ≤ recursionLimit)
    (hss : gSelectionSet fuel (d + 1) (tPunct '\x7b' :: R) = .err e) :
    gSelectionSet (fuel + 3) d
      (tPunct '\x7b' :: tName ['a'] :: tPunct '\x7b' :: R) = .err e := by
  rw [show fuel + 3 = (fuel + 2) + 1 from rfl]
  simp only [gSelectionSet]
  rw [if_neg (by omega)]
  rw [if_pos (by decide)]
  rw [show fuel + 2 = (fuel + 1) + 1 from rfl]
  simp only [gSelections]
  simp only [gField]
  rw [if_pos (by decide)]
  rw [if_neg (by decide)]
  dsimp only
  rw [if_pos (by decide)]
  rw [hss]

theorem gSS_args_err :
    ∀ (n : Nat), 1 ≤ n → ∀ (d fuel : Nat) (ts : List Token) (e : GErr),
      d + n ≤ recursionLimit → gValue fuel (d + n) ts = .err e →
      gSelectionSet (3 * n + 1 + fuel) d
        ((List.replicate n [tPunct '\x7b', tName ['a']]).flatten ++
          (tPunct '(' :: tName ['b'] :: tPunct ':' :: ts)) = .err e := by
  intro n h1
  induction n, h1 using Nat.le_induction with
  | base =>
    intro d fuel ts e hd hv
    rw [show (List.replicate 1 [tPunct '\x7b', tName ['a']]).flatten ++
      (tPunct '(' :: tName ['b'] :: tPunct ':' :: ts) =
      tPunct '\x7b' :: tName ['a'] :: tPunct '(' :: tName ['b'] ::
        tPunct ':' :: ts from rfl]
    rw [show 3 * 1 + 1 + fuel = fuel + 4 from by omega]
    exact gSS_args_base d fuel ts e hd hv
  | succ i hi ih =>
    intro d fuel ts e hd hv
    obtain ⟨i', rfl⟩ : ∃ i', i = i' + 1 := ⟨i - 1, by omega⟩
    rw [show 3 * (i' + 1 + 1) + 1 + fuel = (3 * (i' + 1) + 1 + fuel) + 3 from by
      omega]
    rw [List.replicate_succ, List.flatten_cons]
    simp only [List.cons_append, List.nil_append, List.append_assoc]
    rw [List.replicate_succ, List.flatten_cons]
    simp only [List.cons_append, List.nil_append, List.append_assoc]
    refine gSS_nest_step d (3 * (i' + 1) + 1 + fuel) _ e (by omega) ?_
    have hv' : gValue fuel ((d + 1) + (i' + 1)) ts = .err e := by
      rw [show (d + 1) + (i' + 1) = d + (i' + 1 + 1) from by omega]
      exact hv
    have hss := ih (d + 1) fuel ts e (by omega) hv'
    rw [List.replicate_succ, List.flatten_cons] at hss
    simp only [List.cons_append, List.nil_append, List.append_assoc] at hss
    exact hss

theorem gSS_open_guard_err :
    ∀ (k d fuel n : Nat) (rest : List Token), d + k = recursionLimit →
      k < n → 3 * k + 1 ≤ fuel →
      gSelectionSet fuel d
          ((List.replicate n [tPunct '\x7b', tName ['a']]).flatten ++ rest) =
        .err (.recursionLimitExceeded (2 * (n - k) + rest.length)) := by
  intro k
  induction k with
  | zero =>
    intro d fuel n rest hd hk hf
    obtain ⟨f, rfl⟩ : ∃ f, fuel = f + 1 := ⟨fuel - 1, by omega⟩
    rw [gSS_guard f d _ (by omega)]
    congr 2
    simp only [List.length_append, length_flatten_replicate, List.length_cons,
      List.length_nil]
    omega
  | succ j ih =>
    intro d fuel n rest hd hk hf
    obtain ⟨f, rfl⟩ : ∃ f, fuel = f + 3 := ⟨fuel - 3, by omega⟩
    obtain ⟨n'', rfl⟩ : ∃ n'', n = (n'' + 1) + 1 := ⟨n - 2, by omega⟩
    rw [show n'' + 1 + 1 - (j + 1) = n'' + 1 - j from by omega]
    rw [List.replicate_succ, List.flatten_cons]
    simp only [List.cons_append, List.nil_append, List.append_assoc]
    rw [List.replicate_succ, List.flatten_cons]
    simp only [List.cons_append, List.nil_append, List.append_assoc]
    refine gSS_nest_step d f _ _ (by omega) ?_
    have h := ih (d + 1) f (n'' + 1) rest (by omega) (by omega) (by omega)
    rw [List.replicate_succ, List.flatten_cons] at h
    simp only [List.cons_append, List.nil_append, List.append_assoc] at h
    exact h

theorem gDocument_braceHead (fuel depth : Nat) (R : List Token) :
    gDocument fuel depth (tPunct '\x7b' :: R) =
      gSelectionSet fuel depth (tPunct '\x7b' :: R) := by
  cases R with
  | nil => rfl
  | cons u rest =>
    simp only [gDocument]
    rw [if_neg (fun h => absurd h.1 (by decide))]

theorem nestedToks_length (n m : Nat) :
    (nestedToks n m).length = 3 * n + 2 * m + 4 := by
  rw [nestedToks]
  simp only [List.length_append, List.length_cons, length_flatten_replicate,
    List.length_replicate, List.length_nil]
  omega

theorem flat_braceName_succ (n : Nat) (Y : List Token) :
    (List.replicate (n + 1) [tPunct '\x7b', tName ['a']]).flatten ++ Y =
      tPunct '\x7b' :: tName ['a'] ::
        ((List.replicate n [tPunct '\x7b', tName ['a']]).flatten ++ Y) := by
  rw [List.replicate_succ, List.flatten_cons]
  rfl

theorem parseQG_nested_args (n m : Nat) (h1 : 1 ≤ n) (h2 : n ≤ recursionLimit)
    (h3 : recursionLimit < n + m) :
    parseQueryGuarded (nestedInput n m) =
      .err (.recursionLimitExceeded (2 * n + 2 * m - 49)) := by
  have h50 : recursionLimit = 50 := rfl
  obtain ⟨n', rfl⟩ : ∃ n', n = n' + 1 := ⟨n - 1, by omega⟩
  rw [parseQueryGuarded, tokenize_nestedInput]
  dsimp only
  have hv := gValue_brackets_err (49 - n') (0 + (n' + 1)) (3 * n' + 4 * m + 12)
    m (List.replicate m (tPunct ']') ++
      (tPunct ')' :: List.replicate (n' + 1) (tPunct '\x7d')))
    (by omega) (by omega) (by omega)
  rw [show (m - (49 - n')) +
      (List.replicate m (tPunct ']') ++
        (tPunct ')' :: List.replicate (n' + 1) (tPunct '\x7d'))).length =
      2 * (n' + 1) + 2 * m - 49 from by
    simp only [List.length_append, List.length_cons, List.length_replicate]
    omega] at hv
  have E : gDocument (2 * (nestedToks (n' + 1) m).length + 2) 0
      (nestedToks (n' + 1) m) =
      .err (.recursionLimitExceeded (2 * (n' + 1) + 2 * m - 49)) := by
    rw [nestedToks_length, nestedToks]
    rw [flat_braceName_succ n' _]
    rw [gDocument_braceHead]
    rw [← flat_braceName_succ n' _]
    rw [show 2 * (3 * (n' + 1) + 2 * m + 4) + 2 =
      3 * (n' + 1) + 1 + (3 * n' + 4 * m + 12) from by omega]
    exact gSS_args_err (n' + 1) (by omega) 0 (3 * n' + 4 * m + 12) _ _
      (by omega) hv
  rw [E]

theorem parseQG_nested_open (n m : Nat) (h : recursionLimit < n) :
    parseQueryGuarded (nestedInput n m) =
      .err (.recursionLimitExceeded (3 * n + 2 * m - 96)) := by
  have h50 : recursionLimit = 50 := rfl
  obtain ⟨n', rfl⟩ : ∃ n', n = n' + 1 := ⟨n - 1, by omega⟩
  rw [parseQueryGuarded, tokenize_nestedInput]
  dsimp only
  have h0 := gSS_open_guard_err 50 0 (2 * (3 * (n' + 1) + 2 * m + 4) + 2)
    (n' + 1)
    (tPunct '(' :: tName ['b'] :: tPunct ':' ::
      (List.replicate m (tPunct '[') ++
        (List.replicate m (tPunct ']') ++
          (tPunct ')' :: List.replicate (n' + 1) (tPunct '\x7d')))))
    (by omega) (by omega) (by omega)
  rw [show 2 * ((n' + 1) - 50) +
      (tPunct '(' :: tName ['b'] :: tPunct ':' ::
        (List.replicate m (tPunct '[') ++
          (List.replicate m (tPunct ']') ++
            (tPunct ')' :: List.replicate (n' + 1) (tPunct '\x7d'))))).length =
      3 * (n' + 1) + 2 * m - 96 from by
    simp only [List.length_append, List.length_cons, List.length_replicate]
    omega] at h0
  have E : gDocument (2 * (nestedToks (n' + 1) m).length + 2) 0
      (nestedToks (n' + 1) m) =
      .err (.recursionLimitExceeded (3 * (n' + 1) + 2 * m - 96)) := by
    rw [nestedToks_length, nestedToks]
    rw [flat_braceName_succ n' _]
    rw [gDocument_braceHead]
    rw [← flat_braceName_succ n' _]
    exact h0
  rw [E]

theorem deepTypeToks_length (n : Nat) :
    (deepTypeToks n).length = 2 * n + 10 := by
  rw [deepTypeToks]
  simp only [List.length_append, List.length_cons, List.length_replicate,
    List.length_nil]
  omega

theorem parseQG_deepType (n : Nat) (h : 49 ≤ n) :
    parseQueryGuarded (deepType n) =
      .err (.recursionLimitExceeded (2 * n - 44)) := by
  rw [parseQueryGuarded, tokenize_deepType]
  dsimp only
  have E : gDocument (2 * (deepTypeToks n).length + 2) 0 (deepTypeToks n) =
      .err (.recursionLimitExceeded (2 * n - 44)) := by
    rw [deepTypeToks_length, deepTypeToks]
    simp only [gDocument]
    rw [if_pos (by decide)]
    rw [show 2 * (2 * n + 10) + 2 = (4 * n + 21) + 1 from by omega]
    simp only [gVarDefs]
    rw [if_pos (by decide)]
    rw [gType_desc_err 49 (0 + 1) (4 * n + 21) n
      (tName ['I', 'n', 't'] ::
        (List.replicate n (tPunct ']') ++
          [tPunct ')', tPunct '\x7b', tName ['a'], tPunct '\x7d']))
      (by decide) (by omega) (by omega)]
    dsimp only
    rw [show (n - 49) +
        (tName ['I', 'n', 't'] ::
          (List.replicate n (tPunct ']') ++
            [tPunct ')', tPunct '\x7b', tName ['a'], tPunct '\x7d'])).length =
        2 * n - 44 from by
      simp only [List.length_append, List.length_cons, List.length_replicate,
        List.length_nil]
      omega]
  rw [E]

theorem deepObjToks_length (m : Nat) :
    (deepObjToks m).length = 4 * m + 8 := by
  rw [deepObjToks]
  simp only [List.length_append, List.length_cons, length_flatten_replicate,
    List.length_replicate, List.length_nil]
  omega

theorem parseQG_deepObj (m : Nat) (h : recursionLimit ≤ m) :
    parseQueryGuarded (deepObj m) =
      .err (.recursionLimitExceeded (4 * m - 144)) := by
  have h50 : recursionLimit = 50 := rfl
  rw [parseQueryGuarded, tokenize_deepObj]
  dsimp only
  have hv := gValue_obj_err 49 (0 + 1) (8 * m + 14) m
    (Token.mk Kind.intValue ['1'] ::
      (List.replicate m (tPunct '\x7d') ++ [tPunct ')', tPunct '\x7d']))
    (by decide) (by omega) (by omega)
  rw [show 3 * (m - 49) +
      (Token.mk Kind.intValue ['1'] ::
        (List.replicate m (tPunct '\x7d') ++
          [tPunct ')', tPunct '\x7d'])).length = 4 * m - 144 from by
    simp only [List.length_append, List.length_cons, List.length_replicate,
      List.length_nil]
    omega] at hv
  have E : gDocument (2 * (deepObjToks m).length + 2) 0 (deepObjToks m) =
      .err (.recursionLimitExceeded (4 * m - 144)) := by
    rw [deepObjToks_length, deepObjToks]
    rw [gDocument_braceHead]
    rw [show 2 * (4 * m + 8) + 2 = (8 * m + 14) + 4 from by omega]
    exact gSS_args_base 0 (8 * m + 14) _ _ (by decide) hv
  rw [E]

/-- Claim C2 (recursion guard, modelled from the spec): the depth ceiling
`recursionLimit` is checked on entry to every recursive production of the
guarded parser — selection sets, bracketed list values, object values and
nested list types — and any call at a depth at or past the ceiling returns
the dedicated recursion-limit error with its deterministic position (the
number of tokens remaining), whatever the input.  Consequently, for every
member of the adversarial input families whose nesting exceeds the fixed
ceiling of 50 — `n` nested selection sets with an `m`-deep bracketed list
argument (guard tripped in the list brackets when `n + m > 50 ≥ n`, and in
the selection sets when `n > 50`), a variable declaration with an `n`-deep
nested list type (`n ≥ 49`, the type production entering at depth 1), and
an argument carrying an `m`-deep nested object literal (`m ≥ 50`) — the
whole parse returns the recursion-limit error at the predicted position,
while shallow members of the same families parse successfully. -/
theorem c2_recursion_guard :
    (∀ fuel depth ts, recursionLimit ≤ depth →
        gSelectionSet (fuel + 1) depth ts =
          .err (.recursionLimitExceeded ts.length)) ∧
    (∀ fuel depth rest, recursionLimit ≤ depth →
        gValue (fuel + 1) depth (tPunct '[' :: rest) =
          .err (.recursionLimitExceeded (rest.length + 1))) ∧
    (∀ fuel depth rest, recursionLimit ≤ depth →
        gValue (fuel + 1) depth (tPunct '\x7b' :: rest) =
          .err (.recursionLimitExceeded (rest.length + 1))) ∧
    (∀ fuel depth ts, recursionLimit ≤ depth →
        gType (fuel + 1) depth ts = .err (.recursionLimitExceeded ts.length)) ∧
    (∀ n m, 1 ≤ n → n ≤ recursionLimit → recursionLimit < n + m →
        parseQueryGuarded (nestedInput n m) =
          .err (.recursionLimitExceeded (2 * n + 2 * m - 49))) ∧
    (∀ n m, recursionLimit < n →
        parseQueryGuarded (nestedInput n m) =
          .err (.recursionLimitExceeded (3 * n + 2 * m - 96))) ∧
    (∀ n, 49 ≤ n →
        parseQueryGuarded (deepType n) =
          .err (.recursionLimitExceeded (2 * n - 44))) ∧
    (∀ m, recursionLimit ≤ m →
        parseQueryGuarded (deepObj m) =
          .err (.recursionLimitExceeded (4 * m - 144))) ∧
    parseQueryGuarded (nestedInput 30 25) =
        .err (.recursionLimitExceeded 61) ∧
    parseQueryGuarded (nestedInput 10 5) = .ok [] ∧
    parseQueryGuarded (deepType 3) = .ok [] ∧
    parseQueryGuarded (deepObj 2) = .ok [] := by
  exact ⟨gSS_guard, gValue_bracket_guard, gValue_obj_guard, gType_guard,
    parseQG_nested_args, parseQG_nested_open, parseQG_deepType,
    parseQG_deepObj, rfl, rfl, rfl, rfl⟩

/-- Concrete instances of Claim C2's statement: the guard error at each
recursive entry point at the ceiling, and the four deep family members. -/
theorem c2_recursion_guard_witness :
    gSelectionSet 1 50 [] = .err (.recursionLimitExceeded 0) ∧
    gValue 1 50 [tPunct '['] = .err (.recursionLimitExceeded 1) ∧
    gValue 1 50 [tPunct '\x7b'] = .err (.recursionLimitExceeded 1) ∧
    gType 1 50 [] = .err (.recursionLimitExceeded 0) ∧
    parseQueryGuarded (nestedInput 30 25) =
        .err (.recursionLimitExceeded 61) ∧
    parseQueryGuarded (nestedInput 51 0) =
        .err (.recursionLimitExceeded 57) ∧
    parseQueryGuarded (deepType 49) = .err (.recursionLimitExceeded 54) ∧
    parseQueryGuarded (deepObj 50) = .err (.recursionLimitExceeded 56) := by
  obtain ⟨e1, e2, e3, e4, f1, f2, f3, f4, g⟩ := c2_recursion_guard
  refine ⟨?_, ?_, ?_, ?_, ?_, ?_, ?_, ?_⟩
  · simpa using e1 0 50 [] (by decide)
  · simpa using e2 0 50 [] (by decide)
  · simpa using e3 0 50 [] (by decide)
  · simpa using e4 0 50 [] (by decide)
  · simpa using f1 30 25 (by decide) (by decide) (by decide)
  · simpa using f2 51 0 (by decide)
  · simpa using f3 49 (by decide)
  · simpa using f4 50 (by decide)

/-- Claim C3, counterexample: a retained interior whitespace-only line of
one space under a common indent of two is kept as the one-space line, not
turned into the empty line the claim states. -/
theorem c3_short_line_kept_counterexample :
    unquote_block_string ("\"\"\"x\n  a\n \n  b\"\"\"".toList) =
        .ok ("x\na\n \nb".toList) ∧
      "x\na\n \nb".toList ≠ "x\na\n\nb".toList := by
  exact ⟨rfl, by decide⟩

/-- Claim C1, counterexample: the quote/unquote round trip fails on the
code.  Single-line path: U+000C is written with *decimal* digits
(`\u0012`) and re-read as hex, yielding U+0012; a character above U+FFFF
is written as five decimal digits of which only four are re-read.  Block
path: a two-line string whose lines share one space of indentation loses
that indentation. -/
theorem c1_roundtrip_counterexample :
    (unquote_string (writeQuotedSingleLine ['\x0C']) = .ok ['\x12'] ∧
        (['\x12'] : Str) ≠ ['\x0C']) ∧
      (unquote_string (writeQuotedSingleLine [Char.ofNat 0x10000]) =
          .ok [Char.ofNat 0x6553, '6'] ∧
        ([Char.ofNat 0x6553, '6'] : Str) ≠ [Char.ofNat 0x10000]) ∧
      (unquote_block_string (writeQuoted 2 0 [' ', 'a', '\n', ' ', 'b']) =
          .ok ['a', '\n', 'b'] ∧
        (['a', '\n', 'b'] : Str) ≠ [' ', 'a', '\n', ' ', 'b']) := by
  refine ⟨⟨rfl, by decide⟩, ⟨rfl, by decide⟩, ⟨rfl, by decide⟩⟩

/-! ### Lemmas about the ordered-map model (claim C8) -/

theorem strLt_irrefl (a : Str) : strLt a a = false := by
  induction a with
  | nil => rfl
  | cons c as ih => simp [strLt, ih]

theorem strLt_trans {a b c : Str} (h1 : strLt a b = true)
    (h2 : strLt b c = true) : strLt a c = true := by
  induction a generalizing b c with
  | nil =>
    cases b with
    | nil => simp [strLt] at h1
    | cons d bs =>
      cases c with
      | nil => simp [strLt] at h2
      | cons e cs => simp [strLt]
  | cons x as ih =>
    cases b with
    | nil => simp [strLt] at h1
    | cons d bs =>
      cases c with
      | nil => simp [strLt] at h2
      | cons e cs =>
        simp only [strLt] at h1 h2 ⊢
        by_cases hxd : x < d
        · by_cases hde : d < e
          · simp [lt_trans hxd hde]
          · by_cases hed : e < d
            · simp [hde, hed] at h2
            · have hde' : d = e := le_antisymm (le_of_not_lt hed) (le_of_not_lt hde)
              subst hde'
              simp [hxd]
        · by_cases hdx : d < x
          · simp [hxd, hdx] at h1
          · have hxd' : x = d := le_antisymm (le_of_not_lt hdx) (le_of_not_lt hxd)
            subst hxd'
            simp [lt_irrefl] at h1
            by_cases hxe : x < e
            · simp [hxe]
            · by_cases hex : e < x
              · simp [hxe, hex] at h2
              · simp only [hxe, hex, if_false] at h2 ⊢
                exact ih h1 h2

theorem strLt_eq_of_not_lt {a b : Str} (h1 : strLt a b = false)
    (h2 : strLt b a = false) : a = b := by
  induction a generalizing b with
  | nil =>
    cases b with
    | nil => rfl
    | cons d bs => simp [strLt] at h1
  | cons x as ih =>
    cases b with
    | nil => simp [strLt] at h2
    | cons d bs =>
      simp only [strLt] at h1 h2
      by_cases hxd : x < d
      · simp [hxd] at h1
      · by_cases hdx : d < x
        · simp [hdx, hxd] at h2
        · have hxd' : x = d := le_antisymm (le_of_not_lt hdx) (le_of_not_lt hxd)
          subst hxd'
          simp [lt_irrefl] at h1 h2
          rw [ih h1 h2]

theorem mem_btreeInsert {p : Str × Val} {k : Str} {v : Val} :
    ∀ {m : List (Str × Val)}, p ∈ btreeInsert k v m → p = (k, v) ∨ p ∈ m := by
  intro m
  induction m with
  | nil => intro h; simp [btreeInsert] at h; exact Or.inl h
  | cons q rest ih =>
    intro h
    simp only [btreeInsert] at h
    split_ifs at h with h1 h2
    · rcases List.mem_cons.mp h with h | h
      · exact Or.inl h
      · exact Or.inr h
    · rcases List.mem_cons.mp h with h | h
      · exact Or.inr (by simp [h])
      · rcases ih h with h' | h'
        · exact Or.inl h'
        · exact Or.inr (by simp [h'])
    · rcases List.mem_cons.mp h with h | h
      · exact Or.inl h
      · exact Or.inr (by simp [h])

theorem pairwise_btreeInsert {k : Str} {v : Val} :
    ∀ {m : List (Str × Val)},
      m.Pairwise (fun p q => strLt p.1 q.1 = true) →
      (btreeInsert k v m).Pairwise (fun p q => strLt p.1 q.1 = true) := by
  intro m
  induction m with
  | nil => intro _; simp [btreeInsert]
  | cons q rest ih =>
    intro h
    rcases List.pairwise_cons.mp h with ⟨hq, hrest⟩
    simp only [btreeInsert]
    split_ifs with h1 h2
    · refine List.pairwise_cons.mpr ⟨?_, h⟩
      intro p hp
      rcases List.mem_cons.mp hp with rfl | hp
      · exact h1
      · exact strLt_trans h1 (hq p hp)
    · refine List.pairwise_cons.mpr ⟨?_, ih hrest⟩
      intro p hp
      rcases mem_btreeInsert hp with rfl | hp
      · exact h2
      · exact hq p hp
    · have hk : k = q.1 :=
        strLt_eq_of_not_lt (Bool.not_eq_true _ ▸ h1) (Bool.not_eq_true _ ▸ h2)
      refine List.pairwise_cons.mpr ⟨?_, hrest⟩
      intro p hp
      simpa [hk] using hq p hp

theorem assocGet_btreeInsert (k' k : Str) (v : Val) :
    ∀ m : List (Str × Val),
      assocGet k' (btreeInsert k v m) =
        if k = k' then some v else assocGet k' m := by
  intro m
  induction m with
  | nil => simp [btreeInsert, assocGet]
  | cons q rest ih =>
    by_cases h1 : strLt k q.1 = true
    · rw [show btreeInsert k v (q :: rest) = (k, v) :: q :: rest from by
        simp [btreeInsert, h1]]
      by_cases hk : k = k'
      · simp [assocGet, hk]
      · simp [assocGet, hk]
    · by_cases h2 : strLt q.1 k = true
      · rw [show btreeInsert k v (q :: rest) = q :: btreeInsert k v rest from by
          simp [btreeInsert, h1, h2]]
        by_cases hq : q.1 = k'
        · by_cases hk : k = k'
          · exfalso
            subst hk
            rw [hq] at h2
            simp [strLt_irrefl] at h2
          · simp [assocGet, hq, hk, ih]
        · simp [assocGet, hq, ih]
      · have hk : k = q.1 :=
          strLt_eq_of_not_lt (by simpa using h1) (by simpa using h2)
        rw [show btreeInsert k v (q :: rest) = (k, v) :: rest from by
          simp [btreeInsert, h1, h2]]
        by_cases hk' : k = k'
        · simp [assocGet, hk']
        · have hq : ¬ q.1 = k' := by rw [← hk]; exact hk'
          simp [assocGet, hk', hq]

theorem lastBound_cons (k : Str) (p : Str × Val) (l : List (Str × Val)) :
    lastBound k (p :: l) =
      (lastBound k l <|> (if p.1 = k then some p.2 else none)) := by
  unfold lastBound
  rw [List.filter_cons]
  by_cases hp : p.1 = k
  · simp only [hp, decide_True, if_true]
    cases hfl : l.filter (fun q => decide (q.1 = k)) with
    | nil => simp [hfl]
    | cons y ys =>
      rw [List.getLast?_cons_cons]
      cases hgl : (y :: ys).getLast? with
      | none => simp [List.getLast?_eq_none_iff] at hgl
      | some z => simp [hgl]
  · simp only [hp, decide_False, if_false]
    cases hgl : (l.filter (fun q => decide (q.1 = k))).getLast? with
    | none => simp [hgl]
    | some z => simp [hgl]

theorem pairwise_btreeFoldl :
    ∀ (l : List (Str × Val)) (m : List (Str × Val)),
      m.Pairwise (fun p q => strLt p.1 q.1 = true) →
      (l.foldl (fun m p => btreeInsert p.1 p.2 m) m).Pairwise
        (fun p q => strLt p.1 q.1 = true) := by
  intro l
  induction l with
  | nil => intro m h; exact h
  | cons p rest ih =>
    intro m h
    exact ih _ (pairwise_btreeInsert h)

theorem assocGet_btreeFoldl (k : Str) :
    ∀ (l : List (Str × Val)) (m : List (Str × Val)),
      assocGet k (l.foldl (fun m p => btreeInsert p.1 p.2 m) m) =
        (lastBound k l <|> assocGet k m) := by
  intro l
  induction l with
  | nil => intro m; simp [lastBound]
  | cons p rest ih =>
    intro m
    rw [List.foldl_cons, ih, lastBound_cons, assocGet_btreeInsert]
    cases hlb : lastBound k rest with
    | some z => simp
    | none =>
      by_cases hp : p.1 = k
      · simp [hp]
      · have : ¬ p.1 = k := hp
        simp [hp]

/-- Claim C8: parsing an object literal with duplicate keys succeeds and
binds each key once to the last value given in source order, and the
resulting object is ordered by key, not by insertion: concretely,
`\x7ba: 1, a: 2\x7d` yields `a ↦ 2` and `\x7bb: 1, a: 2\x7d` lists `a`
before `b`; generally, the map built from any pair list has strictly
increasing keys and looks up every key to its last bound value. -/
theorem c8_object_duplicate_keys :
    ((tokenize ("\x7ba: 1, a: 2\x7d".toList)).map value =
        .ok (.ok (.obj [(['a'], .int 2)]) [])) ∧
      ((tokenize ("\x7bb: 1, a: 2\x7d".toList)).map value =
        .ok (.ok (.obj [(['a'], .int 2), (['b'], .int 1)]) [])) ∧
      (∀ l : List (Str × Val),
        (btreeFromList l).Pairwise (fun p q => strLt p.1 q.1 = true)) ∧
      (∀ (l : List (Str × Val)) (k : Str),
        assocGet k (btreeFromList l) = lastBound k l) := by
  refine ⟨rfl, rfl, ?_, ?_⟩
  · intro l
    exact pairwise_btreeFoldl l [] (List.Pairwise.nil)
  · intro l k
    rw [btreeFromList, assocGet_btreeFoldl]
    simp [assocGet]

/-- Claim C8, witness: the sorted-keys and last-binding-wins facts at a
concrete pair list with a duplicate key. -/
theorem c8_object_duplicate_keys_witness :
    (btreeFromList [(['b'], Val.int 1), (['a'], Val.int 2), (['b'], Val.int 3)]).Pairwise
        (fun p q => strLt p.1 q.1 = true) ∧
      assocGet ['b'] (btreeFromList
          [(['b'], Val.int 1), (['a'], Val.int 2), (['b'], Val.int 3)]) =
        lastBound ['b'] [(['b'], Val.int 1), (['a'], Val.int 2), (['b'], Val.int 3)] :=
  ⟨c8_object_duplicate_keys.2.2.1 _, c8_object_duplicate_keys.2.2.2 _ _⟩

/-! ### Minifier refinement (claim C9) -/

theorem minifyF_eq_tokenizeF :
    ∀ (fuel : Nat) (s : Str) (prev : Bool),
      minifyF fuel s prev =
        match tokenizeF fuel s with
        | .ok ts => .ok (joinMinified prev ts)
        | .error e => .error (.mk e) := by
  intro fuel
  induction fuel with
  | zero => intro s prev; simp [minifyF, tokenizeF, joinMinified]
  | succ fuel ih =>
    intro s prev
    simp only [minifyF, tokenizeF]
    by_cases hs : s.isEmpty
    · simp [hs, joinMinified]
    · rw [if_neg hs, if_neg hs]
      cases hp : peekToken s with
      | error e => rfl
      | ok kl =>
        obtain ⟨k, len⟩ := kl
        dsimp only
        rw [ih]
        cases ht : tokenizeF fuel (dropWs (s.drop len)) with
        | error e => rfl
        | ok toks => simp [joinMinified]

/-- Claim C9: `minify_query` re-tokenizes and concatenates token texts
with a single space only between two adjacent non-punctuator tokens: the
sample query minifies to exactly the expected text, a scan error is
returned wrapped as a `MinifyError`, and in general the minifier equals
tokenizing and joining under the spec's separating rule. -/
theorem c9_minify_query :
    (minify_query
        ("query SomeQuery($foo: String!, $bar: String) \x7b someField(foo: $foo, bar: $bar) \x7b a b \x7b ... on B \x7b c d \x7d \x7d \x7d \x7d".toList) =
      .ok ("query SomeQuery($foo:String!$bar:String)\x7bsomeField(foo:$foo bar:$bar)\x7ba b\x7b...on B\x7bc d\x7d\x7d\x7d\x7d".toList)) ∧
      (minify_query ("query foo \x7b bar; \x7d".toList) =
        .error (.mk (.unexpectedCharacter ';'))) ∧
      (∀ src : Str,
        minify_query src =
          match tokenize src with
          | .ok ts => .ok (joinMinified false ts)
          | .error e => .error (.mk e)) := by
  refine ⟨rfl, rfl, ?_⟩
  intro src
  exact minifyF_eq_tokenizeF _ _ _

/-- Claim C9, witness: the general tokenize-and-join form instantiated at
a concrete source. -/
theorem c9_minify_query_witness :
    minify_query ("a b(".toList) =
      match tokenize ("a b(".toList) with
      | .ok ts => .ok (joinMinified false ts)
      | .error e => .error (.mk e) :=
  c9_minify_query.2.2 _

/-! ### Number-grammar lemmas (claim C6) -/

theorem charLe_iff {a b : Char} : a ≤ b ↔ a.toNat ≤ b.toNat := by
  rw [Char.le_def, UInt32.le_def, BitVec.le_def]; rfl

theorem charEq_iff {a b : Char} : a = b ↔ a.toNat = b.toNat :=
  ⟨fun h => by rw [h], fun h => Char.ext (UInt32.ext h)⟩

theorem digit_one_to_nine_iff {d : Char} :
    ('1' ≤ d ∧ d ≤ '9') ↔ (isDigitCh d = true ∧ ¬ d = '0') := by
  simp only [isDigitCh, decide_eq_true_eq, charLe_iff, charEq_iff]
  have h1 : ('1' : Char).toNat = 49 := rfl
  have h9 : ('9' : Char).toNat = 57 := rfl
  have h0 : ('0' : Char).toNat = 48 := rfl
  rw [h1, h9, h0]
  omega

theorem digit_ne_minus {c : Char} (h : isDigitCh c = true) : ¬ c = '-' := by
  simp only [isDigitCh, decide_eq_true_eq, charLe_iff, charEq_iff] at h ⊢
  have h0 : ('0' : Char).toNat = 48 := rfl
  have hm : ('-' : Char).toNat = 45 := rfl
  rw [h0] at h
  rw [hm]
  omega

theorem check_int_eq_spec :
    ∀ (c : Char) (v : Str), (c = '-' ∨ isDigitCh c = true) →
      check_int (c :: v) = specIntShape (c :: v) := by
  intro c v h
  rw [Bool.eq_iff_iff]
  rcases h with rfl | hd
  · cases v with
    | nil => decide
    | cons d ds =>
      by_cases h0 : d = '0'
      · subst h0
        cases ds with
        | nil => decide
        | cons e es => simp [check_int, specIntShape]
      · simp [check_int, specIntShape, h0, digit_one_to_nine_iff]
  · have hcm : ¬ c = '-' := digit_ne_minus hd
    by_cases hc0 : c = '0'
    · subst hc0
      cases v with
      | nil => decide
      | cons d ds => simp [check_int, specIntShape]
    · cases v with
      | nil => simp [check_int, specIntShape, hc0, hcm, digit_one_to_nine_iff, hd]
      | cons d ds =>
        simp [check_int, specIntShape, hc0, hcm, digit_one_to_nine_iff, hd]

theorem check_exp_eq_spec (v : Str) : check_exp v = specExpShape v := by
  cases v with
  | nil => rfl
  | cons s ds =>
    rw [Bool.eq_iff_iff]
    cases ds with
    | nil => simp [check_exp, specExpShape]
    | cons e es =>
      simp [check_exp, specExpShape, and_comm, or_comm]

theorem check_dec_iff (v : Str) :
    check_dec v = true ↔ v ≠ [] ∧ ∀ c ∈ v, isDigitCh c = true := by
  simp [check_dec, List.all_eq_true, List.isEmpty_iff]

theorem check_float_fraction_before_exponent (v : Str) (e r : Nat)
    (h : e < r) : check_float v (some e) (some r) = false := by
  simp [check_float, h]

/-- Claim C6: the tokenizer accepts `0`, `-0`, `132`, `-132` as IntValue
and `0.0`, `-1.023`, `0e+0`, `0.0e+0` as FloatValue, scan-errors on `01`,
`-01`, `-`, `00001`, `.0`, `0e0`, `0.bbc` (and on an exponent followed by
a fraction), and in general an int token is `0`, `-0` or `-?[1-9][0-9]*`,
a fractional part is one or more digits, an exponent part is a mandatory
sign then one or more digits, and the fraction marker must precede the
exponent marker. -/
theorem c6_number_grammar :
    (tokenize ("0".toList) = .ok [⟨.intValue, "0".toList⟩]) ∧
      (tokenize ("-0".toList) = .ok [⟨.intValue, "-0".toList⟩]) ∧
      (tokenize ("132".toList) = .ok [⟨.intValue, "132".toList⟩]) ∧
      (tokenize ("-132".toList) = .ok [⟨.intValue, "-132".toList⟩]) ∧
      (tokenize ("0.0".toList) = .ok [⟨.floatValue, "0.0".toList⟩]) ∧
      (tokenize ("-1.023".toList) = .ok [⟨.floatValue, "-1.023".toList⟩]) ∧
      (tokenize ("0e+0".toList) = .ok [⟨.floatValue, "0e+0".toList⟩]) ∧
      (tokenize ("0.0e+0".toList) = .ok [⟨.floatValue, "0.0e+0".toList⟩]) ∧
      (tokenize ("01".toList) = .error (.unsupportedInteger ("01".toList))) ∧
      (tokenize ("-01".toList) = .error (.unsupportedInteger ("-01".toList))) ∧
      (tokenize ("-".toList) = .error (.unsupportedInteger ("-".toList))) ∧
      (tokenize ("00001".toList) =
        .error (.unsupportedInteger ("00001".toList))) ∧
      (tokenize (".0".toList) = .error .bareDot) ∧
      (tokenize ("0e0".toList) = .error (.unsupportedFloat ("0e0".toList))) ∧
      (tokenize ("0.bbc".toList) =
        .error (.unsupportedFloat ("0.bbc".toList))) ∧
      (tokenize ("1e+2.5".toList) =
        .error (.unsupportedFloat ("1e+2.5".toList))) ∧
      (∀ (c : Char) (v : Str), (c = '-' ∨ isDigitCh c = true) →
        check_int (c :: v) = specIntShape (c :: v)) ∧
      (∀ v : Str, check_exp v = specExpShape v) ∧
      (∀ v : Str, check_dec v = true ↔ v ≠ [] ∧ ∀ c ∈ v, isDigitCh c = true) ∧
      (∀ (v : Str) (e r : Nat), e < r →
        check_float v (some e) (some r) = false) := by
  exact ⟨rfl, rfl, rfl, rfl, rfl, rfl, rfl, rfl, rfl, rfl, rfl, rfl, rfl,
    rfl, rfl, rfl, check_int_eq_spec, check_exp_eq_spec, check_dec_iff,
    check_float_fraction_before_exponent⟩

/-- Claim C6, witness: the general int/exponent equivalences and the
fraction-before-exponent rejection at concrete inputs. -/
theorem c6_number_grammar_witness :
    check_int ("-132".toList) = specIntShape ("-132".toList) ∧
      check_exp ("+07".toList) = specExpShape ("+07".toList) ∧
      (check_dec ("023".toList) = true ↔
        ("023".toList ≠ [] ∧ ∀ c ∈ "023".toList, isDigitCh c = true)) ∧
      check_float ("1e+2.5".toList) (some 1) (some 4) = false :=
  ⟨c6_number_grammar.2.2.2.2.2.2.2.2.2.2.2.2.2.2.2.2.1 '-' ("132".toList)
      (Or.inl rfl),
    c6_number_grammar.2.2.2.2.2.2.2.2.2.2.2.2.2.2.2.2.2.1 _,
    c6_number_grammar.2.2.2.2.2.2.2.2.2.2.2.2.2.2.2.2.2.2.1 _,
    c6_number_grammar.2.2.2.2.2.2.2.2.2.2.2.2.2.2.2.2.2.2.2 _ 1 4
      (by decide)⟩

/-! ### `value` versus `default_value` (claim C7) -/

theorem plainValue_ok {ts : List Token} {v : Val} {rest : List Token}
    (h : plainValue ts = .ok v rest) :
    (∃ t, ts = t :: rest) ∧ noVar v = true := by
  cases ts with
  | nil => simp [plainValue] at h
  | cons t r' =>
    simp only [plainValue] at h
    split_ifs at h with h1 h2 h3 h4 h5 h6 h7 h8
    all_goals
      first
        | (cases h; exact ⟨⟨t, rfl⟩, by simp [noVar]⟩)
        | (split at h <;>
            first
              | (cases h; exact ⟨⟨t, rfl⟩, by simp [noVar]⟩)
              | simp_all)
        | simp_all

theorem noVarList_iff {l : List Val} :
    noVarList l = true ↔ ∀ x ∈ l, noVar x = true := by
  induction l with
  | nil => simp [noVarList]
  | cons v rest ih => simp [noVarList, Bool.and_eq_true, ih]

theorem noVarPairs_iff {l : List (Str × Val)} :
    noVarPairs l = true ↔ ∀ p ∈ l, noVar p.2 = true := by
  induction l with
  | nil => simp [noVarPairs]
  | cons p rest ih => simp [noVarPairs, Bool.and_eq_true, ih]

theorem mem_btreeFoldl {p : Str × Val} :
    ∀ (l m : List (Str × Val)),
      p ∈ l.foldl (fun m q => btreeInsert q.1 q.2 m) m → p ∈ m ∨ p ∈ l := by
  intro l
  induction l with
  | nil => intro m h; exact Or.inl h
  | cons q l' ih =>
    intro m h
    rcases ih _ h with h' | h'
    · rcases mem_btreeInsert h' with h'' | h''
      · exact Or.inr (by simp [h''])
      · exact Or.inl h''
    · exact Or.inr (by simp [h'])

theorem noVarPairs_btreeFromList {ps : List (Str × Val)}
    (h : noVarPairs ps = true) : noVarPairs (btreeFromList ps) = true := by
  rw [noVarPairs_iff] at h ⊢
  intro p hp
  rcases mem_btreeFoldl _ _ hp with h' | h'
  · simp at h'
  · exact h p h'

theorem valueF_err_false {fuel : Nat} {ts : List Token}
    (h : valueF fuel ts = .err false) : defaultF fuel ts = .err false := by
  cases fuel with
  | zero => simp [valueF] at h
  | succ fuel =>
    cases hp : plainValue ts with
    | ok v rest => simp [valueF, hp] at h
    | err b =>
      cases b with
      | true => simp [valueF, hp] at h
      | false =>
        cases ts with
        | nil => simp [defaultF, hp]
        | cons t rest =>
          simp only [valueF, hp] at h
          simp only [defaultF, hp]
          by_cases hd : isPunctTok t ['$'] = true
          · rw [if_pos hd] at h
            exfalso
            cases rest with
            | nil => simp at h
            | cons u rest2 =>
              by_cases hu : u.kind = Kind.name
              · simp [hu] at h
              · simp [hu] at h
          · rw [if_neg hd] at h
            by_cases hl : isPunctTok t ['['] = true
            · rw [if_pos hl] at h
              exfalso
              cases hm : manyValueF fuel rest with
              | ok items rest2 =>
                rw [hm] at h
                cases rest2 with
                | nil => simp at h
                | cons u rest3 =>
                  by_cases hu : isPunctTok u [']'] = true
                  · simp [hu] at h
                  · simp [hu] at h
              | err b2 => rw [hm] at h; simp at h
            · rw [if_neg hl] at h
              by_cases ho : isPunctTok t ['\x7b'] = true
              · rw [if_pos ho] at h
                exfalso
                cases hm : manyPairVF fuel rest with
                | ok ps rest2 =>
                  rw [hm] at h
                  cases rest2 with
                  | nil => simp at h
                  | cons u rest3 =>
                    by_cases hu : isPunctTok u ['\x7d'] = true
                    · simp [hu] at h
                    · simp [hu] at h
                | err b2 => rw [hm] at h; simp at h
              · rw [if_neg hl, if_neg ho]

theorem valueF_suffix :
    ∀ fuel : Nat,
      (∀ {ts : List Token} {v : Val} {r : List Token},
        valueF fuel ts = .ok v r → r.IsSuffix ts) ∧
      (∀ {ts : List Token} {vs : List Val} {r : List Token},
        manyValueF fuel ts = .ok vs r → r.IsSuffix ts) ∧
      (∀ {ts : List Token} {ps : List (Str × Val)} {r : List Token},
        manyPairVF fuel ts = .ok ps r → r.IsSuffix ts) := by
  intro fuel
  induction fuel with
  | zero =>
    refine ⟨?_, ?_, ?_⟩ <;> intro ts x r h <;>
      simp [valueF, manyValueF, manyPairVF] at h
  | succ fuel ih =>
    obtain ⟨ih1, ih2, ih3⟩ := ih
    refine ⟨?_, ?_, ?_⟩
    · intro ts v r h
      cases hp : plainValue ts with
      | ok v0 rest =>
        simp only [valueF, hp] at h
        try dsimp only at h
        cases h
        obtain ⟨⟨t, rfl⟩, _⟩ := plainValue_ok hp
        exact List.suffix_cons t r
      | err b =>
        cases b with
        | true => simp [valueF, hp] at h
        | false =>
          cases ts with
          | nil => simp [valueF, hp] at h
          | cons t rest =>
            simp only [valueF, hp] at h
            by_cases hd : isPunctTok t ['$'] = true
            · rw [if_pos hd] at h
              cases rest with
              | nil => simp at h
              | cons u rest2 =>
                try dsimp only at h
                by_cases hu : u.kind = Kind.name
                · rw [if_pos hu] at h
                  try dsimp only at h
                  cases h
                  exact (List.suffix_cons u r).trans (List.suffix_cons t (u :: r))
                · simp [hu] at h
            · rw [if_neg hd] at h
              by_cases hl : isPunctTok t ['['] = true
              · rw [if_pos hl] at h
                cases hm : manyValueF fuel rest with
                | ok items rest2 =>
                  rw [hm] at h
                  try dsimp only at h
                  cases rest2 with
                  | nil => simp at h
                  | cons u rest3 =>
                    try dsimp only at h
                    by_cases hu : isPunctTok u [']'] = true
                    · rw [if_pos hu] at h
                      try dsimp only at h
                      cases h
                      exact ((List.suffix_cons u r).trans (ih2 hm)).trans
                        (List.suffix_cons t rest)
                    · simp [hu] at h
                | err b2 => rw [hm] at h; simp at h
              · rw [if_neg hl] at h
                by_cases ho : isPunctTok t ['\x7b'] = true
                · rw [if_pos ho] at h
                  cases hm : manyPairVF fuel rest with
                  | ok ps rest2 =>
                    rw [hm] at h
                    try dsimp only at h
                    cases rest2 with
                    | nil => simp at h
                    | cons u rest3 =>
                      try dsimp only at h
                      by_cases hu : isPunctTok u ['\x7d'] = true
                      · rw [if_pos hu] at h
                        try dsimp only at h
                        cases h
                        exact ((List.suffix_cons u r).trans (ih3 hm)).trans
                          (List.suffix_cons t rest)
                      · simp [hu] at h
                  | err b2 => rw [hm] at h; simp at h
                · rw [if_neg ho] at h
                  simp at h
    · intro ts vs r h
      simp only [manyValueF] at h
      cases hv : valueF fuel ts with
      | ok v rest =>
        rw [hv] at h
        try dsimp only at h
        cases hm : manyValueF fuel rest with
        | ok items rest2 =>
          rw [hm] at h
          try dsimp only at h
          try dsimp only at h
          cases h
          exact (ih2 hm).trans (ih1 hv)
        | err b2 => rw [hm] at h; simp at h
      | err b =>
        rw [hv] at h
        try dsimp only at h
        cases b with
        | true => simp at h
        | false => cases h; exact List.suffix_refl _
    · intro ts ps r h
      simp only [manyPairVF] at h
      cases ts with
      | nil => cases h; exact List.suffix_refl _
      | cons t rest =>
        try dsimp only at h
        by_cases ht : t.kind = Kind.name
        · rw [if_pos ht] at h
          cases rest with
          | nil => simp at h
          | cons u rest2 =>
            try dsimp only at h
            by_cases hu : isPunctTok u [':'] = true
            · rw [if_pos hu] at h
              cases hv : valueF fuel rest2 with
              | ok v rest3 =>
                rw [hv] at h
                try dsimp only at h
                cases hm : manyPairVF fuel rest3 with
                | ok ps2 rest4 =>
                  rw [hm] at h
                  try dsimp only at h
                  try dsimp only at h
                  cases h
                  exact (((ih3 hm).trans (ih1 hv)).trans
                    (List.suffix_cons u rest2)).trans (List.suffix_cons t (u :: rest2))
                | err b2 => rw [hm] at h; simp at h
              | err b2 => rw [hv] at h; simp at h
            · simp [hu] at h
        · rw [if_neg ht] at h
          try dsimp only at h
          cases h
          exact List.suffix_refl _

theorem defaultF_err_false_to_valueF {fuel : Nat} {ts : List Token}
    (h : defaultF fuel ts = .err false)
    (hd : ∀ u r', ts = u :: r' → ¬ isPunctTok u ['$'] = true) :
    valueF fuel ts = .err false := by
  cases fuel with
  | zero => simp [defaultF] at h
  | succ fuel =>
    cases hp : plainValue ts with
    | ok v rest => simp [defaultF, hp] at h
    | err b =>
      cases b with
      | true => simp [defaultF, hp] at h
      | false =>
        cases ts with
        | nil => simp [valueF, hp]
        | cons t rest =>
          simp only [defaultF, hp] at h
          simp only [valueF, hp]
          rw [if_neg (hd t rest rfl)]
          by_cases hl : isPunctTok t ['['] = true
          · rw [if_pos hl] at h
            exfalso
            cases hm : manyDefaultF fuel rest with
            | ok items rest2 =>
              rw [hm] at h
              try dsimp only at h
              cases rest2 with
              | nil => simp at h
              | cons u rest3 =>
                by_cases hu : isPunctTok u [']'] = true
                · simp [hu] at h
                · simp [hu] at h
            | err b2 => rw [hm] at h; simp at h
          · rw [if_neg hl] at h
            by_cases ho : isPunctTok t ['\x7b'] = true
            · rw [if_pos ho] at h
              exfalso
              cases hm : manyPairDF fuel rest with
              | ok ps rest2 =>
                rw [hm] at h
                try dsimp only at h
                cases rest2 with
                | nil => simp at h
                | cons u rest3 =>
                  by_cases hu : isPunctTok u ['\x7d'] = true
                  · simp [hu] at h
                  · simp [hu] at h
              | err b2 => rw [hm] at h; simp at h
            · rw [if_neg hl, if_neg ho]

theorem defaultF_to_valueF :
    ∀ fuel : Nat,
      (∀ {ts : List Token} {v : Val} {r : List Token},
        defaultF fuel ts = .ok v r →
          valueF fuel ts = .ok v r ∧ noVar v = true) ∧
      (∀ {ts : List Token} {vs : List Val} {r : List Token},
        manyDefaultF fuel ts = .ok vs r →
          noVarList vs = true ∧
            (manyValueF fuel ts = .ok vs r ∨
              ∃ u r', r = u :: r' ∧ isPunctTok u ['$'] = true)) ∧
      (∀ {ts : List Token} {ps : List (Str × Val)} {r : List Token},
        manyPairDF fuel ts = .ok ps r →
          manyPairVF fuel ts = .ok ps r ∧ noVarPairs ps = true) := by
  intro fuel
  induction fuel with
  | zero =>
    refine ⟨?_, ?_, ?_⟩ <;> intro ts x r h <;>
      simp [defaultF, manyDefaultF, manyPairDF] at h
  | succ fuel ih =>
    obtain ⟨ih1, ih2, ih3⟩ := ih
    refine ⟨?_, ?_, ?_⟩
    · intro ts v r h
      cases hp : plainValue ts with
      | ok v0 rest =>
        simp only [defaultF, hp] at h
        cases h
        exact ⟨by simp [valueF, hp], (plainValue_ok hp).2⟩
      | err b =>
        cases b with
        | true => simp [defaultF, hp] at h
        | false =>
          cases ts with
          | nil => simp [defaultF, hp] at h
          | cons t rest =>
            simp only [defaultF, hp] at h
            simp only [valueF, hp]
            by_cases hl : isPunctTok t ['['] = true
            · rw [if_pos hl] at h
              have hnd : ¬ isPunctTok t ['$'] = true := by
                simp only [isPunctTok] at hl ⊢
                simp only [decide_eq_true_eq] at hl ⊢
                rintro ⟨_, hv2⟩
                rw [hl.2] at hv2
                simp at hv2
              rw [if_neg hnd, if_pos hl]
              cases hm : manyDefaultF fuel rest with
              | ok items rest2 =>
                rw [hm] at h
                try dsimp only at h
                cases rest2 with
                | nil => simp at h
                | cons u rest3 =>
                  try dsimp only at h
                  by_cases hu : isPunctTok u [']'] = true
                  · rw [if_pos hu] at h
                    cases h
                    obtain ⟨hnv, hcase⟩ := ih2 hm
                    rcases hcase with hmv | ⟨u', r', hur, hu'⟩
                    · rw [hmv]
                      try dsimp only
                      rw [if_pos hu]
                      exact ⟨rfl, by simp [noVar, hnv]⟩
                    · exfalso
                      cases hur
                      simp only [isPunctTok, decide_eq_true_eq] at hu hu'
                      rw [hu.2] at hu'
                      simp at hu'
                  · simp [hu] at h
              | err b2 => rw [hm] at h; simp at h
            · rw [if_neg hl] at h
              by_cases ho : isPunctTok t ['\x7b'] = true
              · rw [if_pos ho] at h
                have hnd : ¬ isPunctTok t ['$'] = true := by
                  simp only [isPunctTok, decide_eq_true_eq] at ho ⊢
                  rintro ⟨_, hv2⟩
                  rw [ho.2] at hv2
                  simp at hv2
                rw [if_neg hnd, if_neg hl, if_pos ho]
                cases hm : manyPairDF fuel rest with
                | ok ps rest2 =>
                  rw [hm] at h
                  try dsimp only at h
                  cases rest2 with
                  | nil => simp at h
                  | cons u rest3 =>
                    try dsimp only at h
                    by_cases hu : isPunctTok u ['\x7d'] = true
                    · rw [if_pos hu] at h
                      cases h
                      obtain ⟨hpv, hnv⟩ := ih3 hm
                      rw [hpv]
                      try dsimp only
                      rw [if_pos hu]
                      exact ⟨rfl, by simp [noVar, noVarPairs_btreeFromList hnv]⟩
                    · simp [hu] at h
                | err b2 => rw [hm] at h; simp at h
              · rw [if_neg ho] at h
                simp at h
    · intro ts vs r h
      simp only [manyDefaultF] at h
      cases hdv : defaultF fuel ts with
      | ok v rest =>
        rw [hdv] at h
        try dsimp only at h
        cases hm : manyDefaultF fuel rest with
        | ok items rest2 =>
          rw [hm] at h
          cases h
          obtain ⟨hv1, hv2⟩ := (ih1 hdv)
          obtain ⟨hnv, hcase⟩ := ih2 hm
          refine ⟨by simp [noVarList, hv2, hnv], ?_⟩
          rcases hcase with hmv | hdollar
          · left
            simp only [manyValueF, hv1]
            try dsimp only
            rw [hmv]
          · right
            exact hdollar
        | err b2 => rw [hm] at h; simp at h
      | err b =>
        rw [hdv] at h
        cases b with
        | true => simp at h
        | false =>
          cases h
          refine ⟨by simp [noVarList], ?_⟩
          by_cases hts : ∃ u r', ts = u :: r' ∧ isPunctTok u ['$'] = true
          · right
            obtain ⟨u, r', rfl, hu⟩ := hts
            exact ⟨u, r', rfl, hu⟩
          · left
            have hvf : valueF fuel ts = .err false := by
              apply defaultF_err_false_to_valueF hdv
              intro u r' hur hu
              exact hts ⟨u, r', hur, hu⟩
            simp only [manyValueF, hvf]
    · intro ts ps r h
      simp only [manyPairDF] at h
      simp only [manyPairVF]
      cases ts with
      | nil => exact ⟨h, by cases h; simp [noVarPairs]⟩
      | cons t rest =>
        try dsimp only at h
        try dsimp only
        by_cases ht : t.kind = Kind.name
        · rw [if_pos ht] at h ⊢
          cases rest with
          | nil => simp at h
          | cons u rest2 =>
            try dsimp only at h
            try dsimp only
            try dsimp only at h
            by_cases hu : isPunctTok u [':'] = true
            · rw [if_pos hu] at h ⊢
              cases hdv : defaultF fuel rest2 with
              | ok v rest3 =>
                rw [hdv] at h
                try dsimp only at h
                obtain ⟨hv1, hv2⟩ := ih1 hdv
                rw [hv1]
                try dsimp only
                cases hm : manyPairDF fuel rest3 with
                | ok ps2 rest4 =>
                  rw [hm] at h
                  cases h
                  obtain ⟨hpv, hnv⟩ := ih3 hm
                  rw [hpv]
                  exact ⟨rfl, by simp [noVarPairs, hv2, hnv]⟩
                | err b2 => rw [hm] at h; simp at h
              | err b2 => rw [hdv] at h; simp at h
            · simp [hu] at h
        · rw [if_neg ht] at h ⊢
          cases h
          exact ⟨rfl, by simp [noVarPairs]⟩

theorem noDollar_of_suffix {r ts : List Token} (h : r.IsSuffix ts)
    (hnd : noDollar ts = true) : noDollar r = true := by
  simp only [noDollar, List.all_eq_true] at hnd ⊢
  intro t ht
  exact hnd t (h.subset ht)

theorem noDollar_cons {t : Token} {rest : List Token}
    (hnd : noDollar (t :: rest) = true) : noDollar rest = true := by
  simp only [noDollar, List.all_cons, Bool.and_eq_true] at hnd
  exact hnd.2

theorem valueF_to_defaultF :
    ∀ fuel : Nat,
      (∀ {ts : List Token} {v : Val} {r : List Token},
        valueF fuel ts = .ok v r → noDollar ts = true →
          defaultF fuel ts = .ok v r) ∧
      (∀ {ts : List Token} {vs : List Val} {r : List Token},
        manyValueF fuel ts = .ok vs r → noDollar ts = true →
          manyDefaultF fuel ts = .ok vs r) ∧
      (∀ {ts : List Token} {ps : List (Str × Val)} {r : List Token},
        manyPairVF fuel ts = .ok ps r → noDollar ts = true →
          manyPairDF fuel ts = .ok ps r) := by
  intro fuel
  induction fuel with
  | zero =>
    refine ⟨?_, ?_, ?_⟩ <;> intro ts x r h hnd <;>
      simp [valueF, manyValueF, manyPairVF] at h
  | succ fuel ih =>
    obtain ⟨ih1, ih2, ih3⟩ := ih
    refine ⟨?_, ?_, ?_⟩
    · intro ts v r h hnd
      cases hp : plainValue ts with
      | ok v0 rest =>
        simp only [valueF, hp] at h
        simp only [defaultF, hp]
        exact h
      | err b =>
        cases b with
        | true => simp [valueF, hp] at h
        | false =>
          cases ts with
          | nil => simp [valueF, hp] at h
          | cons t rest =>
            simp only [valueF, hp] at h
            simp only [defaultF, hp]
            by_cases hd : isPunctTok t ['$'] = true
            · exfalso
              simp [noDollar, hd] at hnd
            · rw [if_neg hd] at h
              by_cases hl : isPunctTok t ['['] = true
              · rw [if_pos hl] at h
                rw [if_pos hl]
                cases hm : manyValueF fuel rest with
                | ok items rest2 =>
                  rw [hm] at h
                  try dsimp only at h
                  cases rest2 with
                  | nil => simp at h
                  | cons u rest3 =>
                    try dsimp only at h
                    by_cases hu : isPunctTok u [']'] = true
                    · rw [if_pos hu] at h
                      rw [ih2 hm (noDollar_cons hnd)]
                      try dsimp only
                      rw [if_pos hu]
                      exact h
                    · simp [hu] at h
                | err b2 => rw [hm] at h; simp at h
              · rw [if_neg hl] at h
                by_cases ho : isPunctTok t ['\x7b'] = true
                · rw [if_pos ho] at h
                  rw [if_neg hl, if_pos ho]
                  cases hm : manyPairVF fuel rest with
                  | ok ps rest2 =>
                    rw [hm] at h
                    try dsimp only at h
                    cases rest2 with
                    | nil => simp at h
                    | cons u rest3 =>
                      try dsimp only at h
                      by_cases hu : isPunctTok u ['\x7d'] = true
                      · rw [if_pos hu] at h
                        rw [ih3 hm (noDollar_cons hnd)]
                        try dsimp only
                        rw [if_pos hu]
                        exact h
                      · simp [hu] at h
                  | err b2 => rw [hm] at h; simp at h
                · rw [if_neg ho] at h
                  simp at h
    · intro ts vs r h hnd
      simp only [manyValueF] at h
      simp only [manyDefaultF]
      cases hv : valueF fuel ts with
      | ok v rest =>
        rw [hv] at h
        try dsimp only at h
        rw [ih1 hv hnd]
        try dsimp only
        cases hm : manyValueF fuel rest with
        | ok items rest2 =>
          rw [hm] at h
          have hndr : noDollar rest = true :=
            noDollar_of_suffix ((valueF_suffix fuel).1 hv) hnd
          rw [ih2 hm hndr]
          exact h
        | err b2 => rw [hm] at h; simp at h
      | err b =>
        rw [hv] at h
        cases b with
        | true => simp at h
        | false =>
          rw [valueF_err_false hv]
          exact h
    · intro ts ps r h hnd
      simp only [manyPairVF] at h
      simp only [manyPairDF]
      cases ts with
      | nil => exact h
      | cons t rest =>
        try dsimp only at h
        try dsimp only
        by_cases ht : t.kind = Kind.name
        · rw [if_pos ht] at h ⊢
          cases rest with
          | nil => simp at h
          | cons u rest2 =>
            try dsimp only at h
            try dsimp only
            by_cases hu : isPunctTok u [':'] = true
            · rw [if_pos hu] at h ⊢
              cases hv : valueF fuel rest2 with
              | ok v rest3 =>
                rw [hv] at h
                try dsimp only at h
                have hnd2 : noDollar rest2 = true :=
                  noDollar_cons (noDollar_cons hnd)
                rw [ih1 hv hnd2]
                try dsimp only
                cases hm : manyPairVF fuel rest3 with
                | ok ps2 rest4 =>
                  rw [hm] at h
                  have hndr : noDollar rest3 = true :=
                    noDollar_of_suffix ((valueF_suffix fuel).1 hv) hnd2
                  rw [ih3 hm hndr]
                  exact h
                | err b2 => rw [hm] at h; simp at h
              | err b2 => rw [hv] at h; simp at h
            · simp [hu] at h
        · rw [if_neg ht] at h ⊢
          exact h

/-- Claim C7: `default_value` accepts exactly what `value` accepts except
for variable references: every `default_value` success is a `value`
success with the same tree and the tree never contains a Variable node;
conversely on inputs whose tokens contain no `$`, every `value` success is
a `default_value` success with the same tree; and `default_value` fails on
inputs with a variable reference even nested inside list or object
literals. -/
theorem c7_value_vs_default_value :
    (∀ (ts : List Token) (v : Val) (r : List Token),
      default_value ts = .ok v r → value ts = .ok v r ∧ noVar v = true) ∧
      (∀ (ts : List Token) (v : Val) (r : List Token),
        value ts = .ok v r → noDollar ts = true →
          default_value ts = .ok v r) ∧
      ((tokenize ("[1, $x, 2]".toList)).map default_value =
        .ok (.err true)) ∧
      ((tokenize ("\x7ba: $x\x7d".toList)).map default_value =
        .ok (.err true)) := by
  refine ⟨?_, ?_, rfl, rfl⟩
  · intro ts v r h
    exact (defaultF_to_valueF _).1 h
  · intro ts v r h hnd
    exact (valueF_to_defaultF _).1 h hnd

/-- Claim C7, witness: the variable-free transfer direction at a concrete
token list. -/
theorem c7_value_vs_default_value_witness :
    default_value
        [⟨.punctuator, ['[']⟩, ⟨.intValue, ['1']⟩, ⟨.intValue, ['2']⟩,
          ⟨.punctuator, [']']⟩] =
      .ok (.list [.int 1, .int 2]) [] :=
  c7_value_vs_default_value.2.1 _ _ _ rfl rfl

/-! ### Characterizing the block-string dedent loop (claims C3, C1) -/

theorem foldMinOpt_some (y : Nat) (xs : List Nat) :
    foldMinOpt (some y) xs = some (xs.foldl min y) := by
  induction xs generalizing y with
  | nil => rfl
  | cons x xs ih => simp [foldMinOpt, List.foldl_cons] at ih ⊢; exact ih (min y x)

theorem foldMinOpt_none_eq_min? (xs : List Nat) :
    foldMinOpt none xs = xs.min? := by
  cases xs with
  | nil => rfl
  | cons x xs => rw [show foldMinOpt none (x :: xs) = foldMinOpt (some x) xs from rfl,
      foldMinOpt_some]; rfl

theorem blockScanFold_enumFrom :
    ∀ (lines : List Str) (n : Nat) (st : BlockScan), 1 ≤ n →
      (List.enumFrom n lines).foldl (fun st p => blockScanStep st p.1 p.2) st =
        { commonIndent := foldMinOpt st.commonIndent
            (((List.enumFrom n lines).filter (fun p => ¬ wsOnly p.2)).map
              (fun p => indentBytes p.2)),
          firstNonEmpty :=
            match st.firstNonEmpty with
            | some i => some i
            | none =>
              (((List.enumFrom n lines).filter (fun p => ¬ wsOnly p.2)).head?).map
                (fun p => p.1),
          lastNonEmpty :=
            match ((List.enumFrom n lines).filter (fun p => ¬ wsOnly p.2)).getLast? with
            | some p => p.1
            | none => st.lastNonEmpty } := by
  intro lines
  induction lines with
  | nil =>
    intro n st hn
    cases st with
    | mk c f l => cases f <;> simp [List.enumFrom, foldMinOpt]
  | cons l0 rest ih =>
    intro n st hn
    obtain ⟨sc, sf, sl⟩ := st
    rw [List.enumFrom_cons]
    simp only [List.foldl_cons, List.filter_cons]
    by_cases hw : wsOnly l0 = true
    · rw [show blockScanStep ⟨sc, sf, sl⟩ n l0 = ⟨sc, sf, sl⟩ from by
        simp [blockScanStep, hw]]
      rw [ih (n + 1) _ (by omega)]
      rw [if_neg (by simp [hw])]
    · have hstep : blockScanStep ⟨sc, sf, sl⟩ n l0 =
          { commonIndent :=
              match sc with
              | none => some (indentBytes l0)
              | some ci => some (min ci (indentBytes l0)),
            firstNonEmpty :=
              match sf with
              | none => some n
              | some i => some i,
            lastNonEmpty := n } := by
        simp only [blockScanStep, hw, if_false]
        have hn0 : ¬ n = 0 := by omega
        simp [hn0]
      rw [hstep, ih (n + 1) _ (by omega)]
      rw [if_pos (by simp [hw])]
      rw [BlockScan.mk.injEq]
      refine ⟨?_, ?_, ?_⟩
      · simp only [List.map_cons]
        cases sc <;> rfl
      · cases sf <;> simp
      · cases hfl : (List.enumFrom (n + 1) rest).filter (fun p => ¬ wsOnly p.2) with
        | nil => simp
        | cons y ys =>
          rw [List.getLast?_cons_cons]
          cases hlast : (y :: ys).getLast? with
          | none => simp [List.getLast?_eq_none_iff] at hlast
          | some p => simp [hlast]

theorem blockScan_eq (lines : List Str) :
    blockScan lines =
      { commonIndent :=
          (((lines.enum.filter (fun p => ¬ wsOnly p.2)).filter
            (fun p => p.1 ≠ 0)).map (fun p => indentBytes p.2)).min?,
        firstNonEmpty :=
          ((lines.enum.filter (fun p => ¬ wsOnly p.2)).head?).map (fun p => p.1),
        lastNonEmpty :=
          (((lines.enum.filter (fun p => ¬ wsOnly p.2)).getLast?).map
            (fun p => p.1)).getD 0 } := by
  cases lines with
  | nil => rfl
  | cons l0 rest =>
    have hsub : ∀ p ∈ (List.enumFrom 1 rest).filter (fun p => ¬ wsOnly p.2),
        (decide (p.1 ≠ 0)) = true := by
      intro p hp
      have hp' := List.mem_filter.mp hp
      obtain ⟨i, x⟩ := p
      have := (List.mem_enumFrom hp'.1).1
      simp only [decide_eq_true_eq]
      omega
    unfold blockScan
    rw [List.enum_cons, List.foldl_cons]
    simp only [List.filter_cons]
    by_cases hw : wsOnly l0 = true
    · rw [show blockScanStep ⟨none, none, 0⟩ 0 l0 = ⟨none, none, 0⟩ from by
        simp [blockScanStep, hw]]
      rw [blockScanFold_enumFrom rest 1 _ (by omega)]
      rw [if_neg (by simp [hw])]
      congr 1
      · rw [foldMinOpt_none_eq_min?]
        congr 1
        rw [List.filter_eq_self.mpr hsub]
      · cases hlast : ((List.enumFrom 1 rest).filter (fun p => ¬ wsOnly p.2)).getLast? <;>
          simp [hlast]
    · rw [show blockScanStep ⟨none, none, 0⟩ 0 l0 = ⟨none, some 0, 0⟩ from by
        simp [blockScanStep, hw]]
      rw [blockScanFold_enumFrom rest 1 _ (by omega)]
      rw [if_pos (by simp [hw])]
      congr 1
      · rw [foldMinOpt_none_eq_min?]
        congr 1
        rw [List.filter_cons]
        rw [if_neg (by simp)]
        rw [List.filter_eq_self.mpr hsub]
      · cases hfl : (List.enumFrom 1 rest).filter (fun p => ¬ wsOnly p.2) with
        | nil => simp
        | cons y ys =>
          rw [List.getLast?_cons_cons]
          cases hlast : (y :: ys).getLast? with
          | none => simp [List.getLast?_eq_none_iff] at hlast
          | some p => simp [hlast]

theorem byteLen_ascii {s : Str} (h : allAscii s = true) :
    byteLen s = s.length := by
  induction s with
  | nil => rfl
  | cons c rest ih =>
    simp only [allAscii, List.all_cons, Bool.and_eq_true, decide_eq_true_eq] at h
    have h1 : utf8Len c = 1 := by simp [utf8Len, h.1]
    have h2 := ih (by simp [allAscii, List.all_eq_true] at h ⊢; exact h.2)
    simp [byteLen, List.map_cons, h1] at h2 ⊢
    omega

theorem allAscii_subset {s l : Str} (hsub : l ⊆ s) (h : allAscii s = true) :
    allAscii l = true := by
  simp only [allAscii, List.all_eq_true] at h ⊢
  intro c hc
  exact h c (hsub hc)

theorem takeWhile_length_eq_iff {p : Char → Bool} :
    ∀ l : Str, ((l.takeWhile p).length = l.length ↔ l.all p = true) := by
  intro l
  induction l with
  | nil => simp
  | cons c rest ih =>
    by_cases hc : p c
    · simp [List.takeWhile_cons, hc, ih]
    · simp only [List.takeWhile_cons, hc, if_false, Bool.false_eq_true,
        List.all_cons, List.length_cons, List.length_nil]
      have := (rest.takeWhile_sublist p).length_le
      constructor
      · intro h
        omega
      · intro h
        simp [hc] at h

theorem indentBytes_ascii {l : Str} (h : allAscii l = true) :
    indentBytes l = indentChars l := by
  have hsub : trimStart l ⊆ l := (List.dropWhile_sublist _).subset
  have h1 := byteLen_ascii h
  have h2 := byteLen_ascii (allAscii_subset hsub h)
  have h3 : (l.takeWhile isRustWhitespace).length +
      (l.dropWhile isRustWhitespace).length = l.length := by
    rw [← List.length_append, List.takeWhile_append_dropWhile]
  simp only [indentBytes, indentChars, trimStart] at *
  omega

theorem wsOnly_ascii {l : Str} (h : allAscii l = true) :
    wsOnly l = wsOnlyChars l := by
  rw [Bool.eq_iff_iff]
  simp only [wsOnly, wsOnlyChars, decide_eq_true_eq]
  rw [indentBytes_ascii h, byteLen_ascii h]
  simp only [indentChars]
  exact takeWhile_length_eq_iff l

theorem byteDrop_ascii {l : Str} :
    ∀ {n : Nat}, allAscii l = true → n ≤ l.length →
      byteDrop n l = some (l.drop n) := by
  induction l with
  | nil =>
    intro n _ hn
    have hn0 : n = 0 := by simpa using hn
    subst hn0
    rfl
  | cons c rest ih =>
    intro n h hn
    simp only [allAscii, List.all_cons, Bool.and_eq_true, decide_eq_true_eq] at h
    cases n with
    | zero => rfl
    | succ m =>
      have h1 : utf8Len c = 1 := by simp [utf8Len, h.1]
      rw [show byteDrop (m + 1) (c :: rest) =
          (if m + 1 = 0 then some (c :: rest)
           else if utf8Len c ≤ m + 1 then byteDrop (m + 1 - utf8Len c) rest
           else none) from rfl]
      rw [if_neg (by omega), if_pos (by rw [h1]; omega), h1]
      have hm : m + 1 - 1 = m := by omega
      rw [hm]
      have hrest : allAscii rest = true := h.2
      rw [ih hrest (by simpa using hn)]
      rfl

theorem splitOnChar_ne_nil (sep : Char) : ∀ s : Str, splitOnChar sep s ≠ [] := by
  intro s
  induction s with
  | nil => simp [splitOnChar]
  | cons c rest ih =>
    simp only [splitOnChar]
    by_cases hc : c = sep
    · simp [hc]
    · rw [if_neg hc]
      cases hs : splitOnChar sep rest with
      | nil => simp
      | cons hd tl => simp

theorem mem_splitOnChar {sep : Char} :
    ∀ {s l : Str}, l ∈ splitOnChar sep s → ∀ c ∈ l, c ∈ s := by
  intro s
  induction s with
  | nil =>
    intro l hl c hc
    simp [splitOnChar] at hl
    subst hl
    simp at hc
  | cons a s' ih =>
    intro l hl c hc
    simp only [splitOnChar] at hl
    by_cases ha : a = sep
    · rw [if_pos ha] at hl
      rcases List.mem_cons.mp hl with rfl | hl
      · simp at hc
      · exact List.mem_cons_of_mem a (ih hl c hc)
    · rw [if_neg ha] at hl
      cases hs : splitOnChar sep s' with
      | nil => exact absurd hs (splitOnChar_ne_nil sep s')
      | cons hd tl =>
        rw [hs] at hl
        rcases List.mem_cons.mp hl with rfl | hl
        · rcases List.mem_cons.mp hc with rfl | hc
          · exact List.mem_cons_self c s'
          · have : hd ∈ splitOnChar sep s' := by rw [hs]; exact List.mem_cons_self hd tl
            exact List.mem_cons_of_mem a (ih this c hc)
        · have : l ∈ splitOnChar sep s' := by rw [hs]; exact List.mem_cons_of_mem hd hl
          exact List.mem_cons_of_mem a (ih this c hc)

theorem rustLines_ascii {s : Str} (h : allAscii s = true) :
    ∀ l ∈ rustLines s, allAscii l = true := by
  intro l hl
  simp only [rustLines] at hl
  rcases List.mem_map.mp hl with ⟨l', hl', rfl⟩
  have hl'' : l' ∈ splitOnChar '\n' s := by
    by_cases hc : (splitOnChar '\n' s).getLast? = some []
    · rw [if_pos hc] at hl'
      exact (List.dropLast_sublist _).subset hl'
    · rw [if_neg hc] at hl'
      exact hl'
  have hsub : l' ⊆ s := fun c hc => mem_splitOnChar hl'' c hc
  have hasc : allAscii l' = true := allAscii_subset hsub h
  unfold dropTrailingCR
  by_cases hcr : l'.getLast? = some '\r'
  · rw [if_pos hcr]
    exact allAscii_subset (List.dropLast_sublist _).subset hasc
  · rw [if_neg hcr]
    exact hasc

theorem mapM_eq_map_of_some {α β : Type} {f : α → Option β} {g : α → β} :
    ∀ {l : List α}, (∀ x ∈ l, f x = some (g x)) →
      l.mapM f = some (l.map g) := by
  intro l
  induction l with
  | nil => intro _; rfl
  | cons x rest ih =>
    intro h
    rw [List.map_cons, List.mapM_cons, h x (List.mem_cons_self x rest),
      ih (fun y hy => h y (List.mem_cons_of_mem x hy))]
    rfl

/-- Claim C3, amended: for every ASCII body, `unquote_block_string` on the
triple-quoted body computes exactly the declarative dedent `dedentSpec`:
every retained line except the first whose length is at least the common
indent is stripped of exactly that many leading characters, and a retained
line shorter than the common indent (necessarily whitespace-only) is kept
unchanged. -/
theorem c3_dedent_per_line (body : Str) (h : allAscii body = true) :
    unquote_block_string (['"', '"', '"'] ++ body ++ ['"', '"', '"']) =
      .ok (dedentSpec body) := by
  have hq3 : (['"', '"', '"'] : Str).length = 3 := rfl
  have htake : (['"', '"', '"'] ++ (body ++ ['"', '"', '"'])).take 3 =
      ['"', '"', '"'] := by
    rw [show (3 : Nat) = (['"', '"', '"'] : Str).length from rfl]
    exact List.take_left _ _
  have hlen : (['"', '"', '"'] ++ (body ++ ['"', '"', '"'])).length =
      body.length + 6 := by simp
  have hrev : (['"', '"', '"'] ++ (body ++ ['"', '"', '"'])).reverse.take 3 =
      ['"', '"', '"'] := by
    rw [List.reverse_append, List.reverse_append]
    rw [show (['"', '"', '"'] : Str).reverse = ['"', '"', '"'] from rfl]
    rw [List.append_assoc]
    rw [show (3 : Nat) = (['"', '"', '"'] : Str).length from rfl]
    exact List.take_left _ _
  have hinner : ((['"', '"', '"'] ++ (body ++ ['"', '"', '"'])).drop 3).take
      ((['"', '"', '"'] ++ (body ++ ['"', '"', '"'])).length - 6) = body := by
    rw [hlen]
    rw [show (3 : Nat) = (['"', '"', '"'] : Str).length from rfl]
    rw [List.drop_left]
    have : body.length + 6 - 6 = body.length := by omega
    rw [this]
    exact List.take_left _ _
  simp only [unquote_block_string, List.append_assoc]
  rw [if_pos ⟨htake, by rw [hlen]; omega, hrev⟩]
  rw [hinner]
  rw [blockScan_eq]
  have hLa : ∀ l ∈ rustLines body, allAscii l = true := rustLines_ascii h
  have hmem2 : ∀ p ∈ (rustLines body).enum, p.2 ∈ rustLines body := by
    intro p hp
    obtain ⟨i, x⟩ := p
    have hx := (List.mem_enumFrom (by simpa [List.enum] using hp)).2.2
    simp only at hx
    rw [hx]
    exact List.getElem_mem _
  have hfeq : (rustLines body).enum.filter (fun p => ¬ wsOnly p.2) =
      (rustLines body).enum.filter (fun p => ¬ wsOnlyChars p.2) := by
    apply List.filter_congr
    intro p hp
    rw [wsOnly_ascii (hLa p.2 (hmem2 p hp))]
  rw [hfeq]
  simp only [dedentSpec]
  cases hh : ((rustLines body).enum.filter (fun p => ¬ wsOnlyChars p.2)).head? with
  | none =>
    have hnil : (rustLines body).enum.filter (fun p => ¬ wsOnlyChars p.2) = [] :=
      List.head?_eq_none_iff.mp hh
    rw [hnil]
    rfl
  | some pf =>
    cases hl : ((rustLines body).enum.filter (fun p => ¬ wsOnlyChars p.2)).getLast? with
    | none =>
      exfalso
      rw [List.getLast?_eq_none_iff.mp hl] at hh
      simp at hh
    | some pl =>
      dsimp only
      have hci : (((rustLines body).enum.filter (fun p => ¬ wsOnlyChars p.2)).filter
            (fun p => p.1 ≠ 0)).map (fun p => indentBytes p.2) =
          (((rustLines body).enum.filter (fun p => ¬ wsOnlyChars p.2)).filter
            (fun p => p.1 ≠ 0)).map (fun p => indentChars p.2) := by
        apply List.map_congr_left
        intro p hp
        have hpe : p ∈ (rustLines body).enum :=
          (List.mem_filter.mp ((List.mem_filter.mp hp).1)).1
        exact indentBytes_ascii (hLa p.2 (hmem2 p hpe))
      rw [hci]
      have hwin : ∀ p ∈ (((rustLines body).enum.drop pf.1).take (pl.1 - pf.1 + 1)),
          allAscii p.2 = true := by
        intro p hp
        have hpe : p ∈ (rustLines body).enum :=
          List.drop_subset _ _ (List.take_subset _ _ hp)
        exact hLa p.2 (hmem2 p hpe)
      cases hmin : ((((rustLines body).enum.filter (fun p => ¬ wsOnlyChars p.2)).filter
          (fun p => p.1 ≠ 0)).map (fun p => indentChars p.2)).min? with
      | none =>
        have hstrip : ∀ p ∈ ((rustLines body).enum.drop pf.1).take (pl.1 - pf.1 + 1),
            stripLine none p.1 p.2 = some p.2 := fun p _ => rfl
        simp only [Option.map_some', Option.getD_some]
        rw [mapM_eq_map_of_some hstrip]
      | some n =>
        have hstrip : ∀ p ∈ ((rustLines body).enum.drop pf.1).take (pl.1 - pf.1 + 1),
            stripLine (some n) p.1 p.2 =
              some (if p.1 ≠ 0 ∧ p.2.length ≥ n then p.2.drop n else p.2) := by
          intro p hp
          have ha : allAscii p.2 = true := hwin p hp
          simp only [stripLine]
          rw [byteLen_ascii ha]
          by_cases hc : p.1 ≠ 0 ∧ p.2.length ≥ n
          · rw [if_pos hc, if_pos hc]
            rw [byteDrop_ascii ha hc.2]
          · rw [if_neg hc, if_neg hc]
        simp only [Option.map_some', Option.getD_some]
        rw [mapM_eq_map_of_some hstrip]

theorem unquoteGo_escape (c : Char) (rest : Str)
    (h : c = '\n' ∨ c = '\r' ∨ c = '\t' ∨ (0x20 ≤ c.toNat ∧ c.toNat ≤ 0xFFFF)) :
    unquoteGo (escapeCharSingle c ++ rest) = (unquoteGo rest).map (c :: ·) := by
  by_cases h1 : c = '\r'
  · subst h1
    rw [show escapeCharSingle '\r' ++ rest = '\\' :: 'r' :: rest from rfl]
    rw [unquoteGo.eq_def]
    simp +decide
  by_cases h2 : c = '\n'
  · subst h2
    rw [show escapeCharSingle '\n' ++ rest = '\\' :: 'n' :: rest from rfl]
    rw [unquoteGo.eq_def]
    simp +decide
  by_cases h3 : c = '\t'
  · subst h3
    rw [show escapeCharSingle '\t' ++ rest = '\\' :: 't' :: rest from rfl]
    rw [unquoteGo.eq_def]
    simp +decide
  by_cases h4 : c = '"'
  · subst h4
    rw [show escapeCharSingle '"' ++ rest = '\\' :: '"' :: rest from rfl]
    rw [unquoteGo.eq_def]
    simp +decide
  by_cases h5 : c = '\\'
  · subst h5
    rw [show escapeCharSingle '\\' ++ rest = '\\' :: '\\' :: rest from rfl]
    rw [unquoteGo.eq_def]
    simp +decide
  have hp : 0x20 ≤ c.toNat ∧ c.toNat ≤ 0xFFFF := by
    rcases h with h | h | h | h
    · exact absurd h h2
    · exact absurd h h1
    · exact absurd h h3
    · exact h
  have he : escapeCharSingle c = [c] := by
    simp only [escapeCharSingle]
    rw [if_neg h1, if_neg h2, if_neg h3, if_neg h4, if_neg h5, if_pos hp]
  rw [he]
  show unquoteGo (c :: rest) = _
  rw [unquoteGo.eq_def]
  dsimp only
  rw [if_neg h5]

theorem unquoteGo_flatten_escapes (s : Str)
    (h : ∀ c ∈ s, c = '\n' ∨ c = '\r' ∨ c = '\t' ∨
      (0x20 ≤ c.toNat ∧ c.toNat ≤ 0xFFFF)) :
    unquoteGo ((s.map escapeCharSingle).flatten) = .ok s := by
  induction s with
  | nil => rfl
  | cons c rest ih =>
    rw [List.map_cons, List.flatten_cons]
    rw [unquoteGo_escape c _ (h c (List.mem_cons_self c rest))]
    rw [ih (fun x hx => h x (List.mem_cons_of_mem c hx))]
    rfl

theorem unquote_writeQuotedSingleLine (s : Str)
    (h : ∀ c ∈ s, c = '\n' ∨ c = '\r' ∨ c = '\t' ∨
      (0x20 ≤ c.toNat ∧ c.toNat ≤ 0xFFFF)) :
    unquote_string (writeQuotedSingleLine s) = .ok s := by
  show unquote_string ('"' :: ((s.map escapeCharSingle).flatten ++ ['"'])) = .ok s
  simp only [unquote_string]
  rw [List.getLast?_concat]
  rw [if_pos rfl]
  rw [List.dropLast_concat]
  exact unquoteGo_flatten_escapes s h

/-- Witness for C3: a concrete ASCII body with a whitespace-only short line,
instantiating the amended dedent characterization. -/
theorem c3_dedent_per_line_witness :
    allAscii ['x', '\n', ' ', ' ', 'a', '\n', ' ', '\n', ' ', ' ', 'b'] = true ∧
      unquote_block_string (['"', '"', '"'] ++
          ['x', '\n', ' ', ' ', 'a', '\n', ' ', '\n', ' ', ' ', 'b'] ++
          ['"', '"', '"']) =
        .ok (dedentSpec ['x', '\n', ' ', ' ', 'a', '\n', ' ', '\n', ' ', ' ', 'b']) :=
  ⟨by decide, c3_dedent_per_line _ (by decide)⟩

theorem byteLen_append (a b : Str) : byteLen (a ++ b) = byteLen a + byteLen b := by
  simp [byteLen, List.map_append, List.sum_append]

theorem utf8Len_pos (c : Char) : 1 ≤ utf8Len c := by
  unfold utf8Len
  split_ifs <;> omega

theorem byteLen_eq_zero_iff (l : Str) : byteLen l = 0 ↔ l = [] := by
  cases l with
  | nil => simp [byteLen]
  | cons c r =>
    simp only [byteLen, List.map_cons, List.sum_cons]
    constructor
    · intro h
      exact absurd h (by have := utf8Len_pos c; omega)
    · intro h
      exact absurd h (List.cons_ne_nil c r)

theorem byteLen_trimStart_le (l : Str) : byteLen (trimStart l) ≤ byteLen l := by
  simp only [trimStart]
  conv_rhs => rw [← List.takeWhile_append_dropWhile (p := isRustWhitespace) (l := l)]
  rw [byteLen_append]
  omega

theorem wsOnly_iff_all (l : Str) :
    wsOnly l = true ↔ ∀ c ∈ l, isRustWhitespace c = true := by
  simp only [wsOnly, indentBytes, decide_eq_true_eq]
  have hsplit : byteLen (l.takeWhile isRustWhitespace) +
      byteLen (l.dropWhile isRustWhitespace) = byteLen l := by
    rw [← byteLen_append, List.takeWhile_append_dropWhile]
  have hle := byteLen_trimStart_le l
  simp only [trimStart] at hle ⊢
  constructor
  · intro h c hc
    have h0 : byteLen (l.dropWhile isRustWhitespace) = 0 := by omega
    have hnil : l.dropWhile isRustWhitespace = [] := (byteLen_eq_zero_iff _).mp h0
    exact List.dropWhile_eq_nil_iff.mp hnil c hc
  · intro h
    have hnil : l.dropWhile isRustWhitespace = [] := List.dropWhile_eq_nil_iff.mpr h
    rw [hnil]
    simp [byteLen]

theorem rustTrim_eq_nil_iff (l : Str) :
    rustTrim l = [] ↔ ∀ c ∈ l, isRustWhitespace c = true := by
  simp only [rustTrim, trimEnd, trimStart]
  constructor
  · intro h c hc
    have h1 : (l.dropWhile isRustWhitespace).reverse.dropWhile isRustWhitespace = [] := by
      have := congrArg List.reverse h
      simpa using this
    have h3 : ∀ x ∈ l.dropWhile isRustWhitespace, isRustWhitespace x = true := by
      intro x hx
      exact List.dropWhile_eq_nil_iff.mp h1 x (List.mem_reverse.mpr hx)
    have hc' : c ∈ l.takeWhile isRustWhitespace ++ l.dropWhile isRustWhitespace := by
      rw [List.takeWhile_append_dropWhile]
      exact hc
    rcases List.mem_append.mp hc' with h4 | h4
    · exact List.mem_takeWhile_imp h4
    · exact h3 c h4
  · intro h
    have hnil : l.dropWhile isRustWhitespace = [] := List.dropWhile_eq_nil_iff.mpr h
    rw [hnil]
    rfl

theorem spacesN_ws {n : Nat} {c : Char} (hc : c ∈ spacesN n) :
    isRustWhitespace c = true := by
  have : c = ' ' := List.eq_of_mem_replicate hc
  subst this
  decide

theorem wsOnly_spacesN (n : Nat) : wsOnly (spacesN n) = true :=
  (wsOnly_iff_all _).mpr (fun _ hc => spacesN_ws hc)

theorem byteLen_spacesN (n : Nat) : byteLen (spacesN n) = n := by
  induction n with
  | zero => rfl
  | succ k ih =>
    show byteLen (' ' :: spacesN k) = k + 1
    simp only [byteLen, List.map_cons, List.sum_cons]
    rw [show utf8Len ' ' = 1 from rfl]
    simp only [byteLen] at ih
    omega

theorem byteDrop_zero (l : Str) : byteDrop 0 l = some l := by cases l <;> rfl

theorem byteDrop_spacesN (x : Str) : ∀ n, byteDrop n (spacesN n ++ x) = some x := by
  intro n
  induction n with
  | zero => simpa [spacesN] using byteDrop_zero x
  | succ k ih =>
    show byteDrop (k + 1) (' ' :: (spacesN k ++ x)) = some x
    simp only [byteDrop]
    rw [if_neg (by omega)]
    rw [show utf8Len ' ' = 1 from rfl]
    rw [if_pos (by omega)]
    simpa using ih

theorem trimStart_spacesN_append (l : Str) (n : Nat) :
    trimStart (spacesN n ++ l) = trimStart l := by
  simp only [trimStart, spacesN]
  induction n with
  | zero => rfl
  | succ k ih =>
    rw [List.replicate_succ, List.cons_append,
      List.dropWhile_cons_of_pos (by decide)]
    exact ih

theorem indentBytes_spacesN_append (n : Nat) (l : Str) :
    indentBytes (spacesN n ++ l) = n + indentBytes l := by
  simp only [indentBytes]
  rw [trimStart_spacesN_append, byteLen_append, byteLen_spacesN]
  have := byteLen_trimStart_le l
  omega

theorem wsOnly_spacesN_append (n : Nat) (l : Str) :
    wsOnly (spacesN n ++ l) = wsOnly l := by
  rw [Bool.eq_iff_iff, wsOnly_iff_all, wsOnly_iff_all]
  constructor
  · intro h c hc
    exact h c (List.mem_append_right _ hc)
  · intro h c hc
    rcases List.mem_append.mp hc with h1 | h1
    · exact spacesN_ws h1
    · exact h c h1

theorem dropTrailingCR_of_not_mem {l : Str} (h : '\r' ∉ l) : dropTrailingCR l = l := by
  simp only [dropTrailingCR]
  rw [if_neg]
  intro hc
  rcases List.mem_getLast?_eq_getLast (Option.mem_def.mpr hc) with ⟨hne, hx⟩
  exact h (hx ▸ List.getLast_mem hne)

theorem splitOnChar_not_mem {sep : Char} {t : Str} (h : sep ∉ t) :
    splitOnChar sep t = [t] := by
  induction t with
  | nil => rfl
  | cons c rest ih =>
    have hc : ¬ c = sep := fun he => h (he ▸ List.mem_cons_self c rest)
    have hr : sep ∉ rest := fun hm => h (List.mem_cons_of_mem c hm)
    simp only [splitOnChar]
    rw [if_neg hc, ih hr]

theorem splitOnChar_append_sep {sep : Char} :
    ∀ {l : Str}, sep ∉ l → ∀ (rest : Str),
      splitOnChar sep (l ++ sep :: rest) = l :: splitOnChar sep rest := by
  intro l
  induction l with
  | nil =>
    intro _ rest
    simp only [List.nil_append, splitOnChar]
    simp
  | cons c t ih =>
    intro h rest
    have hc : ¬ c = sep := fun he => h (he ▸ List.mem_cons_self c t)
    have ht : sep ∉ t := fun hm => h (List.mem_cons_of_mem c hm)
    simp only [List.cons_append, splitOnChar, List.append_eq]
    rw [if_neg hc, ih ht rest]

theorem splitOnChar_flatten {sep : Char} :
    ∀ (ls : List Str), (∀ l ∈ ls, sep ∉ l) → ∀ (tail : Str), sep ∉ tail →
      splitOnChar sep ((ls.map (fun l => l ++ [sep])).flatten ++ tail) =
        ls ++ [tail] := by
  intro ls
  induction ls with
  | nil =>
    intro _ tail ht
    simpa using splitOnChar_not_mem ht
  | cons l ls ih =>
    intro h tail ht
    rw [List.map_cons, List.flatten_cons, List.append_assoc, List.append_assoc,
      List.singleton_append]
    rw [splitOnChar_append_sep (h l (List.mem_cons_self l ls))]
    rw [ih (fun x hx => h x (List.mem_cons_of_mem l hx)) tail ht]
    rfl

theorem not_mem_splitOnChar {sep : Char} :
    ∀ {s l : Str}, l ∈ splitOnChar sep s → sep ∉ l := by
  intro s
  induction s with
  | nil =>
    intro l hl hm
    simp [splitOnChar] at hl
    subst hl
    simp at hm
  | cons a s' ih =>
    intro l hl hm
    simp only [splitOnChar] at hl
    by_cases ha : a = sep
    · rw [if_pos ha] at hl
      rcases List.mem_cons.mp hl with rfl | hl
      · simp at hm
      · exact ih hl hm
    · rw [if_neg ha] at hl
      cases hs : splitOnChar sep s' with
      | nil => exact absurd hs (splitOnChar_ne_nil sep s')
      | cons hd tl =>
        rw [hs] at hl
        rcases List.mem_cons.mp hl with rfl | hl
        · rcases List.mem_cons.mp hm with rfl | hm
          · exact ha rfl
          · have : hd ∈ splitOnChar sep s' := by
              rw [hs]
              exact List.mem_cons_self hd tl
            exact ih this hm
        · have : l ∈ splitOnChar sep s' := by
            rw [hs]
            exact List.mem_cons_of_mem hd hl
          exact ih this hm

theorem mem_of_mem_rustLines {s l : Str} (hl : l ∈ rustLines s) : ∀ c ∈ l, c ∈ s := by
  simp only [rustLines] at hl
  rcases List.mem_map.mp hl with ⟨l', hl', rfl⟩
  have hl'' : l' ∈ splitOnChar '\n' s := by
    by_cases hc : (splitOnChar '\n' s).getLast? = some []
    · rw [if_pos hc] at hl'
      exact (List.dropLast_sublist _).subset hl'
    · rw [if_neg hc] at hl'
      exact hl'
  intro c hc
  have hsub : c ∈ l' := by
    simp only [dropTrailingCR] at hc
    by_cases hr : l'.getLast? = some '\r'
    · rw [if_pos hr] at hc
      exact (List.dropLast_sublist _).subset hc
    · rw [if_neg hr] at hc
      exact hc
  exact mem_splitOnChar hl'' c hsub

theorem newline_not_mem_rustLines {s l : Str} (hl : l ∈ rustLines s) : '\n' ∉ l := by
  simp only [rustLines] at hl
  rcases List.mem_map.mp hl with ⟨l', hl', rfl⟩
  have hl'' : l' ∈ splitOnChar '\n' s := by
    by_cases hc : (splitOnChar '\n' s).getLast? = some []
    · rw [if_pos hc] at hl'
      exact (List.dropLast_sublist _).subset hl'
    · rw [if_neg hc] at hl'
      exact hl'
  intro hm
  have : '\n' ∈ l' := by
    simp only [dropTrailingCR] at hm
    by_cases hr : l'.getLast? = some '\r'
    · rw [if_pos hr] at hm
      exact (List.dropLast_sublist _).subset hm
    · rw [if_neg hr] at hm
      exact hm
  exact not_mem_splitOnChar hl'' this

theorem replaceTriToEsc_of_not_mem : ∀ {l : Str}, '"' ∉ l → replaceTriToEsc l = l := by
  intro l
  induction l with
  | nil => intro _; rfl
  | cons c rest ih =>
    intro h
    rw [replaceTriToEsc.eq_def]
    split
    · rename_i heq
      have hc : c = '"' := by injection heq
      exfalso
      apply h
      rw [hc]
      exact List.mem_cons_self _ _
    · rename_i d tl hno heq
      injection heq with hd ht
      subst hd
      subst ht
      rw [ih (fun hm => h (List.mem_cons_of_mem c hm))]
    · rename_i heq
      exact absurd heq (List.cons_ne_nil c rest)

theorem replaceEscToTri_of_not_mem : ∀ {l : Str}, '"' ∉ l → replaceEscToTri l = l := by
  intro l
  induction l with
  | nil => intro _; rfl
  | cons c rest ih =>
    intro h
    rw [replaceEscToTri.eq_def]
    split
    · rename_i r heq
      exfalso
      apply h
      have hr : rest = '"' :: '"' :: '"' :: r := by injection heq
      rw [hr]
      exact List.mem_cons_of_mem c (List.mem_cons_self _ _)
    · rename_i d tl hno heq
      injection heq with hd ht
      subst hd
      subst ht
      rw [ih (fun hm => h (List.mem_cons_of_mem c hm))]
    · rename_i heq
      exact absurd heq (List.cons_ne_nil c rest)

theorem rTE_cons_of_ne (c : Char) (rest : Str)
    (h : ¬ (c = '"' ∧ ∃ r, rest = '"' :: '"' :: r)) :
    replaceTriToEsc (c :: rest) = c :: replaceTriToEsc rest := by
  rw [replaceTriToEsc.eq_def]
  split
  · rename_i r heq
    exfalso
    apply h
    injection heq with h1 h2
    exact ⟨h1, r, h2⟩
  · rename_i d tl hno heq
    injection heq with hd ht
    subst hd
    subst ht
    rfl
  · rename_i heq
    exact absurd heq (List.cons_ne_nil c rest)

theorem rTE_triple (r : Str) :
    replaceTriToEsc ('"' :: '"' :: '"' :: r) =
      '\\' :: '"' :: '"' :: '"' :: replaceTriToEsc r := rfl

theorem rET_cons_of_ne (c : Char) (t : Str)
    (h : ¬ (c = '\\' ∧ ∃ r, t = '"' :: '"' :: '"' :: r)) :
    replaceEscToTri (c :: t) = c :: replaceEscToTri t := by
  rw [replaceEscToTri.eq_def]
  split
  · rename_i r heq
    exfalso
    apply h
    injection heq with h1 h2
    exact ⟨h1, r, h2⟩
  · rename_i d tl hno heq
    injection heq with hd ht
    subst hd
    subst ht
    rfl
  · rename_i heq
    exact absurd heq (List.cons_ne_nil c t)

theorem rET_quad (r : Str) :
    replaceEscToTri ('\\' :: '"' :: '"' :: '"' :: r) =
      '"' :: '"' :: '"' :: replaceEscToTri r := rfl

theorem rTE_ne_quote3 : ∀ (l r : Str),
    replaceTriToEsc l ≠ '"' :: '"' :: '"' :: r := by
  intro l r heq
  cases l with
  | nil => simp [replaceTriToEsc] at heq
  | cons c l1 =>
    by_cases hp : c = '"' ∧ ∃ r2, l1 = '"' :: '"' :: r2
    · obtain ⟨rfl, r2, rfl⟩ := hp
      rw [rTE_triple] at heq
      injection heq with h1 _
      exact absurd h1 (by decide)
    · rw [rTE_cons_of_ne c l1 hp] at heq
      injection heq with h1 h2
      subst h1
      have hl1 : ∀ r2, l1 ≠ '"' :: '"' :: r2 := fun r2 hx => hp ⟨rfl, r2, hx⟩
      cases l1 with
      | nil => simp [replaceTriToEsc] at h2
      | cons d l2 =>
        by_cases hd : d = '"'
        · subst hd
          have hl2 : ∀ r2, l2 ≠ '"' :: r2 := fun r2 hx => hl1 r2 (by rw [hx])
          rw [rTE_cons_of_ne '"' l2 (fun hx => by
            obtain ⟨_, r2, hx2⟩ := hx
            exact hl2 ('"' :: r2) hx2)] at h2
          injection h2 with _ h3
          cases l2 with
          | nil => simp [replaceTriToEsc] at h3
          | cons e l3 =>
            by_cases he : e = '"'
            · exact hl2 l3 (by rw [he])
            · rw [rTE_cons_of_ne e l3 (fun hx => he hx.1)] at h3
              injection h3 with h5 _
              exact he h5
        · rw [rTE_cons_of_ne d l2 (fun hx => hd hx.1)] at h2
          injection h2 with h3 _
          exact hd h3

theorem rET_rTE_aux : ∀ (n : Nat) (l : Str), l.length ≤ n →
    replaceEscToTri (replaceTriToEsc l) = l := by
  intro n
  induction n with
  | zero =>
    intro l hl
    have hnil : l = [] := List.eq_nil_of_length_eq_zero (Nat.le_zero.mp hl)
    subst hnil
    rfl
  | succ k ih =>
    intro l hl
    cases l with
    | nil => rfl
    | cons c rest =>
      by_cases hp : c = '"' ∧ ∃ r, rest = '"' :: '"' :: r
      · obtain ⟨rfl, r, rfl⟩ := hp
        rw [rTE_triple, rET_quad]
        rw [ih r (by simp at hl; omega)]
      · rw [rTE_cons_of_ne c rest hp]
        rw [rET_cons_of_ne c (replaceTriToEsc rest) (fun hx => by
          obtain ⟨_, r, hx2⟩ := hx
          exact rTE_ne_quote3 rest r hx2)]
        rw [ih rest (by simp at hl; omega)]

theorem rET_rTE (l : Str) : replaceEscToTri (replaceTriToEsc l) = l :=
  rET_rTE_aux l.length l le_rfl

theorem mem_rTE_aux : ∀ (n : Nat) (l : Str), l.length ≤ n → ∀ c : Char,
    (c ∈ replaceTriToEsc l → c ∈ l ∨ c = '\\') ∧
      (c ∈ l → c ∈ replaceTriToEsc l) := by
  intro n
  induction n with
  | zero =>
    intro l hl c
    have hnil : l = [] := List.eq_nil_of_length_eq_zero (Nat.le_zero.mp hl)
    subst hnil
    exact ⟨fun h => absurd h (by simp [replaceTriToEsc]), fun h => absurd h (by simp)⟩
  | succ k ih =>
    intro l hl c
    cases l with
    | nil =>
      exact ⟨fun h => absurd h (by simp [replaceTriToEsc]), fun h => absurd h (by simp)⟩
    | cons a rest =>
      by_cases hp : a = '"' ∧ ∃ r, rest = '"' :: '"' :: r
      · obtain ⟨rfl, r, rfl⟩ := hp
        have hr : r.length ≤ k := by simp at hl; omega
        rw [rTE_triple]
        constructor
        · intro h
          rcases List.mem_cons.mp h with rfl | h
          · exact Or.inr rfl
          rcases List.mem_cons.mp h with rfl | h
          · exact Or.inl (List.mem_cons_self _ _)
          rcases List.mem_cons.mp h with rfl | h
          · exact Or.inl (List.mem_cons_self _ _)
          rcases List.mem_cons.mp h with rfl | h
          · exact Or.inl (List.mem_cons_self _ _)
          rcases (ih r hr c).1 h with h | h
          · exact Or.inl (by simp [h])
          · exact Or.inr h
        · intro h
          rcases List.mem_cons.mp h with rfl | h
          · simp
          rcases List.mem_cons.mp h with rfl | h
          · simp
          rcases List.mem_cons.mp h with rfl | h
          · simp
          have := (ih r hr c).2 h
          simp [this]
      · have hrk : rest.length ≤ k := by simp at hl; omega
        rw [rTE_cons_of_ne a rest hp]
        constructor
        · intro h
          rcases List.mem_cons.mp h with rfl | h
          · exact Or.inl (List.mem_cons_self _ _)
          rcases (ih rest hrk c).1 h with h | h
          · exact Or.inl (List.mem_cons_of_mem a h)
          · exact Or.inr h
        · intro h
          rcases List.mem_cons.mp h with rfl | h
          · exact List.mem_cons_self _ _
          · exact List.mem_cons_of_mem a ((ih rest hrk c).2 h)

theorem mem_of_mem_rTE {l : Str} {c : Char} (h : c ∈ replaceTriToEsc l) :
    c ∈ l ∨ c = '\\' :=
  (mem_rTE_aux l.length l le_rfl c).1 h

theorem mem_rTE_of_mem {l : Str} {c : Char} (h : c ∈ l) :
    c ∈ replaceTriToEsc l :=
  (mem_rTE_aux l.length l le_rfl c).2 h

theorem wsOnly_rTE (l : Str) : wsOnly (replaceTriToEsc l) = wsOnly l := by
  by_cases hq : '"' ∈ l
  · have h1 : wsOnly l = false := by
      cases hws : wsOnly l with
      | false => rfl
      | true =>
        exact absurd ((wsOnly_iff_all l).mp hws '"' hq) (by decide)
    have h2 : wsOnly (replaceTriToEsc l) = false := by
      cases hws : wsOnly (replaceTriToEsc l) with
      | false => rfl
      | true =>
        exact absurd
          ((wsOnly_iff_all _).mp hws '"' (mem_rTE_of_mem hq)) (by decide)
    rw [h1, h2]
  · rw [replaceTriToEsc_of_not_mem hq]

theorem rustTrim_nil_iff_wsOnly (x : Str) : rustTrim x = [] ↔ wsOnly x = true := by
  rw [rustTrim_eq_nil_iff, wsOnly_iff_all]

theorem rTE_ne_nil {l : Str} (h : l ≠ []) : replaceTriToEsc l ≠ [] := by
  cases l with
  | nil => exact absurd rfl h
  | cons c rest =>
    by_cases hp : c = '"' ∧ ∃ r, rest = '"' :: '"' :: r
    · obtain ⟨rfl, r, rfl⟩ := hp
      rw [rTE_triple]
      simp
    · rw [rTE_cons_of_ne c rest hp]
      simp

theorem indentBytes_cons_of_not_ws {c : Char} (r : Str)
    (h : ¬ isRustWhitespace c = true) : indentBytes (c :: r) = 0 := by
  simp only [indentBytes, trimStart]
  rw [List.dropWhile_cons_of_neg h]
  omega

theorem indentBytes_zero_head {c : Char} {r : Str}
    (h : indentBytes (c :: r) = 0) : isRustWhitespace c = false := by
  by_contra hws
  rw [Bool.not_eq_false] at hws
  simp only [indentBytes, trimStart] at h
  rw [List.dropWhile_cons_of_pos hws] at h
  have h1 := byteLen_trimStart_le r
  simp only [trimStart] at h1
  have h2 : byteLen (c :: r) = utf8Len c + byteLen r := by
    simp [byteLen, List.map_cons, List.sum_cons]
  have h3 := utf8Len_pos c
  omega

theorem indentBytes_rTE_zero {l : Str} (h : indentBytes l = 0) :
    indentBytes (replaceTriToEsc l) = 0 := by
  cases l with
  | nil => rfl
  | cons c r =>
    have hc : isRustWhitespace c = false := indentBytes_zero_head h
    by_cases hp : c = '"' ∧ ∃ r2, r = '"' :: '"' :: r2
    · obtain ⟨rfl, r2, rfl⟩ := hp
      rw [rTE_triple]
      exact indentBytes_cons_of_not_ws _ (by decide)
    · rw [rTE_cons_of_ne c r hp]
      exact indentBytes_cons_of_not_ws _ (by simp [hc])

theorem foldl_min_eq_of_le {a : Nat} :
    ∀ (xs : List Nat) (x : Nat), (a = x ∨ a ∈ xs) → a ≤ x → (∀ b ∈ xs, a ≤ b) →
      xs.foldl min x = a := by
  intro xs
  induction xs with
  | nil =>
    intro x hmem hx _
    rcases hmem with rfl | h
    · rfl
    · exact absurd h (List.not_mem_nil a)
  | cons y ys ih =>
    intro x hmem hx hb
    rw [List.foldl_cons]
    have hay : a ≤ y := hb y (List.mem_cons_self y ys)
    have hbs : ∀ b ∈ ys, a ≤ b := fun b hbm => hb b (List.mem_cons_of_mem y hbm)
    have hmin : a ≤ min x y := le_min hx hay
    rcases hmem with rfl | h
    · exact ih (min a y) (Or.inl (Nat.min_eq_left hay).symm) hmin hbs
    · rcases List.mem_cons.mp h with rfl | h
      · exact ih (min x a) (Or.inl (Nat.min_eq_right hx).symm) hmin hbs
      · exact ih (min x y) (Or.inr h) hmin hbs

theorem min?_eq_some_of_le {a : Nat} {xs : List Nat} (hmem : a ∈ xs)
    (hb : ∀ b ∈ xs, a ≤ b) : xs.min? = some a := by
  cases xs with
  | nil => exact absurd hmem (List.not_mem_nil a)
  | cons x ys =>
    show some (ys.foldl min x) = some a
    congr 1
    exact foldl_min_eq_of_le ys x
      (by
        rcases List.mem_cons.mp hmem with rfl | h
        · exact Or.inl rfl
        · exact Or.inr h)
      (hb x (List.mem_cons_self x ys))
      (fun b hbm => hb b (List.mem_cons_of_mem x hbm))

theorem getLast?_filter_of_pos {α : Type} (p : α → Bool) :
    ∀ (l : List α) (a : α), l.getLast? = some a → p a = true →
      (l.filter p).getLast? = some a
  | [], a, h, _ => by simp at h
  | [x], a, h, hp => by
      have hax : x = a := by simpa using h
      subst hax
      simp [List.filter_cons, hp]
  | x :: y :: xs, a, h, hp => by
      rw [List.getLast?_cons_cons] at h
      have ih := getLast?_filter_of_pos p (y :: xs) a h hp
      rw [List.filter_cons]
      by_cases hx : p x = true
      · rw [if_pos hx]
        cases ht : List.filter p (y :: xs) with
        | nil =>
          rw [ht] at ih
          simp at ih
        | cons z zs =>
          rw [ht] at ih
          rw [List.getLast?_cons_cons]
          exact ih
      · rw [if_neg hx]
        exact ih

theorem getLast?_enumFrom {α : Type} :
    ∀ (l : List α) (n : Nat), (List.enumFrom n l).getLast? =
      l.getLast?.map (fun a => (n + l.length - 1, a))
  | [], _ => rfl
  | [x], n => by simp
  | x :: y :: xs, n => by
      rw [show List.enumFrom n (x :: y :: xs) =
        (n, x) :: List.enumFrom (n + 1) (y :: xs) from rfl]
      rw [show List.enumFrom (n + 1) (y :: xs) =
        (n + 1, y) :: List.enumFrom (n + 2) xs from rfl]
      rw [List.getLast?_cons_cons]
      rw [← show List.enumFrom (n + 1) (y :: xs) =
        (n + 1, y) :: List.enumFrom (n + 2) xs from rfl]
      rw [getLast?_enumFrom (y :: xs) (n + 1)]
      rw [List.getLast?_cons_cons]
      congr 1
      funext a
      rw [Prod.mk.injEq]
      refine ⟨?_, rfl⟩
      simp only [List.length_cons]
      omega

theorem enum_filter_written (c : Nat) :
    ∀ (n : Nat) (L : List Str), (∀ l ∈ L, wsOnly l = true → l = []) →
      (List.enumFrom n (L.map (fun l =>
          if rustTrim l = [] then [] else spacesN c ++ l))).filter
          (fun p => ¬ wsOnly p.2) =
        ((List.enumFrom n L).filter (fun p => ¬ p.2.isEmpty)).map
          (fun p => (p.1, spacesN c ++ p.2)) := by
  intro n L
  induction L generalizing n with
  | nil => intro _; rfl
  | cons l L ih =>
    intro h
    rw [List.map_cons]
    rw [show List.enumFrom n ((if rustTrim l = [] then [] else spacesN c ++ l) ::
        L.map (fun l => if rustTrim l = [] then [] else spacesN c ++ l)) =
      (n, if rustTrim l = [] then [] else spacesN c ++ l) ::
        List.enumFrom (n + 1) (L.map (fun l =>
          if rustTrim l = [] then [] else spacesN c ++ l)) from rfl]
    rw [show List.enumFrom n (l :: L) = (n, l) :: List.enumFrom (n + 1) L from rfl]
    rw [List.filter_cons, List.filter_cons]
    by_cases hl : l = []
    · subst hl
      rw [show (if rustTrim ([] : Str) = [] then ([] : Str) else
        spacesN c ++ []) = [] from rfl]
      rw [if_neg (by simp [wsOnly]; rfl)]
      rw [if_neg (by simp)]
      exact ih (n + 1) (fun x hx => h x (List.mem_cons_of_mem _ hx))
    · have hws : ¬ wsOnly l = true := fun hw => hl (h l (List.mem_cons_self l L) hw)
      have htr : ¬ rustTrim l = [] := fun ht =>
        hws ((wsOnly_iff_all l).mpr ((rustTrim_eq_nil_iff l).mp ht))
      rw [if_neg htr]
      rw [if_pos (by
        simp only [decide_eq_true_eq]
        rw [wsOnly_spacesN_append]
        exact hws)]
      rw [if_pos (by
        simp only [decide_eq_true_eq, List.isEmpty_iff]
        exact hl)]
      rw [List.map_cons]
      rw [ih (n + 1) (fun x hx => h x (List.mem_cons_of_mem l hx))]

theorem mapM_stripLine_written (c : Nat) :
    ∀ (n : Nat) (L : List Str), (∀ l ∈ L, wsOnly l = true → l = []) →
      (List.enumFrom (n + 1) (L.map (fun l =>
          if rustTrim l = [] then [] else spacesN c ++ l))).mapM
          (fun p => stripLine (some c) p.1 p.2) = some L := by
  intro n L
  induction L generalizing n with
  | nil => intro _; rfl
  | cons l L ih =>
    intro h
    rw [List.map_cons]
    rw [show List.enumFrom (n + 1) ((if rustTrim l = [] then [] else
        spacesN c ++ l) :: L.map (fun l =>
          if rustTrim l = [] then [] else spacesN c ++ l)) =
      (n + 1, if rustTrim l = [] then [] else spacesN c ++ l) ::
        List.enumFrom (n + 2) (L.map (fun l =>
          if rustTrim l = [] then [] else spacesN c ++ l)) from rfl]
    rw [List.mapM_cons]
    have hstep : stripLine (some c)
        (n + 1, if rustTrim l = [] then [] else spacesN c ++ l).1
        (n + 1, if rustTrim l = [] then [] else spacesN c ++ l).2 = some l := by
      by_cases hl : l = []
      · subst hl
        rw [show (if rustTrim ([] : Str) = [] then ([] : Str) else
          spacesN c ++ []) = [] from rfl]
        simp only [stripLine]
        by_cases hc : c = 0
        · subst hc
          rw [if_pos (by simp [byteLen])]
          exact byteDrop_zero []
        · rw [if_neg (by
            simp only [byteLen, List.map_nil, List.sum_nil]
            omega)]
      · have hws : ¬ wsOnly l = true := fun hw => hl (h l (List.mem_cons_self l L) hw)
        have htr : ¬ rustTrim l = [] := fun ht =>
          hws ((wsOnly_iff_all l).mpr ((rustTrim_eq_nil_iff l).mp ht))
        rw [if_neg htr]
        simp only [stripLine]
        rw [if_pos (by
          constructor
          · omega
          · rw [byteLen_append, byteLen_spacesN]
            omega)]
        exact byteDrop_spacesN l c
    rw [hstep]
    rw [show n + 2 = (n + 1) + 1 from rfl]
    rw [ih (n + 1) (fun x hx => h x (List.mem_cons_of_mem l hx))]
    rfl

theorem intercalate_single {α : Type} (sep a : List α) :
    List.intercalate sep [a] = a := by
  simp [List.intercalate]

theorem intercalate_cons_cons {α : Type} (sep a b : List α) (l : List (List α)) :
    List.intercalate sep (a :: b :: l) = a ++ sep ++ List.intercalate sep (b :: l) := by
  simp only [List.intercalate, List.intersperse_cons_cons, List.flatten_cons,
    List.append_assoc]

theorem intercalate_splitOnChar (sep : Char) :
    ∀ s : Str, List.intercalate [sep] (splitOnChar sep s) = s := by
  intro s
  induction s with
  | nil => simp [splitOnChar, intercalate_single]
  | cons c rest ih =>
    rw [splitOnChar.eq_def]
    dsimp only
    by_cases hc : c = sep
    · rw [if_pos hc]
      cases hs : splitOnChar sep rest with
      | nil => exact absurd hs (splitOnChar_ne_nil sep rest)
      | cons hd tl =>
        rw [intercalate_cons_cons, ← hs, ih]
        rw [hc]
        rfl
    · rw [if_neg hc]
      cases hs : splitOnChar sep rest with
      | nil => exact absurd hs (splitOnChar_ne_nil sep rest)
      | cons hd tl =>
        rw [hs] at ih
        cases tl with
        | nil =>
          rw [intercalate_single] at ih ⊢
          rw [ih]
        | cons t1 ts =>
          rw [intercalate_cons_cons] at ih
          rw [intercalate_cons_cons]
          rw [show (c :: hd) ++ [sep] ++ List.intercalate [sep] (t1 :: ts) =
            c :: (hd ++ [sep] ++ List.intercalate [sep] (t1 :: ts)) from by simp]
          rw [ih]

theorem splitOnChar_getLast_ne_nil {sep : Char} :
    ∀ (s : Str), s.getLast? ≠ some sep → s ≠ [] →
      (splitOnChar sep s).getLast? ≠ some []
  | [], _, h => absurd rfl h
  | [c], hlast, _ => by
      have hc : ¬ c = sep := fun he => hlast (by rw [he]; rfl)
      rw [splitOnChar.eq_def]
      dsimp only
      rw [if_neg hc]
      rw [show splitOnChar sep ([] : Str) = [[]] from rfl]
      simp
  | c :: d :: rest, hlast, _ => by
      rw [List.getLast?_cons_cons] at hlast
      have ih := splitOnChar_getLast_ne_nil (d :: rest) hlast (List.cons_ne_nil d rest)
      rw [splitOnChar.eq_def]
      dsimp only
      by_cases hc : c = sep
      · rw [if_pos hc]
        cases hs : splitOnChar sep (d :: rest) with
        | nil => exact absurd hs (splitOnChar_ne_nil sep (d :: rest))
        | cons hd tl =>
          rw [List.getLast?_cons_cons, ← hs]
          exact ih
      · rw [if_neg hc]
        cases hs : splitOnChar sep (d :: rest) with
        | nil => exact absurd hs (splitOnChar_ne_nil sep (d :: rest))
        | cons hd tl =>
          cases tl with
          | nil => simp
          | cons t1 ts =>
            rw [List.getLast?_cons_cons]
            rw [hs] at ih
            rw [List.getLast?_cons_cons] at ih
            exact ih

theorem splitOnChar_head {sep c : Char} (rest : Str) (hc : ¬ c = sep) :
    ∃ hd tl, splitOnChar sep (c :: rest) = (c :: hd) :: tl ∧
      splitOnChar sep rest = hd :: tl := by
  rw [splitOnChar.eq_def]
  dsimp only
  rw [if_neg hc]
  cases hs : splitOnChar sep rest with
  | nil => exact absurd hs (splitOnChar_ne_nil sep rest)
  | cons hd tl => exact ⟨hd, tl, rfl, rfl⟩

theorem rustLines_eq_splitOnChar {s : Str} (hcr : '\r' ∉ s) (hne : s ≠ [])
    (hlast : s.getLast? ≠ some '\n') : rustLines s = splitOnChar '\n' s := by
  simp only [rustLines]
  rw [if_neg (splitOnChar_getLast_ne_nil s hlast hne)]
  have hid : ∀ l ∈ splitOnChar '\n' s, dropTrailingCR l = l := by
    intro l hl
    apply dropTrailingCR_of_not_mem
    intro hm
    exact hcr (mem_splitOnChar hl '\r' hm)
  rw [show (splitOnChar '\n' s).map dropTrailingCR =
    (splitOnChar '\n' s).map id from List.map_congr_left hid, List.map_id]

theorem snd_mem_of_mem_enumFrom {α : Type} {n : Nat} {l : List α} {p : Nat × α}
    (hp : p ∈ List.enumFrom n l) : p.2 ∈ l := by
  obtain ⟨i, x⟩ := p
  have hx := (List.mem_enumFrom hp).2.2
  simp only at hx
  rw [hx]
  exact List.getElem_mem _

theorem fst_pos_of_mem_enumFrom {α : Type} {n : Nat} {l : List α} {p : Nat × α}
    (hp : p ∈ List.enumFrom n l) : n ≤ p.1 := by
  obtain ⟨i, x⟩ := p
  exact (List.mem_enumFrom hp).1

theorem rustLines_writtenBody (cw u : Nat) (L : List Str)
    (hnlL : ∀ l ∈ L, '\n' ∉ l) (hcrL : ∀ l ∈ L, '\x0d' ∉ l) :
    rustLines ('\n' :: ((L.map (fun l =>
        (if rustTrim l = [] then [] else spacesN cw ++ l) ++ ['\n'])).flatten ++
      spacesN u)) =
      [] :: (L.map (fun l => if rustTrim l = [] then [] else spacesN cw ++ l)) ++
        (if u = 0 then [] else [spacesN u]) := by
  have hnl_wl : ∀ x ∈ L.map (fun l => if rustTrim l = [] then [] else spacesN cw ++ l),
      '\n' ∉ x := by
    intro x hx hm
    rcases List.mem_map.mp hx with ⟨l, hl, rfl⟩
    by_cases ht : rustTrim l = []
    · rw [if_pos ht] at hm
      simp at hm
    · rw [if_neg ht] at hm
      rcases List.mem_append.mp hm with h | h
      · exact absurd (List.eq_of_mem_replicate h) (by decide)
      · exact hnlL l hl h
  have hcr_wl : ∀ x ∈ L.map (fun l => if rustTrim l = [] then [] else spacesN cw ++ l),
      '\x0d' ∉ x := by
    intro x hx hm
    rcases List.mem_map.mp hx with ⟨l, hl, rfl⟩
    by_cases ht : rustTrim l = []
    · rw [if_pos ht] at hm
      simp at hm
    · rw [if_neg ht] at hm
      rcases List.mem_append.mp hm with h | h
      · exact absurd (List.eq_of_mem_replicate h) (by decide)
      · exact hcrL l hl h
  have hnl_sp : '\n' ∉ spacesN u := fun hm =>
    absurd (List.eq_of_mem_replicate hm) (by decide)
  have hsplit : splitOnChar '\n' ('\n' :: ((L.map (fun l =>
      (if rustTrim l = [] then [] else spacesN cw ++ l) ++ ['\n'])).flatten ++
      spacesN u)) =
      [] :: ((L.map (fun l => if rustTrim l = [] then [] else spacesN cw ++ l)) ++
        [spacesN u]) := by
    rw [splitOnChar.eq_def]
    dsimp only
    rw [if_pos rfl]
    rw [show (L.map (fun l =>
      (if rustTrim l = [] then [] else spacesN cw ++ l) ++ ['\n'])) =
      ((L.map (fun l => if rustTrim l = [] then [] else spacesN cw ++ l)).map
        (fun x => x ++ ['\n'])) from by rw [List.map_map]; rfl]
    rw [splitOnChar_flatten _ hnl_wl _ hnl_sp]
  simp only [rustLines]
  rw [hsplit]
  have hdtc : ∀ x ∈ ([] :: ((L.map (fun l =>
      if rustTrim l = [] then [] else spacesN cw ++ l)) ++ [spacesN u])),
      dropTrailingCR x = x := by
    intro x hx
    rcases List.mem_cons.mp hx with rfl | hx
    · rfl
    · rcases List.mem_append.mp hx with h | h
      · exact dropTrailingCR_of_not_mem (hcr_wl x h)
      · rw [List.mem_singleton.mp h]
        exact dropTrailingCR_of_not_mem (fun hm =>
          absurd (List.eq_of_mem_replicate hm) (by decide))
  have hgl : (([] : Str) :: ((L.map (fun l =>
      if rustTrim l = [] then [] else spacesN cw ++ l)) ++ [spacesN u])).getLast? =
      some (spacesN u) := by
    rw [show (([] : Str) :: ((L.map (fun l =>
      if rustTrim l = [] then [] else spacesN cw ++ l)) ++ [spacesN u])) =
      (([] : Str) :: (L.map (fun l =>
        if rustTrim l = [] then [] else spacesN cw ++ l))) ++ [spacesN u] from by
      simp]
    exact List.getLast?_concat _
  by_cases hu : u = 0
  · subst hu
    rw [if_pos (by rw [hgl]; rfl)]
    rw [show (([] : Str) :: ((L.map (fun l =>
      if rustTrim l = [] then [] else spacesN cw ++ l)) ++ [spacesN 0])) =
      (([] : Str) :: (L.map (fun l =>
        if rustTrim l = [] then [] else spacesN cw ++ l))) ++ [spacesN 0] from by
      simp]
    rw [List.dropLast_concat]
    rw [if_pos rfl, List.append_nil]
    rw [show (([] : Str) :: (L.map (fun l =>
      if rustTrim l = [] then [] else spacesN cw ++ l))).map dropTrailingCR =
      (([] : Str) :: (L.map (fun l =>
        if rustTrim l = [] then [] else spacesN cw ++ l))).map id from
      List.map_congr_left (fun x hx => hdtc x (by
        rcases List.mem_cons.mp hx with rfl | hx
        · exact List.mem_cons_self _ _
        · exact List.mem_cons_of_mem _ (List.mem_append_left _ hx)))]
    rw [List.map_id]
  · rw [if_neg (by
      rw [hgl]
      intro hcon
      have : spacesN u = [] := by injection hcon
      exact hu (by simpa [spacesN, List.replicate_eq_nil_iff] using this))]
    rw [if_neg hu]
    rw [show (([] : Str) :: ((L.map (fun l =>
      if rustTrim l = [] then [] else spacesN cw ++ l)) ++ [spacesN u])).map
        dropTrailingCR =
      (([] : Str) :: ((L.map (fun l =>
        if rustTrim l = [] then [] else spacesN cw ++ l)) ++ [spacesN u])).map id from
      List.map_congr_left hdtc]
    rw [List.map_id]
    simp

theorem unquote_block_shell (mid : Str) :
    unquote_block_string (['"', '"', '"'] ++ (mid ++ ['"', '"', '"'])) =
      (match (blockScan (rustLines mid)).firstNonEmpty with
       | none => Except.ok []
       | some first =>
         match (((rustLines mid).enum.drop first).take
             ((blockScan (rustLines mid)).lastNonEmpty - first + 1)).mapM
             (fun p => stripLine (blockScan (rustLines mid)).commonIndent p.1 p.2) with
         | none => Except.error UnquoteErr.slicePanic
         | some stripped =>
           Except.ok (List.intercalate ['\n'] (stripped.map replaceEscToTri))) := by
  have htake : (['"', '"', '"'] ++ (mid ++ ['"', '"', '"'])).take 3 =
      ['"', '"', '"'] := by
    rw [show (3 : Nat) = (['"', '"', '"'] : Str).length from rfl]
    exact List.take_left _ _
  have hlen : (['"', '"', '"'] ++ (mid ++ ['"', '"', '"'])).length =
      mid.length + 6 := by simp
  have hrev : (['"', '"', '"'] ++ (mid ++ ['"', '"', '"'])).reverse.take 3 =
      ['"', '"', '"'] := by
    rw [List.reverse_append, List.reverse_append]
    rw [show (['"', '"', '"'] : Str).reverse = ['"', '"', '"'] from rfl]
    rw [List.append_assoc]
    rw [show (3 : Nat) = (['"', '"', '"'] : Str).length from rfl]
    exact List.take_left _ _
  have hinner : ((['"', '"', '"'] ++ (mid ++ ['"', '"', '"'])).drop 3).take
      ((['"', '"', '"'] ++ (mid ++ ['"', '"', '"'])).length - 6) = mid := by
    rw [hlen]
    rw [show (3 : Nat) = (['"', '"', '"'] : Str).length from rfl]
    rw [List.drop_left]
    have h6 : mid.length + 6 - 6 = mid.length := by omega
    rw [h6]
    exact List.take_left _ _
  simp only [unquote_block_string, List.append_assoc]
  rw [if_pos ⟨htake, by rw [hlen]; omega, hrev⟩]
  rw [hinner]

theorem unquote_block_core (cw : Nat) (L T : List Str)
    (hws : ∀ l ∈ L, wsOnly l = true → l = [])
    (hzero : ∃ l ∈ L, l ≠ [] ∧ indentBytes l = 0)
    (hfirst : ∃ l0 L2, L = l0 :: L2 ∧ l0 ≠ [])
    (hlast : ∃ ll, L.getLast? = some ll ∧ ll ≠ [])
    (hT : ∀ l ∈ T, wsOnly l = true) :
    (match (blockScan (([] : Str) :: (L.map (fun l => if rustTrim l = [] then [] else spacesN cw ++ l) ++ T))).firstNonEmpty with
     | none => Except.ok []
     | some first =>
       match ((((([] : Str) :: (L.map (fun l => if rustTrim l = [] then [] else spacesN cw ++ l) ++ T))).enum.drop first).take
           ((blockScan (([] : Str) :: (L.map (fun l => if rustTrim l = [] then [] else spacesN cw ++ l) ++ T))).lastNonEmpty - first + 1)).mapM
           (fun p => stripLine (blockScan (([] : Str) :: (L.map (fun l => if rustTrim l = [] then [] else spacesN cw ++ l) ++ T))).commonIndent p.1 p.2) with
       | none => Except.error UnquoteErr.slicePanic
       | some stripped =>
         Except.ok (List.intercalate ['\n'] (stripped.map replaceEscToTri))) =
    Except.ok (List.intercalate ['\n'] (L.map replaceEscToTri)) := by
  obtain ⟨l0, L2, rfl, hl0⟩ := hfirst
  obtain ⟨ll, hllE, hllne⟩ := hlast
  rw [blockScan_eq]
  dsimp only
  have hfilT : (List.enumFrom (1 + ((l0 :: L2).map (fun l =>
      if rustTrim l = [] then [] else spacesN cw ++ l)).length) T).filter
      (fun p => ¬ wsOnly p.2) = [] := by
    rw [List.filter_eq_nil_iff]
    intro p hp
    have := hT p.2 (snd_mem_of_mem_enumFrom hp)
    simp [this]
  have hEfilter : (((([] : Str) :: ((l0 :: L2).map (fun l =>
      if rustTrim l = [] then [] else spacesN cw ++ l) ++ T)).enum).filter
      (fun p => ¬ wsOnly p.2)) =
      ((List.enumFrom 1 (l0 :: L2)).filter (fun p => ¬ p.2.isEmpty)).map
        (fun p => (p.1, spacesN cw ++ p.2)) := by
    rw [show ((([] : Str) :: ((l0 :: L2).map (fun l =>
        if rustTrim l = [] then [] else spacesN cw ++ l) ++ T)).enum) =
      (0, ([] : Str)) :: List.enumFrom 1 ((l0 :: L2).map (fun l =>
        if rustTrim l = [] then [] else spacesN cw ++ l) ++ T) from rfl]
    rw [List.filter_cons]
    rw [if_neg (by simp [wsOnly]; rfl)]
    rw [List.enumFrom_append]
    rw [List.filter_append]
    rw [hfilT, List.append_nil]
    exact enum_filter_written cw 1 (l0 :: L2) hws
  have hhead : ((List.enumFrom 1 (l0 :: L2)).filter
      (fun p => ¬ p.2.isEmpty)).head? = some (1, l0) := by
    rw [show List.enumFrom 1 (l0 :: L2) = (1, l0) :: List.enumFrom 2 L2 from rfl]
    rw [List.filter_cons]
    rw [if_pos (by simp [List.isEmpty_iff, hl0])]
    rfl
  have hfirstEq : ((((([] : Str) :: ((l0 :: L2).map (fun l =>
      if rustTrim l = [] then [] else spacesN cw ++ l) ++ T)).enum.filter
      (fun p => ¬ wsOnly p.2)).head?).map (fun p => p.1)) = some 1 := by
    rw [hEfilter, List.head?_map, hhead]
    rfl
  have hglF : ((List.enumFrom 1 (l0 :: L2)).filter
      (fun p => ¬ p.2.isEmpty)).getLast? = some ((l0 :: L2).length, ll) := by
    apply getLast?_filter_of_pos
    · rw [getLast?_enumFrom]
      rw [hllE]
      simp only [Option.map_some']
      rw [show 1 + (l0 :: L2).length - 1 = (l0 :: L2).length from by omega]
    · simp only [decide_eq_true_eq, List.isEmpty_iff]
      exact hllne
  have hlastEq : (((((([] : Str) :: ((l0 :: L2).map (fun l =>
      if rustTrim l = [] then [] else spacesN cw ++ l) ++ T)).enum.filter
      (fun p => ¬ wsOnly p.2)).getLast?).map (fun p => p.1)).getD 0) =
      (l0 :: L2).length := by
    rw [hEfilter, List.getLast?_map, hglF]
    rfl
  have hcommonEq : ((((([] : Str) :: ((l0 :: L2).map (fun l =>
      if rustTrim l = [] then [] else spacesN cw ++ l) ++ T)).enum.filter
      (fun p => ¬ wsOnly p.2)).filter (fun p => p.1 ≠ 0)).map
      (fun p => indentBytes p.2)).min? = some cw := by
    rw [hEfilter]
    have hkeep : ((((List.enumFrom 1 (l0 :: L2)).filter
        (fun p => ¬ p.2.isEmpty)).map
        (fun p => (p.1, spacesN cw ++ p.2))).filter (fun p => p.1 ≠ 0)) =
        (((List.enumFrom 1 (l0 :: L2)).filter (fun p => ¬ p.2.isEmpty)).map
          (fun p => (p.1, spacesN cw ++ p.2))) := by
      rw [List.filter_eq_self]
      intro p hp
      rcases List.mem_map.mp hp with ⟨q, hq2, rfl⟩
      have h1 : 1 ≤ q.1 :=
        fst_pos_of_mem_enumFrom (List.mem_filter.mp hq2).1
      simp only [decide_eq_true_eq]
      omega
    rw [hkeep]
    rw [List.map_map]
    rw [show (((List.enumFrom 1 (l0 :: L2)).filter (fun p => ¬ p.2.isEmpty)).map
        ((fun p => indentBytes p.2) ∘ (fun p => (p.1, spacesN cw ++ p.2)))) =
      (((List.enumFrom 1 (l0 :: L2)).filter (fun p => ¬ p.2.isEmpty)).map
        (fun q => cw + indentBytes q.2)) from
      List.map_congr_left (fun q _ => indentBytes_spacesN_append cw q.2)]
    obtain ⟨lz, hlzmem, hlzne, hlzind⟩ := hzero
    obtain ⟨i, hilt, hiEq⟩ := List.getElem_of_mem hlzmem
    have hmemF : (1 + i, lz) ∈ (List.enumFrom 1 (l0 :: L2)).filter
        (fun p => ¬ p.2.isEmpty) := by
      apply List.mem_filter.mpr
      constructor
      · have hg := List.getElem_enumFrom (l0 :: L2) 1 i
          (by simpa [List.enumFrom_length] using hilt)
        rw [hiEq] at hg
        rw [← hg]
        exact List.getElem_mem _
      · simp [List.isEmpty_iff, hlzne]
    apply min?_eq_some_of_le
    · have hmm := List.mem_map_of_mem (fun q => cw + indentBytes q.2) hmemF
      simpa [hlzind] using hmm
    · intro b hb
      rcases List.mem_map.mp hb with ⟨q, _, rfl⟩
      omega
  rw [hfirstEq]
  dsimp only
  rw [hlastEq, hcommonEq]
  have hwin : ((((([] : Str) :: ((l0 :: L2).map (fun l =>
      if rustTrim l = [] then [] else spacesN cw ++ l) ++ T)).enum).drop 1).take
      ((l0 :: L2).length - 1 + 1)) =
      List.enumFrom 1 ((l0 :: L2).map (fun l =>
        if rustTrim l = [] then [] else spacesN cw ++ l)) := by
    rw [show ((([] : Str) :: ((l0 :: L2).map (fun l =>
        if rustTrim l = [] then [] else spacesN cw ++ l) ++ T)).enum) =
      (0, ([] : Str)) :: List.enumFrom 1 ((l0 :: L2).map (fun l =>
        if rustTrim l = [] then [] else spacesN cw ++ l) ++ T) from rfl]
    rw [List.drop_one, List.tail_cons]
    rw [List.enumFrom_append]
    rw [show (l0 :: L2).length - 1 + 1 =
      (List.enumFrom 1 ((l0 :: L2).map (fun l =>
        if rustTrim l = [] then [] else spacesN cw ++ l))).length from by
      simp [List.enumFrom_length]]
    exact List.take_left _ _
  rw [hwin]
  rw [show List.enumFrom 1 ((l0 :: L2).map (fun l =>
      if rustTrim l = [] then [] else spacesN cw ++ l)) =
    List.enumFrom (0 + 1) ((l0 :: L2).map (fun l =>
      if rustTrim l = [] then [] else spacesN cw ++ l)) from rfl]
  rw [mapM_stripLine_written cw 0 (l0 :: L2) hws]

theorem unquote_writeQuotedBlock (w u : Nat) (s : Str)
    (h2 : ∀ ch ∈ s, ch = '\n' ∨ ch = '\t' ∨ (0x20 ≤ ch.toNat ∧ ch.toNat ≤ 0xFFFF))
    (h4 : s.head? ≠ some '\n')
    (h5 : s.getLast? ≠ some '\n')
    (h6 : ∀ l ∈ rustLines s, wsOnly l = true → l = [])
    (h7 : ∃ l ∈ rustLines s, l ≠ [] ∧ indentBytes l = 0)
    (hne : s ≠ []) :
    unquote_block_string (writeQuotedBlock w u s) = .ok s := by
  have hcr : '\r' ∉ s := by
    intro hm
    rcases h2 '\r' hm with h | h | h
    · exact absurd h (by decide)
    · exact absurd h (by decide)
    · exact absurd h.1 (by decide)
  have hLs : rustLines s = splitOnChar '\n' s := rustLines_eq_splitOnChar hcr hne h5
  have hnlL : ∀ l ∈ rustLines s, '\n' ∉ l := fun l hl => newline_not_mem_rustLines hl
  have hcrL : ∀ l ∈ rustLines s, '\r' ∉ l := fun l hl hm =>
    hcr (mem_of_mem_rustLines hl '\r' hm)
  have hfirstL : ∃ l0 L2, rustLines s = l0 :: L2 ∧ l0 ≠ [] := by
    rw [hLs]
    cases s with
    | nil => exact absurd rfl hne
    | cons c0 s2 =>
      have hc0 : ¬ c0 = '\n' := fun he => h4 (by rw [List.head?_cons, he])
      obtain ⟨hd, tl, heq, _⟩ := splitOnChar_head s2 hc0
      exact ⟨c0 :: hd, tl, heq, List.cons_ne_nil c0 hd⟩
  have hlastL : ∃ ll, (rustLines s).getLast? = some ll ∧ ll ≠ [] := by
    rw [hLs]
    have hgl := splitOnChar_getLast_ne_nil s h5 hne
    cases hL : (splitOnChar '\n' s).getLast? with
    | none =>
      exfalso
      exact splitOnChar_ne_nil '\n' s (List.getLast?_eq_none_iff.mp hL)
    | some ll =>
      refine ⟨ll, rfl, fun he => ?_⟩
      rw [he] at hL
      exact hgl hL
  have hInt : List.intercalate ['\n'] (rustLines s) = s := by
    rw [hLs]
    exact intercalate_splitOnChar '\n' s
  have hsrc : writeQuotedBlock w u s = ['"', '"', '"'] ++
      (('\n' :: ((((rustLines s).map replaceTriToEsc).map (fun l =>
        (if rustTrim l = [] then [] else spacesN (u + w) ++ l) ++ ['\n'])).flatten ++
        spacesN u)) ++ ['"', '"', '"']) := by
    simp only [writeQuotedBlock]
    rw [show ((rustLines s).map replaceTriToEsc).map (fun l =>
        (if rustTrim l = [] then [] else spacesN (u + w) ++ l) ++ ['\n']) =
      (rustLines s).map (fun line =>
        (if rustTrim line = [] then [] else
          spacesN (u + w) ++ replaceTriToEsc line) ++ ['\n']) from by
      rw [List.map_map]
      apply List.map_congr_left
      intro l _
      show (if rustTrim (replaceTriToEsc l) = [] then [] else
          spacesN (u + w) ++ replaceTriToEsc l) ++ ['\n'] = _
      by_cases ht : rustTrim l = []
      · rw [if_pos ht, if_pos ((rustTrim_nil_iff_wsOnly _).mpr
          (by rw [wsOnly_rTE]; exact (rustTrim_nil_iff_wsOnly l).mp ht))]
      · rw [if_neg ht, if_neg (fun hx => ht ((rustTrim_nil_iff_wsOnly l).mpr
          (by rw [← wsOnly_rTE]; exact (rustTrim_nil_iff_wsOnly _).mp hx)))]]
    simp only [List.append_assoc, List.singleton_append, List.cons_append,
      List.nil_append]
  rw [hsrc]
  rw [unquote_block_shell]
  have hnlL2 : ∀ l2 ∈ (rustLines s).map replaceTriToEsc, '\n' ∉ l2 := by
    intro l2 hl2 hm
    rcases List.mem_map.mp hl2 with ⟨l, hl, rfl⟩
    rcases mem_of_mem_rTE hm with h | h
    · exact hnlL l hl h
    · exact absurd h (by decide)
  have hcrL2 : ∀ l2 ∈ (rustLines s).map replaceTriToEsc, '\r' ∉ l2 := by
    intro l2 hl2 hm
    rcases List.mem_map.mp hl2 with ⟨l, hl, rfl⟩
    rcases mem_of_mem_rTE hm with h | h
    · exact hcrL l hl h
    · exact absurd h (by decide)
  rw [rustLines_writtenBody (u + w) u ((rustLines s).map replaceTriToEsc)
    hnlL2 hcrL2]
  have hRET : ((rustLines s).map replaceTriToEsc).map replaceEscToTri =
      rustLines s := by
    rw [List.map_map]
    rw [show (rustLines s).map (replaceEscToTri ∘ replaceTriToEsc) =
      (rustLines s).map (fun l => l) from
      List.map_congr_left (fun l _ => rET_rTE l)]
    rw [List.map_id']
  conv_rhs => rw [← hInt, ← hRET]
  refine unquote_block_core (u + w) ((rustLines s).map replaceTriToEsc)
    (if u = 0 then [] else [spacesN u]) ?_ ?_ ?_ ?_ ?_
  · intro l2 hl2 hws2
    rcases List.mem_map.mp hl2 with ⟨l, hl, rfl⟩
    rw [wsOnly_rTE] at hws2
    rw [h6 l hl hws2]
    rfl
  · obtain ⟨lz, hlzmem, hlzne, hlzind⟩ := h7
    exact ⟨replaceTriToEsc lz, List.mem_map_of_mem _ hlzmem,
      rTE_ne_nil hlzne, indentBytes_rTE_zero hlzind⟩
  · obtain ⟨l0, L2, hEq, hl0⟩ := hfirstL
    exact ⟨replaceTriToEsc l0, L2.map replaceTriToEsc, by rw [hEq]; rfl,
      rTE_ne_nil hl0⟩
  · obtain ⟨ll, hllE, hllne⟩ := hlastL
    refine ⟨replaceTriToEsc ll, ?_, rTE_ne_nil hllne⟩
    rw [List.getLast?_map, hllE]
    rfl
  · intro l hl
    by_cases hu : u = 0
    · rw [if_pos hu] at hl
      simp at hl
    · rw [if_neg hu] at hl
      rw [List.mem_singleton.mp hl]
      exact wsOnly_spacesN u

/-- Claim C1, amended: quote/unquote inverse on the faithful domains.  For
every string whose characters are `'\r'`, `'\t'` or lie in `U+0020..=U+FFFF`
(so the single-line form is chosen and every escape decodes back),
`unquote_string` inverts `write_quoted`; and for every string of newlines,
tabs and `U+0020..=U+FFFF` characters (quotes, backslashes and `\"""`
escaping included) that neither starts nor ends with a newline, has no
non-empty whitespace-only line, and has some line flush at indent zero
(so the block form is chosen and the added indent is exactly the common
indent), `unquote_block_string` inverts `write_quoted`.  The unrestricted
claim is refuted by `c1_roundtrip_counterexample`. -/
theorem c1_quote_unquote_roundtrip (w u : Nat) :
    (∀ s : Str, (∀ ch ∈ s, ch = '\r' ∨ ch = '\t' ∨
        (0x20 ≤ ch.toNat ∧ ch.toNat ≤ 0xFFFF)) →
      unquote_string (writeQuoted w u s) = .ok s) ∧
    (∀ s : Str, '\n' ∈ s →
      (∀ ch ∈ s, ch = '\n' ∨ ch = '\t' ∨ (0x20 ≤ ch.toNat ∧ ch.toNat ≤ 0xFFFF)) →
      s.head? ≠ some '\n' → s.getLast? ≠ some '\n' →
      (∀ l ∈ rustLines s, wsOnly l = true → l = []) →
      (∃ l ∈ rustLines s, l ≠ [] ∧ indentBytes l = 0) →
      unquote_block_string (writeQuoted w u s) = .ok s) := by
  constructor
  · intro s hch
    have hnl : hasNewline s = false := by
      simp only [hasNewline]
      rw [List.any_eq_false]
      intro c hc
      rcases hch c hc with h | h | h
      · subst h; decide
      · subst h; decide
      · simp only [decide_eq_true_eq]
        intro he
        rw [he] at h
        exact absurd h.1 (by decide)
    rw [writeQuoted, if_pos (Or.inl (by simp [hnl]))]
    apply unquote_writeQuotedSingleLine
    intro c hc
    rcases hch c hc with h | h | h
    · exact Or.inr (Or.inl h)
    · exact Or.inr (Or.inr (Or.inl h))
    · exact Or.inr (Or.inr (Or.inr h))
  · intro s h1 h2 h4 h5 h6 h7
    have hne : s ≠ [] := fun he => absurd (he ▸ h1) (List.not_mem_nil '\n')
    have hnl : hasNewline s = true := by
      simp only [hasNewline]
      rw [List.any_eq_true]
      exact ⟨'\n', h1, by decide⟩
    have hnp : hasNonPrintable s = false := by
      simp only [hasNonPrintable]
      rw [List.any_eq_false]
      intro c hc
      rcases h2 c hc with h | h | h
      · subst h; decide
      · subst h; decide
      · have hin : (c = '\n' ∨ c = '\r' ∨ c = '\t' ∨
            (0x20 ≤ c.toNat ∧ c.toNat ≤ 0xFFFF)) :=
          Or.inr (Or.inr (Or.inr h))
        simp [isNonPrintable, hin]
    rw [writeQuoted, if_neg (by simp [hnl, hnp])]
    exact unquote_writeQuotedBlock w u s h2 h4 h5 h6 h7 hne

/-- Witness for C1: a concrete single-line string with a tab and a concrete
two-line block string containing a quote and a tab, instantiating both
halves of the amended roundtrip. -/
theorem c1_quote_unquote_roundtrip_witness :
    unquote_string (writeQuoted 2 0 ['a', '\t', 'b']) = .ok ['a', '\t', 'b'] ∧
    unquote_block_string (writeQuoted 2 0 ['a', '"', '\n', ' ', '\t', 'b']) =
      .ok ['a', '"', '\n', ' ', '\t', 'b'] :=
  ⟨(c1_quote_unquote_roundtrip 2 0).1 ['a', '\t', 'b'] (by decide),
   (c1_quote_unquote_roundtrip 2 0).2 ['a', '"', '\n', ' ', '\t', 'b'] (by decide)
     (by decide) (by decide) (by decide) (by decide) (by decide)⟩

end GraphQLParser
